import Mathlib

/-!
# bulk::reduce — a group-cooperative reduction

Shallow embedding of `src/bulk/algorithm/reduce.hpp`.

A group of `groupsize` workers runs the same code in lock step and meets at the
barriers `g.wait()`.  Between two barriers every worker touches only its own
registers and the scratch buffer, so one barrier interval is modelled as the
workers `0, 1, …, groupsize-1` taking their turn one after the other on the
shared state.

Storage that the C++ code leaves uninitialised (`T this_sum;`, `T inputs[grainsize];`,
the freshly allocated scratch `buffer`) is given arbitrary contents through a
value of `Uninit`; theorems quantify over it.

The sizes the code keeps in `int` (`size_type`) are 32-bit here: `elements_per_group`
(line 68), `partition_size` (line 87), `index` (lines 105 and 116) and the live
count of line 135 are computed with `to_int32` and `to_size_t`, so they wrap as
the code's do.  The loop counter `i`, which stays below `grainsize`, and the worker
index, which stays below `groupsize`, are natural numbers.  A call without a
defined result is `none`: a read outside the input, a `first` moved before the
start of the input, or a loop that does not end.

The definitions whose name ends in `_ideal` are the same code over unbounded
integers.  They are a device of the proofs: in the 32-bit range the code agrees
with them (`reduce_value_eq_ideal`), and no statement about the code is made of
them alone.

The scratch accesses and barrier calls of one worker are listed, in program
order, by `reduce_events`; a barrier is counted, its blocking is not modelled.  The
tile loop (lines 85–125) touches neither the scratch buffer nor a barrier and adds
nothing to the list.  The two statements that test the worker's index or its flag,
lines 32–37 and 127–130, are `tree_branch` and `store_branch`.

Ghost fields (`consumed`, `applied`, `calls`, `stores`) record what the code did;
they do not influence any computed value.
-/

namespace bulk

variable {T : Type}

/-! ## State -/

/-- Contents of the storage that the code declares without initialising it. -/
structure Uninit (T : Type) where
  /-- worker ↦ what `T this_sum;` (line 72) holds before the first assignment -/
  this_sum : Nat → T
  /-- worker ↦ tile start ↦ register ↦ what `T inputs[grainsize];` (line 90) holds -/
  inputs : Nat → Nat → Nat → T
  /-- slot ↦ what the scratch `buffer` (lines 79–82) holds when acquired -/
  buffer : Nat → T

/-- Registers of one worker during the tile loop of `reduce` (lines 72–125). -/
structure Regs (T : Type) where
  /-- the running value `this_sum` -/
  this_sum : T
  /-- the flag `this_sum_defined` -/
  this_sum_defined : Bool
  /-- ghost: how many input elements the worker folded (executions of lines 119–120) -/
  consumed : Nat
  /-- ghost: how many times the worker called `binary_op` -/
  applied : Nat

/-- State shared by the group: the scratch buffer, with ghost bookkeeping. -/
structure Group (T : Type) where
  /-- the scratch buffer `buffer` / `first` of `destructive_reduce_n` -/
  buffer : Nat → T
  /-- ghost: worker ↦ number of `binary_op` calls made so far -/
  calls : Nat → Nat
  /-- ghost: the slots written so far (lines 129 and 36), latest first -/
  stores : List Nat

/-! ## 32-bit index arithmetic -/

/-- Conversion to `int` (`size_type`), 32-bit two's complement: the value modulo
`2^32` in the range `[-2^31, 2^31)`. -/
def to_int32 (x : Int) : Int :=
  (x + 2 ^ 31) % 2 ^ 32 - 2 ^ 31

/-- Arithmetic in `std::size_t`, 64-bit unsigned: the value modulo `2^64`. -/
def to_size_t (x : Int) : Int :=
  x % 2 ^ 64

/-- Line 68: `const size_type elements_per_group = groupsize * grainsize;`, the
product taken in `std::size_t` and converted to `int`. -/
def elements_per_group32 (groupsize grainsize : Nat) : Int :=
  to_int32 (to_size_t ((groupsize : Int) * (grainsize : Int)))

/-- Line 87: `thrust::min<size_type>(elements_per_group, last - first)` when `first`
has advanced by `off` in an input of length `n`; the difference is converted to
`int`. -/
def partition_size32 (groupsize grainsize n off : Nat) : Int :=
  min (elements_per_group32 groupsize grainsize) (to_int32 ((n : Int) - (off : Int)))

/-- Lines 105 and 116: `size_type index = groupsize * i + tid;`, computed in
`std::size_t` and converted to `int`. -/
def index32 (groupsize i tid : Nat) : Int :=
  to_int32 (to_size_t (to_size_t ((groupsize : Int) * (i : Int)) + (tid : Int)))

/-- Line 135: `thrust::min<size_type>(groupsize, n)`, both arguments converted to
`int`. -/
def live_count32 (groupsize n : Nat) : Int :=
  min (to_int32 (groupsize : Int)) (to_int32 (n : Int))

/-- Line 98: the subscript `groupsize * i + tid` of `first[groupsize * i + tid]`,
computed in `std::size_t` and used as it is. -/
def index64 (groupsize i tid : Nat) : Int :=
  to_size_t (to_size_t ((groupsize : Int) * (i : Int)) + (tid : Int))

/-! ## The code -/

/-- A read `first[…]` at `pos` elements from the start of the input: the element
when the position lies inside the input, `none` when it lies outside. -/
def read_at (a : List T) (pos : Int) : Option T :=
  if 0 ≤ pos then a[pos.toNat]? else none

/-- Lines 94–111: the strided load of one tile into the registers `inputs`.
`off` is how far `first` has advanced; a full tile loads all `grainsize`
registers, a short one only the indices below `partition_size`. -/
def load_inputs (groupsize grainsize tid : Nat) (a : List T) (off : Nat) (partition_size : Int)
    (inputs : Nat → T) : Option (Nat → T) :=
  let elements_per_group := elements_per_group32 groupsize grainsize
  if partition_size ≥ elements_per_group then
    (List.range grainsize).foldlM
      (fun inp i =>
        (read_at a ((off : Int) + index64 groupsize i tid)).map
          (fun x => Function.update inp i x))
      inputs
  else
    (List.range grainsize).foldlM
      (fun inp i =>
        let index := index32 groupsize i tid
        if index < partition_size then
          (read_at a ((off : Int) + index)).map (fun x => Function.update inp i x)
        else some inp)
      inputs

/-- Lines 114–122: the sequential sum of one tile into `this_sum`. -/
def sum_inputs (groupsize grainsize tid : Nat) (partition_size : Int) (binary_op : T → T → T)
    (inputs : Nat → T) (r : Regs T) : Regs T :=
  (List.range grainsize).foldl
    (fun r i =>
      let index := index32 groupsize i tid
      if index < partition_size then
        let x := inputs i
        if i != 0 || r.this_sum_defined then
          ⟨binary_op r.this_sum x, r.this_sum_defined, r.consumed + 1, r.applied + 1⟩
        else
          ⟨x, r.this_sum_defined, r.consumed + 1, r.applied⟩
      else r)
    r

/-- Lines 85–125: the tile loop of worker `tid`; `off` is the distance `first`
has advanced.  `first += elements_per_group` with a negative `elements_per_group`
leaves the input backwards, which ends the model with `none`.  The fuel bounds
the number of iterations. -/
def tile_loop (groupsize grainsize tid : Nat) (u : Uninit T) (a : List T)
    (binary_op : T → T → T) : Nat → Nat → Regs T → Option (Regs T)
  | 0, _, _ => none
  | fuel + 1, off, r =>
    if off < a.length then
      let elements_per_group := elements_per_group32 groupsize grainsize
      let partition_size := partition_size32 groupsize grainsize a.length off
      (load_inputs groupsize grainsize tid a off partition_size (u.inputs tid off)).bind
        fun inputs =>
          let r1 := sum_inputs groupsize grainsize tid partition_size binary_op inputs r
          if 0 ≤ (off : Int) + elements_per_group then
            tile_loop groupsize grainsize tid u a binary_op fuel
              ((off : Int) + elements_per_group).toNat
              ⟨r1.this_sum, true, r1.consumed, r1.applied⟩
          else none
    else some r

/-- Lines 72–125 for worker `tid`: registers after the tile loop. -/
def accumulate (groupsize grainsize : Nat) (u : Uninit T) (a : List T)
    (binary_op : T → T → T) (tid : Nat) : Option (Regs T) :=
  tile_loop groupsize grainsize tid u a binary_op (a.length + 1) 0
    ⟨u.this_sum tid, false, 0, 0⟩

/-- Lines 127–130 for worker `tid`: `if(this_sum_defined) buffer[tid] = this_sum;`. -/
def store_sum (tid : Nat) (r : Regs T) (G : Group T) : Group T :=
  if r.this_sum_defined then
    ⟨Function.update G.buffer tid r.this_sum, Function.update G.calls tid r.applied,
      tid :: G.stores⟩
  else
    ⟨G.buffer, Function.update G.calls tid r.applied, G.stores⟩

/-- Lines 72–132 for the whole group: every worker accumulates and stores, up to
the barrier of line 132. -/
def write_sums (groupsize grainsize : Nat) (u : Uninit T) (a : List T)
    (binary_op : T → T → T) : Option (Group T) :=
  (List.range groupsize).foldlM
    (fun G tid => (accumulate groupsize grainsize u a binary_op tid).map
      fun r => store_sum tid r G)
    ⟨u.buffer, fun _ => 0, []⟩

/-- Lines 30–37 for worker `tid` in a round with live count `m`. -/
def tree_worker (binary_op : T → T → T) (m tid : Nat) (G : Group T) : Group T :=
  let half_m := m >>> 1
  if tid < half_m then
    let old_val := G.buffer tid
    ⟨Function.update G.buffer tid (binary_op old_val (G.buffer (m - tid - 1))),
      Function.update G.calls tid (G.calls tid + 1), tid :: G.stores⟩
  else G

/-- One round of the tree (lines 30–39) for the whole group, up to its barrier. -/
def tree_round (groupsize : Nat) (binary_op : T → T → T) (m : Nat) (G : Group T) : Group T :=
  (List.range groupsize).foldl (fun G tid => tree_worker binary_op m tid G) G

/-- Lines 28–42: `while(m > 1)`.  Returns the final live count, the number of
rounds run and the shared state. -/
def tree_loop (groupsize : Nat) (binary_op : T → T → T) :
    Nat → Nat → Nat → Group T → Option (Nat × Nat × Group T)
  | 0, _, _, _ => none
  | fuel + 1, m, rounds, G =>
    if m > 1 then
      let half_m := m >>> 1
      tree_loop groupsize binary_op fuel (m - half_m) (rounds + 1)
        (tree_round groupsize binary_op m G)
    else some (m, rounds, G)

/-- Lines 19–51: the value `destructive_reduce_n` returns, and the shared state
once every worker has returned.  `n` is an `int`; the loop body runs for `m > 1`
only, so its live counts are taken as naturals.  Line 46 reads the shared slot 0
and is executed by every worker of the group, so `_tid` does not enter. -/
def destructive_reduce_n (groupsize : Nat) (first : Group T) (n : Int) (init : T)
    (binary_op : T → T → T) (_tid : Nat) : Option (T × Group T) :=
  (tree_loop groupsize binary_op (n.toNat + 1) n.toNat 0 first).map fun s =>
    let G := s.2.2
    if n > 0 then
      (binary_op init (G.buffer 0),
        ⟨G.buffer, fun w => if w < groupsize then G.calls w + 1 else G.calls w, G.stores⟩)
    else (init, G)

/-- Lines 58–142 as seen by worker `tid`: `bulk::reduce`. -/
def reduce (groupsize grainsize : Nat) (u : Uninit T) (a : List T) (init : T)
    (binary_op : T → T → T) (tid : Nat) : Option (T × Group T) :=
  (write_sums groupsize grainsize u a binary_op).bind fun buffer =>
    destructive_reduce_n groupsize buffer (live_count32 groupsize a.length) init binary_op tid

/-- The value `bulk::reduce` returns to worker `tid`. -/
def reduce_value (groupsize grainsize : Nat) (u : Uninit T) (a : List T) (init : T)
    (binary_op : T → T → T) (tid : Nat) : Option T :=
  (reduce groupsize grainsize u a init binary_op tid).map Prod.fst

/-- Some contents for the uninitialised storage, used in the worked examples. -/
def garbage : Uninit Nat :=
  ⟨fun w => 700 + w, fun w off i => 800 + w + off + i, fun slot => 900 + slot⟩

/-- Some contents for the uninitialised storage when the values are lists. -/
def garbage_lists : Uninit (List Nat) :=
  ⟨fun w => [700 + w], fun w off i => [800 + w + off + i], fun slot => [900 + slot]⟩

/-- Some contents for the uninitialised storage when the values are integers. -/
def garbage_ints : Uninit Int :=
  ⟨fun w => -700 - w, fun w off i => 800 + w + off + i, fun slot => -900 - slot⟩

/-! ## Scratch accesses and barriers of one worker -/

/-- Lines 32–36: the scratch slots worker `tid` reads in a round with live count
`m`: its own slot `first[tid]` and the mirror `first[m - tid - 1]`. -/
def tree_reads (m tid : Nat) : List Nat :=
  let half_m := m >>> 1
  if tid < half_m then [tid, m - tid - 1] else []

/-- Lines 32–36: the scratch slots worker `tid` writes in a round with live count
`m`: its own slot `first[tid]`. -/
def tree_writes (m tid : Nat) : List Nat :=
  let half_m := m >>> 1
  if tid < half_m then [tid] else []

/-- What a worker does to the shared scratch buffer, and its barrier calls. -/
inductive Access where
  /-- a read of `buffer[slot]` -/
  | load (slot : Nat)
  /-- a write of `buffer[slot]` -/
  | store (slot : Nat)
  /-- a call of `g.wait()` -/
  | wait
  deriving DecidableEq

/-- Lines 32–37: the statement `if(tid < half_m) { … }` of a round with live count
`m`, the only one of `destructive_reduce_n` that tests the worker index: its reads
and its write, in program order. -/
def tree_branch (m tid : Nat) : List Access :=
  (tree_reads m tid).map Access.load ++ (tree_writes m tid).map Access.store

/-- Lines 127–130: the statement `if(this_sum_defined) buffer[tid] = this_sum;`. -/
def store_branch (this_sum_defined : Bool) (tid : Nat) : List Access :=
  if this_sum_defined then [Access.store tid] else []

/-- Lines 28–42 for worker `tid`: in every round of `while(m > 1)` the branch of
lines 32–37, then the barrier of line 39. -/
def tree_events (tid : Nat) : Nat → Nat → Option (List Access)
  | 0, _ => none
  | fuel + 1, m =>
    if m > 1 then
      let half_m := m >>> 1
      (tree_events tid fuel (m - half_m)).map fun rest =>
        tree_branch m tid ++ [Access.wait] ++ rest
    else some []

/-- Lines 26–50 for worker `tid`: the tree rounds, the barrier of line 44, the read
of `first[0]` when `n > 0`, and the barrier of line 48. -/
def destructive_reduce_n_events (tid : Nat) (n : Int) : Option (List Access) :=
  (tree_events tid (n.toNat + 1) n.toNat).map fun rounds =>
    rounds ++ [Access.wait] ++ (if n > 0 then [Access.load 0] else []) ++ [Access.wait]

/-- Lines 127–135 for worker `tid` once its tile loop is done: the guarded store of
lines 127–130, the barrier of line 132 and the call of `destructive_reduce_n`. -/
def reduce_events (groupsize grainsize : Nat) (u : Uninit T) (a : List T)
    (binary_op : T → T → T) (tid : Nat) : Option (List Access) :=
  (accumulate groupsize grainsize u a binary_op tid).bind fun r =>
    (destructive_reduce_n_events tid (live_count32 groupsize a.length)).map fun ev =>
      store_branch r.this_sum_defined tid ++ [Access.wait] ++ ev

/-- The state of the tree loop after `j` rounds, or at its exit when it ends before:
the live count and the shared state. -/
def tree_after (groupsize : Nat) (binary_op : T → T → T) : Nat → Nat → Group T → Nat × Group T
  | 0, m, G => (m, G)
  | j + 1, m, G =>
    if m > 1 then
      let half_m := m >>> 1
      tree_after groupsize binary_op j (m - half_m) (tree_round groupsize binary_op m G)
    else (m, G)

/-- The value worker `tid` gets from `destructive_reduce_n`, followed through its
own trip: it leaves the loop after the barriers of its own rounds, the shared state
is then the state of the group after that many rounds, and line 46 reads `first[0]`
from it. -/
def returned_to (groupsize : Nat) (first : Group T) (n : Int) (init : T)
    (binary_op : T → T → T) (tid : Nat) : Option T :=
  (tree_events tid (n.toNat + 1) n.toNat).map fun ev =>
    let rounds := ev.count Access.wait
    if n > 0 then
      binary_op init ((tree_after groupsize binary_op rounds n.toNat first).2.buffer 0)
    else init

/-! ## The code over unbounded integers -/

/-- The strided load of `load_inputs` with `partition_size` and the indices taken
as natural numbers. -/
def load_inputs_ideal (groupsize grainsize tid : Nat) (a : List T) (off partition_size : Nat)
    (inputs : Nat → T) : Option (Nat → T) :=
  if partition_size ≥ groupsize * grainsize then
    (List.range grainsize).foldlM
      (fun inp i => (a[off + (groupsize * i + tid)]?).map (fun x => Function.update inp i x))
      inputs
  else
    (List.range grainsize).foldlM
      (fun inp i =>
        let index := groupsize * i + tid
        if index < partition_size then
          (a[off + index]?).map (fun x => Function.update inp i x)
        else some inp)
      inputs

/-- The sequential sum of `sum_inputs` with `partition_size` and the indices taken
as natural numbers. -/
def sum_inputs_ideal (groupsize grainsize tid partition_size : Nat) (binary_op : T → T → T)
    (inputs : Nat → T) (r : Regs T) : Regs T :=
  (List.range grainsize).foldl
    (fun r i =>
      let index := groupsize * i + tid
      if index < partition_size then
        let x := inputs i
        if i != 0 || r.this_sum_defined then
          ⟨binary_op r.this_sum x, r.this_sum_defined, r.consumed + 1, r.applied + 1⟩
        else
          ⟨x, r.this_sum_defined, r.consumed + 1, r.applied⟩
      else r)
    r

/-- The tile loop of `tile_loop` with `elements_per_group` and `partition_size`
taken as natural numbers. -/
def tile_loop_ideal (groupsize grainsize tid : Nat) (u : Uninit T) (a : List T)
    (binary_op : T → T → T) : Nat → Nat → Regs T → Option (Regs T)
  | 0, _, _ => none
  | fuel + 1, off, r =>
    if off < a.length then
      let elements_per_group := groupsize * grainsize
      let partition_size := min elements_per_group (a.length - off)
      (load_inputs_ideal groupsize grainsize tid a off partition_size (u.inputs tid off)).bind
        fun inputs =>
          let r1 := sum_inputs_ideal groupsize grainsize tid partition_size binary_op inputs r
          tile_loop_ideal groupsize grainsize tid u a binary_op fuel (off + elements_per_group)
            ⟨r1.this_sum, true, r1.consumed, r1.applied⟩
    else some r

/-- Registers of worker `tid` after `tile_loop_ideal`. -/
def accumulate_ideal (groupsize grainsize : Nat) (u : Uninit T) (a : List T)
    (binary_op : T → T → T) (tid : Nat) : Option (Regs T) :=
  tile_loop_ideal groupsize grainsize tid u a binary_op (a.length + 1) 0
    ⟨u.this_sum tid, false, 0, 0⟩

/-- The stores of `write_sums` after `accumulate_ideal`. -/
def write_sums_ideal (groupsize grainsize : Nat) (u : Uninit T) (a : List T)
    (binary_op : T → T → T) : Option (Group T) :=
  (List.range groupsize).foldlM
    (fun G tid => (accumulate_ideal groupsize grainsize u a binary_op tid).map
      fun r => store_sum tid r G)
    ⟨u.buffer, fun _ => 0, []⟩

/-- The value of `destructive_reduce_n` for a live count that is a natural number. -/
def destructive_reduce_n_ideal (groupsize : Nat) (first : Group T) (n : Nat) (init : T)
    (binary_op : T → T → T) (_tid : Nat) : Option (T × Group T) :=
  (tree_loop groupsize binary_op (n + 1) n 0 first).map fun s =>
    let G := s.2.2
    if n > 0 then
      (binary_op init (G.buffer 0),
        ⟨G.buffer, fun w => if w < groupsize then G.calls w + 1 else G.calls w, G.stores⟩)
    else (init, G)

/-- The call `reduce` with the live count `min groupsize N` taken as a natural
number. -/
def reduce_ideal (groupsize grainsize : Nat) (u : Uninit T) (a : List T) (init : T)
    (binary_op : T → T → T) (tid : Nat) : Option (T × Group T) :=
  (write_sums_ideal groupsize grainsize u a binary_op).bind fun buffer =>
    destructive_reduce_n_ideal groupsize buffer (min groupsize a.length) init binary_op tid

/-- The value of `reduce_ideal`. -/
def reduce_value_ideal (groupsize grainsize : Nat) (u : Uninit T) (a : List T) (init : T)
    (binary_op : T → T → T) (tid : Nat) : Option T :=
  (reduce_ideal groupsize grainsize u a init binary_op tid).map Prod.fst

/-! ## Reference notions used by the statements -/

/-- Fold one more element into a value that may still be unset: the first
element sets the value, every later one is combined with `binary_op`. -/
def absorb (binary_op : T → T → T) : Option T → T → Option T
  | none, x => some x
  | some s, x => some (binary_op s x)

/-- Left-to-right fold of a list without an initial value: `none` for the
empty list, `some (op (… (op x0 x1) …) xn)` otherwise. -/
def fold1 (binary_op : T → T → T) (l : List T) : Option T :=
  l.foldl (absorb binary_op) none

/-- The elements of `a` at the indices below `a.length` that are congruent to `t`
modulo `groupsize`, in increasing order of index: `a[t], a[t+groupsize], …`. -/
def assigned (groupsize t : Nat) (a : List T) : List T :=
  ((List.range a.length).filter (fun i => i % groupsize = t)).filterMap (fun i => a[i]?)

/-- What a worker has accumulated: nothing as long as it folded no element. -/
def Regs.view (r : Regs T) : Option T :=
  if r.consumed = 0 then none else some r.this_sum

/-- The register values a worker folds in one tile, in register order: register
`i` takes part when its index `groupsize * i + tid` is below `partition_size`. -/
def taken (groupsize tid partition_size : Nat) (inputs : Nat → T) (n : Nat) : List T :=
  (List.range n).filterMap
    (fun i => if groupsize * i + tid < partition_size then some (inputs i) else none)

/-- The input elements `a[tid + groupsize * j]` for `j = s, …, s + n - 1`, skipping
the indices past the end of `a`. -/
def stream (groupsize tid : Nat) (a : List T) (s n : Nat) : List T :=
  (List.range' s n).filterMap (fun j => a[tid + groupsize * j]?)

/-- The live scratch slots `0, …, m-1` in worker-index order. -/
def live (buffer : Nat → T) (m : Nat) : List T :=
  (List.range m).map buffer

/-! ## The code over unbounded integers: the tile loop and the stored sums -/

theorem foldlM_option_congr {α β : Type} {f g : β → α → Option β} (l : List α)
    (h : ∀ x ∈ l, ∀ b, f b x = g b x) (b : β) : l.foldlM f b = l.foldlM g b := by
  induction l generalizing b with
  | nil => rfl
  | cons x xs ih =>
    simp only [List.foldlM_cons]
    rw [h x (List.mem_cons_self x xs) b]
    congr 1
    funext b1
    exact ih (fun y hy => h y (List.mem_cons_of_mem x hy)) b1

theorem load_loop (g t off p : Nat) (a : List T) (n : Nat) (inp : Nat → T)
    (h : ∀ i < n, g * i + t < p → off + (g * i + t) < a.length) :
    ∃ inp', (List.range n).foldlM
        (fun inp i => if g * i + t < p then
            (a[off + (g * i + t)]?).map (fun x => Function.update inp i x)
          else some inp) inp = some inp' ∧
      (∀ i < n, g * i + t < p → a[off + (g * i + t)]? = some (inp' i)) ∧
      (∀ i, n ≤ i → inp' i = inp i) := by
  induction n with
  | zero => exact ⟨inp, by simp, by simp, by simp⟩
  | succ n ih =>
    obtain ⟨inp1, h1, h2, h3⟩ := ih (fun i hi => h i (Nat.lt_succ_of_lt hi))
    rw [List.range_succ, List.foldlM_append, h1]
    by_cases hc : g * n + t < p
    · have hlt := h n (Nat.lt_succ_self n) hc
      refine ⟨Function.update inp1 n a[off + (g * n + t)], ?_, ?_, ?_⟩
      · simp [hc, List.getElem?_eq_getElem hlt]
      · intro i hi hci
        rcases Nat.lt_succ_iff_lt_or_eq.mp hi with hlt' | heq
        · rw [Function.update_noteq (Nat.ne_of_lt hlt')]
          exact h2 i hlt' hci
        · subst heq
          simp [List.getElem?_eq_getElem hlt]
      · intro i hi
        rw [Function.update_noteq (by omega)]
        exact h3 i (by omega)
    · refine ⟨inp1, ?_, ?_, ?_⟩
      · simp [hc]
      · intro i hi hci
        rcases Nat.lt_succ_iff_lt_or_eq.mp hi with hlt' | heq
        · exact h2 i hlt' hci
        · subst heq
          exact absurd hci hc
      · intro i hi
        exact h3 i (by omega)

/-- The strided load of a worker `t < g` never reads past the end of the input, and
every register whose index is below `partition_size` holds its input element. -/
theorem load_inputs_spec (g gr t off : Nat) (a : List T) (inp : Nat → T)
    (ht : t < g) (hoff : off ≤ a.length) :
    ∃ inp', load_inputs_ideal g gr t a off (min (g * gr) (a.length - off)) inp = some inp' ∧
      ∀ i < gr, g * i + t < min (g * gr) (a.length - off) →
        a[off + (g * i + t)]? = some (inp' i) := by
  have hb : ∀ i < gr, g * i + t < g * gr := by
    intro i hi
    calc g * i + t < g * i + g := by omega
      _ = g * (i + 1) := by ring
      _ ≤ g * gr := Nat.mul_le_mul_left g hi
  have hin : ∀ i < gr, g * i + t < min (g * gr) (a.length - off) →
      off + (g * i + t) < a.length := by
    intro i _ hc
    have := Nat.lt_of_lt_of_le hc (Nat.min_le_right _ _)
    omega
  obtain ⟨inp', h1, h2, _⟩ := load_loop g t off (min (g * gr) (a.length - off)) a gr inp hin
  refine ⟨inp', ?_, h2⟩
  unfold load_inputs_ideal
  split
  · next hfull =>
    rw [← h1]
    apply foldlM_option_congr
    intro i hi x
    have hi1 : i < gr := List.mem_range.mp hi
    have : g * i + t < min (g * gr) (a.length - off) := by
      have := hb i hi1
      omega
    simp [this]
  · exact h1

theorem taken_succ (g t p : Nat) (inp : Nat → T) (n : Nat) :
    taken g t p inp (n + 1) =
      taken g t p inp n ++ (if g * n + t < p then [inp n] else []) := by
  unfold taken
  rw [List.range_succ, List.filterMap_append]
  by_cases h : g * n + t < p <;> simp [h]

theorem taken_length_pos (g t p : Nat) (inp : Nat → T) (n : Nat) (hn : n ≠ 0) (ht : t < p) :
    1 ≤ (taken g t p inp n).length := by
  obtain ⟨k, rfl⟩ := Nat.exists_eq_succ_of_ne_zero hn
  unfold taken
  rw [List.range_succ_eq_map]
  simp [ht]

theorem sum_loop (g t p : Nat) (op : T → T → T) (inp : Nat → T) (r : Regs T)
    (hr : r.this_sum_defined = true ↔ r.consumed ≠ 0) (n : Nat) :
    ∃ r1, (List.range n).foldl
        (fun r i =>
          let index := g * i + t
          if index < p then
            let x := inp i
            if i != 0 || r.this_sum_defined then
              ⟨op r.this_sum x, r.this_sum_defined, r.consumed + 1, r.applied + 1⟩
            else
              ⟨x, r.this_sum_defined, r.consumed + 1, r.applied⟩
          else r) r = r1 ∧
      r1.view = (taken g t p inp n).foldl (absorb op) r.view ∧
      (r1.consumed = 0 → r1.this_sum = r.this_sum) ∧
      r1.consumed = r.consumed + (taken g t p inp n).length ∧
      r1.this_sum_defined = r.this_sum_defined := by
  induction n with
  | zero => exact ⟨r, rfl, by simp [taken], fun _ => rfl, by simp [taken], rfl⟩
  | succ n ih =>
    obtain ⟨r1, h1, hv, hj, hc, hd⟩ := ih
    rw [List.range_succ, List.foldl_append, h1, taken_succ]
    by_cases hp : g * n + t < p
    · by_cases hcond : (n != 0 || r1.this_sum_defined) = true
      · have hne : r1.consumed ≠ 0 := by
          rcases Bool.or_eq_true _ _ ▸ hcond with h0 | hdef
          · have : n ≠ 0 := by simpa using h0
            have := taken_length_pos g t p inp n this (by omega)
            omega
          · rw [hd] at hdef
            have := hr.mp hdef
            omega
        have hview : r1.view = some r1.this_sum := by simp [Regs.view, hne]
        refine ⟨⟨op r1.this_sum (inp n), r1.this_sum_defined, r1.consumed + 1,
          r1.applied + 1⟩, ?_, ?_, ?_, ?_, ?_⟩
        · simp only [List.foldl_cons, List.foldl_nil, if_pos hp, if_pos hcond]
        · rw [List.foldl_append, ← hv, hview]
          simp [hp, Regs.view, absorb]
        · intro h0
          simp at h0
        · simp [hp, hc]
          omega
        · exact hd
      · have hn0 : n = 0 := by
          by_contra hne
          exact hcond (by simp [hne])
        have hdf : r1.this_sum_defined = false := by
          cases hx : r1.this_sum_defined
          · rfl
          · exact absurd (by simp [hx]) hcond
        have hr0 : r.consumed = 0 := by
          by_contra hne
          have := hr.mpr hne
          rw [← hd, hdf] at this
          exact Bool.noConfusion this
        subst hn0
        have hr1 : r1 = r := by simpa using h1.symm
        refine ⟨⟨inp 0, r1.this_sum_defined, r1.consumed + 1, r1.applied⟩, ?_, ?_, ?_, ?_, ?_⟩
        · simp only [List.foldl_cons, List.foldl_nil, if_pos hp, if_neg hcond]
        · have hp0 : t < p := by simpa using hp
          simp [hp0, Regs.view, taken, absorb, hr0]
        · intro h0
          simp at h0
        · have hp0 : t < p := by simpa using hp
          simp [hp0, hc, taken]
        · exact hd
    · refine ⟨r1, ?_, ?_, hj, ?_, hd⟩
      · simp [hp]
      · simpa [hp] using hv
      · simpa [hp] using hc

/-- The sequential sum folds exactly the registers taken in this tile, provided the
flag is accurate when the tile starts. -/
theorem sum_inputs_spec (g gr t p : Nat) (op : T → T → T) (inp : Nat → T) (r : Regs T)
    (hr : r.this_sum_defined = true ↔ r.consumed ≠ 0) :
    (sum_inputs_ideal g gr t p op inp r).view = (taken g t p inp gr).foldl (absorb op) r.view ∧
    ((sum_inputs_ideal g gr t p op inp r).consumed = 0 →
      (sum_inputs_ideal g gr t p op inp r).this_sum = r.this_sum) ∧
    (sum_inputs_ideal g gr t p op inp r).consumed = r.consumed + (taken g t p inp gr).length := by
  obtain ⟨r1, h1, hv, hj, hc, _⟩ := sum_loop g t p op inp r hr gr
  unfold sum_inputs_ideal
  rw [h1]
  exact ⟨hv, hj, hc⟩

theorem stream_append (g t : Nat) (a : List T) (s n1 n2 : Nat) :
    stream g t a s n1 ++ stream g t a (s + n1) n2 = stream g t a s (n1 + n2) := by
  unfold stream
  rw [← List.filterMap_append, List.range'_append_1, Nat.add_comm n2 n1]

theorem stream_trunc (g t : Nat) (a : List T) (s n d : Nat)
    (h : a.length ≤ t + g * (s + n)) : stream g t a s (n + d) = stream g t a s n := by
  rw [← stream_append]
  have : stream g t a (s + n) d = [] := by
    unfold stream
    rw [List.filterMap_eq_nil_iff]
    intro j hj
    have hj1 : s + n ≤ j := (List.mem_range'_1.mp hj).1
    apply List.getElem?_eq_none
    have := Nat.mul_le_mul_left g hj1
    omega
  rw [this, List.append_nil]

theorem taken_eq_stream (g gr t k : Nat) (a : List T) (inp : Nat → T) (ht : t < g)
    (hoff : g * gr * k ≤ a.length)
    (hinp : ∀ i < gr, g * i + t < min (g * gr) (a.length - g * gr * k) →
      a[g * gr * k + (g * i + t)]? = some (inp i)) :
    taken g t (min (g * gr) (a.length - g * gr * k)) inp gr = stream g t a (gr * k) gr := by
  unfold taken stream
  rw [List.range'_eq_map_range, List.filterMap_map]
  apply List.filterMap_congr
  intro i hi
  have hi1 : i < gr := List.mem_range.mp hi
  have hidx : t + g * (gr * k + i) = g * gr * k + (g * i + t) := by ring
  have hb : g * i + t < g * gr := by
    calc g * i + t < g * i + g := by omega
      _ = g * (i + 1) := by ring
      _ ≤ g * gr := Nat.mul_le_mul_left g hi1
  simp only [Function.comp]
  rw [hidx]
  by_cases hc : g * i + t < min (g * gr) (a.length - g * gr * k)
  · rw [if_pos hc, hinp i hi1 hc]
  · rw [if_neg hc]
    symm
    apply List.getElem?_eq_none
    omega

/-- The tile loop started at tile `k` returns with enough fuel and folds, in order,
the elements `a[t + g * j]` for `j ≥ gr * k`. -/
theorem tile_loop_spec (g gr t : Nat) (u : Uninit T) (a : List T) (op : T → T → T)
    (ht : t < g) (hgr : 1 ≤ gr) :
    ∀ (fuel k : Nat) (r : Regs T), 0 < fuel → a.length < g * gr * k + fuel →
      (g * gr * k < a.length → (r.this_sum_defined = true ↔ r.consumed ≠ 0)) →
      ∃ r1, tile_loop_ideal g gr t u a op fuel (g * gr * k) r = some r1 ∧
        r1.view = (stream g t a (gr * k) (a.length - gr * k)).foldl (absorb op) r.view ∧
        (r1.consumed = 0 → r1.this_sum = r.this_sum) ∧
        r1.consumed = r.consumed + (stream g t a (gr * k) (a.length - gr * k)).length ∧
        r1.this_sum_defined = (r.this_sum_defined || decide (g * gr * k < a.length)) := by
  have hg : 1 ≤ g := by omega
  have hE : 1 ≤ g * gr := Nat.mul_pos hg hgr
  intro fuel
  induction fuel with
  | zero =>
    intro k r hf0
    omega
  | succ fuel ih =>
    intro k r _ hf hr
    have hk1 : gr * k ≤ g * gr * k := by
      calc gr * k = 1 * (gr * k) := (Nat.one_mul _).symm
        _ ≤ g * (gr * k) := Nat.mul_le_mul_right _ hg
        _ = g * gr * k := (Nat.mul_assoc g gr k).symm
    have hk2 : g * (gr * k) = g * gr * k := (Nat.mul_assoc g gr k).symm
    unfold tile_loop_ideal
    by_cases hlt : g * gr * k < a.length
    · rw [if_pos hlt]
      obtain ⟨inp, hload, hinp⟩ := load_inputs_spec g gr t (g * gr * k) a
        (u.inputs t (g * gr * k)) ht (Nat.le_of_lt hlt)
      have hs := sum_inputs_spec g gr t (min (g * gr) (a.length - g * gr * k)) op inp r (hr hlt)
      rw [taken_eq_stream g gr t k a inp ht (Nat.le_of_lt hlt) hinp] at hs
      obtain ⟨hsv, hsj, hsc⟩ := hs
      have hnext : g * gr * k + g * gr = g * gr * (k + 1) := by ring
      have hsplit : stream g t a (gr * k) gr ++ stream g t a (gr * (k + 1))
          (a.length - gr * (k + 1)) = stream g t a (gr * k) (a.length - gr * k) := by
        have e1 : gr * (k + 1) = gr * k + gr := by ring
        rw [e1, stream_append]
        by_cases hfull : gr * k + gr ≤ a.length
        · congr 1
          omega
        · have e2 : gr + (a.length - (gr * k + gr)) = (a.length - gr * k) + (gr * k + gr - a.length) := by
            omega
          rw [e2]
          apply stream_trunc
          have : gr * k + (a.length - gr * k) = a.length := by omega
          rw [this]
          have := Nat.le_mul_of_pos_left a.length hg
          omega
      simp only [hload, Option.bind_some, hnext]
      obtain ⟨r1, h1, hv, hj, hc, hd⟩ := ih (k + 1)
        ⟨(sum_inputs_ideal g gr t (min (g * gr) (a.length - g * gr * k)) op inp r).this_sum, true,
          (sum_inputs_ideal g gr t (min (g * gr) (a.length - g * gr * k)) op inp r).consumed,
          (sum_inputs_ideal g gr t (min (g * gr) (a.length - g * gr * k)) op inp r).applied⟩
        (by omega)
        (by rw [← hnext]; omega)
        (by
          intro hmore
          have hp : min (g * gr) (a.length - g * gr * k) = g * gr := by
            rw [← hnext] at hmore
            omega
          have hpos := taken_length_pos g t (g * gr) inp gr (by omega)
            (Nat.lt_of_lt_of_le ht (Nat.le_mul_of_pos_right g hgr))
          rw [← hp, taken_eq_stream g gr t k a inp ht (Nat.le_of_lt hlt) hinp] at hpos
          simp only [hsc, true_iff]
          omega)
      refine ⟨r1, h1, ?_, ?_, ?_, ?_⟩
      · rw [hv, ← hsplit, List.foldl_append, ← hsv]
        rfl
      · intro h0
        rw [hj h0]
        apply hsj
        rw [hc] at h0
        simp only at h0
        omega
      · rw [hc, ← hsplit, List.length_append]
        simp only [hsc]
        omega
      · simp [hd, hlt]
    · rw [if_neg hlt]
      have hnil : stream g t a (gr * k) (a.length - gr * k) = [] := by
        have := stream_trunc g t a (gr * k) 0 (a.length - gr * k) (by rw [Nat.add_zero, hk2]; omega)
        rw [Nat.zero_add] at this
        rw [this]
        rfl
      refine ⟨r, rfl, ?_, fun _ => rfl, ?_, ?_⟩
      · rw [hnil]; rfl
      · rw [hnil]; rfl
      · simp [hlt]

theorem strided_indices (g t n : Nat) (ht : t < g) :
    ((List.range n).map (fun j => t + g * j)).filter (fun i => decide (i < n)) =
      (List.range n).filter (fun i => i % g = t) := by
  have hs1 : List.Sorted (· < ·)
      (((List.range n).map (fun j => t + g * j)).filter (fun i => decide (i < n))) := by
    apply List.Pairwise.filter
    apply List.Pairwise.map _ _ (List.pairwise_lt_range n)
    intro x y hxy
    have := Nat.mul_lt_mul_of_pos_left hxy (by omega : 0 < g)
    omega
  have hs2 : List.Sorted (· < ·) ((List.range n).filter (fun i => i % g = t)) :=
    List.Pairwise.filter _ (List.pairwise_lt_range n)
  apply List.eq_of_perm_of_sorted _ hs1 hs2
  apply (List.perm_ext_iff_of_nodup hs1.nodup hs2.nodup).mpr
  intro x
  simp only [List.mem_filter, List.mem_map, List.mem_range, decide_eq_true_eq]
  constructor
  · rintro ⟨⟨j, _, rfl⟩, hx⟩
    exact ⟨hx, by rw [Nat.add_mul_mod_self_left]; exact Nat.mod_eq_of_lt ht⟩
  · rintro ⟨hx, hm⟩
    refine ⟨⟨x / g, ?_, ?_⟩, hx⟩
    · exact lt_of_le_of_lt (Nat.div_le_self x g) hx
    · rw [← hm]
      exact Nat.mod_add_div x g

/-- Walking `a[t], a[t + g], a[t + 2 * g], …` visits the indices congruent to `t`
modulo `g` in increasing order. -/
theorem stream_eq_assigned (g t : Nat) (a : List T) (ht : t < g) :
    stream g t a 0 a.length = assigned g t a := by
  unfold stream assigned
  rw [← List.range_eq_range']
  have hA : ∀ l : List Nat, l.filterMap (fun i => a[i]?) =
      (l.filter (fun i => decide (i < a.length))).filterMap (fun i => a[i]?) := by
    intro l
    rw [List.filterMap_filter]
    apply List.filterMap_congr
    intro x _
    by_cases hx : x < a.length
    · simp [hx]
    · simp only [hx, decide_False, Bool.false_eq_true, if_false]
      exact List.getElem?_eq_none (by omega)
  calc (List.range a.length).filterMap (fun j => a[t + g * j]?)
      = ((List.range a.length).map (fun j => t + g * j)).filterMap (fun i => a[i]?) := by
        rw [List.filterMap_map]; rfl
    _ = _ := by rw [hA, strided_indices g t a.length ht]

theorem absorb_foldl_some (op : T → T → T) (l : List T) (x : T) :
    ∃ y, l.foldl (absorb op) (some x) = some y := by
  induction l generalizing x with
  | nil => exact ⟨x, rfl⟩
  | cons z zs ih => exact ih (op x z)

theorem fold1_isSome (op : T → T → T) (l : List T) (h : l ≠ []) :
    ∃ y, fold1 op l = some y := by
  cases l with
  | nil => exact absurd rfl h
  | cons z zs => exact absorb_foldl_some op zs z

/-- Registers of worker `t < g` after its tile loop. -/
theorem accumulate_spec (g gr t : Nat) (u : Uninit T) (a : List T) (op : T → T → T)
    (ht : t < g) (hgr : 1 ≤ gr) :
    ∃ r, accumulate_ideal g gr u a op t = some r ∧
      r.view = fold1 op (assigned g t a) ∧
      (r.consumed = 0 → r.this_sum = u.this_sum t) ∧
      r.consumed = (assigned g t a).length ∧
      r.this_sum_defined = decide (0 < a.length) := by
  obtain ⟨r, h1, hv, hj, hc, hd⟩ := tile_loop_spec g gr t u a op ht hgr (a.length + 1) 0
    ⟨u.this_sum t, false, 0, 0⟩ (by omega) (by omega) (by intro _; simp)
  simp only [Nat.mul_zero, Nat.sub_zero, stream_eq_assigned g t a ht] at h1 hv hj hc hd
  refine ⟨r, h1, ?_, hj, ?_, ?_⟩
  · rw [hv]; rfl
  · rw [hc]; simp
  · rw [hd]; simp

theorem write_loop (g gr : Nat) (u : Uninit T) (a : List T) (op : T → T → T) (hgr : 1 ≤ gr)
    (n : Nat) (hn : n ≤ g) :
    ∃ G, (List.range n).foldlM
        (fun G tid => (accumulate_ideal g gr u a op tid).map fun r => store_sum tid r G)
        (⟨u.buffer, fun _ => 0, []⟩ : Group T) = some G ∧
      ∀ s, (s < n → ∃ r, accumulate_ideal g gr u a op s = some r ∧
              G.buffer s = (if r.this_sum_defined then r.this_sum else u.buffer s) ∧
              G.calls s = r.applied ∧ (s ∈ G.stores ↔ r.this_sum_defined = true)) ∧
           (n ≤ s → G.buffer s = u.buffer s ∧ G.calls s = 0 ∧ s ∉ G.stores) := by
  induction n with
  | zero =>
    refine ⟨⟨u.buffer, fun _ => 0, []⟩, rfl, ?_⟩
    intro s
    exact ⟨fun h => absurd h (Nat.not_lt_zero s), fun _ => ⟨rfl, rfl, List.not_mem_nil s⟩⟩
  | succ n ih =>
    obtain ⟨G, hG, hs⟩ := ih (Nat.le_of_succ_le hn)
    obtain ⟨r, hr, _⟩ := accumulate_spec g gr n u a op (by omega) hgr
    refine ⟨store_sum n r G, ?_, ?_⟩
    · rw [List.range_succ, List.foldlM_append, hG]
      simp [hr]
    · intro s
      constructor
      · intro hlt
        rcases Nat.lt_succ_iff_lt_or_eq.mp hlt with hlt1 | heq
        · obtain ⟨r1, hr1, hb, hc, hm⟩ := (hs s).1 hlt1
          refine ⟨r1, hr1, ?_, ?_, ?_⟩
          · rw [← hb]
            unfold store_sum
            split <;> simp [Function.update_noteq (Nat.ne_of_lt hlt1)]
          · rw [← hc]
            unfold store_sum
            split <;> simp [Function.update_noteq (Nat.ne_of_lt hlt1)]
          · rw [← hm]
            unfold store_sum
            split <;> simp [Nat.ne_of_lt hlt1]
        · subst heq
          obtain ⟨hb, _, hm⟩ := (hs s).2 (Nat.le_refl s)
          refine ⟨r, hr, ?_, ?_, ?_⟩
          · unfold store_sum
            split <;> simp_all
          · unfold store_sum
            split <;> simp
          · unfold store_sum
            split <;> simp_all
      · intro hle
        obtain ⟨hb, hc, hm⟩ := (hs s).2 (by omega)
        have hne : s ≠ n := by omega
        unfold store_sum
        split <;> simp [Function.update_noteq hne, hb, hc, hm, hne]

/-- State of the group at the barrier of line 132. -/
theorem write_sums_spec (g gr : Nat) (u : Uninit T) (a : List T) (op : T → T → T)
    (hgr : 1 ≤ gr) :
    ∃ G, write_sums_ideal g gr u a op = some G ∧
      ∀ s, (s < g → ∃ r, accumulate_ideal g gr u a op s = some r ∧
              G.buffer s = (if r.this_sum_defined then r.this_sum else u.buffer s) ∧
              G.calls s = r.applied ∧ (s ∈ G.stores ↔ r.this_sum_defined = true)) ∧
           (g ≤ s → G.buffer s = u.buffer s ∧ G.calls s = 0 ∧ s ∉ G.stores) :=
  write_loop g gr u a op hgr g (Nat.le_refl g)

theorem tree_worker_buffer (op : T → T → T) (m t : Nat) (G : Group T) :
    (tree_worker op m t G).buffer =
      if t < m / 2 then Function.update G.buffer t (op (G.buffer t) (G.buffer (m - t - 1)))
      else G.buffer := by
  unfold tree_worker
  simp only [Nat.shiftRight_eq_div_pow, pow_one]
  split <;> rfl

theorem tree_round_loop (op : T → T → T) (m : Nat) (G : Group T) (n : Nat) :
    ((List.range n).foldl (fun G tid => tree_worker op m tid G) G).buffer =
      fun i => if i < n ∧ i < m / 2 then op (G.buffer i) (G.buffer (m - i - 1))
        else G.buffer i := by
  induction n with
  | zero => simp
  | succ n ih =>
    rw [List.range_succ, List.foldl_append, List.foldl_cons, List.foldl_nil,
      tree_worker_buffer, ih]
    funext i
    have h1 : ¬ (n < n ∧ n < m / 2) := fun h => Nat.lt_irrefl n h.1
    by_cases hn : n < m / 2
    · have h2 : ¬ (m - n - 1 < n ∧ m - n - 1 < m / 2) := fun h => by omega
      simp only [if_pos hn, if_neg h1, if_neg h2]
      by_cases hi : i = n
      · subst hi
        simp [hn]
      · rw [Function.update_noteq hi]
        have : (i < n + 1 ∧ i < m / 2) ↔ (i < n ∧ i < m / 2) := by omega
        simp only [this]
    · simp only [if_neg hn]
      have : (i < n + 1 ∧ i < m / 2) ↔ (i < n ∧ i < m / 2) := by omega
      simp only [this]

/-- Effect of one round on the buffer: slot `i < m / 2` becomes
`op slot[i] slot[m - i - 1]`, every other slot is unchanged. -/
theorem tree_round_buffer (g : Nat) (op : T → T → T) (m : Nat) (G : Group T) (hm : m ≤ g) :
    (tree_round g op m G).buffer =
      fun i => if i < m / 2 then op (G.buffer i) (G.buffer (m - i - 1)) else G.buffer i := by
  unfold tree_round
  rw [tree_round_loop]
  funext i
  have : (i < g ∧ i < m / 2) ↔ i < m / 2 := by omega
  simp only [this]

/-- Induction principle for the `while(m > 1)` loop: with enough fuel the loop
returns, its final live count is at most one, and every property preserved by a
round holds on exit. -/
theorem tree_loop_inv (g : Nat) (op : T → T → T) (P : Nat → Nat → Group T → Prop)
    (hstep : ∀ m k G, 1 < m → P m k G → P (m - m / 2) (k + 1) (tree_round g op m G)) :
    ∀ (fuel m k : Nat) (G : Group T), 0 < fuel → m ≤ fuel → P m k G →
      ∃ m1 k1 G1, tree_loop g op fuel m k G = some (m1, k1, G1) ∧ m1 ≤ 1 ∧
        (1 ≤ m → m1 = 1) ∧ (m ≤ 1 → m1 = m ∧ k1 = k ∧ G1 = G) ∧ P m1 k1 G1 := by
  intro fuel
  induction fuel with
  | zero =>
    intro m k G h0
    omega
  | succ fuel ih =>
    intro m k G _ hm hP
    unfold tree_loop
    by_cases h1 : m > 1
    · simp only [if_pos h1, Nat.shiftRight_eq_div_pow, pow_one]
      obtain ⟨m1, k1, G1, he, hle, hone, _, hP1⟩ := ih (m - m / 2) (k + 1)
        (tree_round g op m G) (by omega) (by omega) (hstep m k G h1 hP)
      exact ⟨m1, k1, G1, he, hle, fun _ => hone (by omega), fun h => by omega, hP1⟩
    · simp only [if_neg h1]
      exact ⟨m, k, G, rfl, by omega, fun h => by omega, fun _ => ⟨rfl, rfl, rfl⟩, hP⟩

theorem absorb_right_comm (op : T → T → T) (hassoc : ∀ x y z, op (op x y) z = op x (op y z))
    (hcomm : ∀ x y, op x y = op y x) (s : Option T) (x y : T) :
    absorb op (absorb op s x) y = absorb op (absorb op s y) x := by
  cases s with
  | none => simp [absorb, hcomm x y]
  | some v =>
    simp only [absorb]
    rw [hassoc, hassoc, hcomm x y]

theorem absorb_perm (op : T → T → T) (hassoc : ∀ x y z, op (op x y) z = op x (op y z))
    (hcomm : ∀ x y, op x y = op y x) {l1 l2 : List T} (p : l1.Perm l2) (s : Option T) :
    l1.foldl (absorb op) s = l2.foldl (absorb op) s :=
  p.foldl_eq' (fun x _ y _ z => absorb_right_comm op hassoc hcomm z x y) s

theorem absorb_op (op : T → T → T) (hassoc : ∀ x y z, op (op x y) z = op x (op y z))
    (s : Option T) (x y : T) : absorb op s (op x y) = absorb op (absorb op s x) y := by
  cases s with
  | none => rfl
  | some v => simp [absorb, hassoc]

theorem absorb_map_op (op : T → T → T) (hassoc : ∀ x y z, op (op x y) z = op x (op y z))
    (hcomm : ∀ x y, op x y = op y x) (f h : Nat → T) (l : List Nat) (s : Option T) :
    (l.map (fun i => op (f i) (h i))).foldl (absorb op) s =
      (l.map f ++ l.map h).foldl (absorb op) s := by
  induction l generalizing s with
  | nil => rfl
  | cons i l ih =>
    have hp : (f i :: (l.map f ++ h i :: l.map h)).Perm (f i :: h i :: (l.map f ++ l.map h)) :=
      List.Perm.cons _ List.perm_middle
    simp only [List.map_cons, List.cons_append, List.foldl_cons]
    rw [ih, absorb_op op hassoc]
    have := absorb_perm op hassoc hcomm hp s
    simp only [List.foldl_cons] at this
    exact this.symm

/-- For an associative, commutative operator one round preserves the fold of the
live slots. -/
theorem tree_round_live (g : Nat) (op : T → T → T)
    (hassoc : ∀ x y z, op (op x y) z = op x (op y z)) (hcomm : ∀ x y, op x y = op y x)
    (m : Nat) (G : Group T) (hm : m ≤ g) (s : Option T) :
    (live (tree_round g op m G).buffer (m - m / 2)).foldl (absorb op) s =
      (live G.buffer m).foldl (absorb op) s := by
  have hr1 : List.range (m - m / 2) = List.range (m / 2) ++ List.range' (m / 2) (m - m / 2 - m / 2) := by
    rw [List.range_eq_range', List.range_eq_range']
    have := List.range'_append_1 0 (m / 2) (m - m / 2 - m / 2)
    rw [Nat.zero_add] at this
    rw [this]
    congr 1
    omega
  have hr2 : List.range m = List.range (m / 2) ++ List.range' (m / 2) (m - m / 2 - m / 2) ++
      List.range' (m - m / 2) (m / 2) := by
    rw [← hr1, List.range_eq_range', List.range_eq_range']
    have := List.range'_append_1 0 (m - m / 2) (m / 2)
    rw [Nat.zero_add] at this
    rw [this]
    congr 1
    omega
  have hlow : (List.range (m / 2)).map (tree_round g op m G).buffer =
      (List.range (m / 2)).map (fun i => op (G.buffer i) (G.buffer (m - i - 1))) := by
    apply List.map_congr_left
    intro i hi
    rw [tree_round_buffer g op m G hm]
    simp [List.mem_range.mp hi]
  have hmid : (List.range' (m / 2) (m - m / 2 - m / 2)).map (tree_round g op m G).buffer =
      (List.range' (m / 2) (m - m / 2 - m / 2)).map G.buffer := by
    apply List.map_congr_left
    intro i hi
    rw [tree_round_buffer g op m G hm]
    have := (List.mem_range'_1.mp hi).1
    simp [Nat.not_lt.mpr this]
  have htop : ((List.range' (m - m / 2) (m / 2)).map G.buffer).Perm
      ((List.range (m / 2)).map (fun i => G.buffer (m - i - 1))) := by
    have hrev : ((List.range' (m - m / 2) (m / 2)).map G.buffer).reverse =
        (List.range (m / 2)).map (fun i => G.buffer (m - i - 1)) := by
      rw [← List.map_reverse, List.reverse_range', List.map_map]
      apply List.map_congr_left
      intro i hi
      have := List.mem_range.mp hi
      simp only [Function.comp]
      congr 1
      omega
    rw [← hrev]
    exact (List.reverse_perm _).symm
  unfold live
  rw [hr1, hr2]
  simp only [List.map_append, hlow, hmid, List.foldl_append]
  rw [absorb_map_op op hassoc hcomm]
  have key := absorb_perm op hassoc hcomm
    (List.perm_append_comm.trans (List.Perm.append_left
      ((List.range' (m / 2) (m - m / 2 - m / 2)).map G.buffer) htop.symm))
    ((List.map G.buffer (List.range (m / 2))).foldl (absorb op) s)
  simp only [List.foldl_append] at key ⊢
  exact key

/-- For an associative, commutative operator the loop ends with live count 1 and
slot 0 holding the combination of the `m` original slots. -/
theorem tree_loop_fold (g : Nat) (op : T → T → T)
    (hassoc : ∀ x y z, op (op x y) z = op x (op y z)) (hcomm : ∀ x y, op x y = op y x)
    (fuel m k : Nat) (G : Group T) (h0 : 0 < fuel) (hmf : m ≤ fuel) (hm : m ≤ g) (h1 : 1 ≤ m) :
    ∃ k1 G1, tree_loop g op fuel m k G = some (1, k1, G1) ∧
      ∀ s, absorb op s (G1.buffer 0) = (live G.buffer m).foldl (absorb op) s := by
  obtain ⟨m1, k1, G1, he, _, hone, _, hle, hP⟩ := tree_loop_inv g op
    (fun m' _ G' => m' ≤ g ∧
      ∀ s, (live G'.buffer m').foldl (absorb op) s = (live G.buffer m).foldl (absorb op) s)
    (fun m' _ G' hm' hP => ⟨by omega, fun s => by
      rw [tree_round_live g op hassoc hcomm m' G' hP.1 s]
      exact hP.2 s⟩)
    fuel m k G h0 hmf ⟨hm, fun _ => rfl⟩
  have hm1 : m1 = 1 := hone h1
  subst hm1
  refine ⟨k1, G1, he, fun s => ?_⟩
  rw [← hP s]
  rfl

theorem absorb_some_map (op : T → T → T) (hassoc : ∀ x y z, op (op x y) z = op x (op y z))
    (w : T) (l : List T) (x : T) :
    l.foldl (absorb op) (some (op w x)) = (l.foldl (absorb op) (some x)).map (op w) := by
  induction l generalizing x with
  | nil => rfl
  | cons z zs ih =>
    simp only [List.foldl_cons, absorb]
    rw [hassoc, ih]

theorem absorb_fold1 (op : T → T → T) (hassoc : ∀ x y z, op (op x y) z = op x (op y z))
    (l : List T) (v : T) (h : fold1 op l = some v) (s : Option T) :
    l.foldl (absorb op) s = absorb op s v := by
  cases s with
  | none => exact h
  | some w =>
    cases l with
    | nil => exact absurd h (by simp [fold1])
    | cons x xs =>
      have hx : xs.foldl (absorb op) (some x) = some v := h
      simp only [List.foldl_cons, absorb]
      rw [absorb_some_map op hassoc, hx]
      rfl

theorem absorb_flatten (op : T → T → T) (hassoc : ∀ x y z, op (op x y) z = op x (op y z))
    (buf : Nat → T) (L : Nat → List T) (l : List Nat)
    (h : ∀ t ∈ l, fold1 op (L t) = some (buf t)) (s : Option T) :
    (l.map buf).foldl (absorb op) s = ((l.map L).flatten).foldl (absorb op) s := by
  induction l generalizing s with
  | nil => rfl
  | cons t l ih =>
    simp only [List.map_cons, List.flatten_cons, List.foldl_cons, List.foldl_append]
    rw [absorb_fold1 op hassoc (L t) (buf t) (h t (List.mem_cons_self t l))]
    exact ih (fun t1 ht1 => h t1 (List.mem_cons_of_mem t ht1)) _

theorem assigned_append (g t : Nat) (a : List T) (x : T) :
    assigned g t (a ++ [x]) = assigned g t a ++ (if a.length % g = t then [x] else []) := by
  unfold assigned
  simp only [List.length_append, List.length_singleton]
  rw [List.range_succ, List.filter_append, List.filterMap_append]
  congr 1
  · apply List.filterMap_congr
    intro i hi
    have : i < a.length := List.mem_range.mp (List.mem_filter.mp hi).1
    exact List.getElem?_append_left this
  · by_cases h : a.length % g = t <;> simp [h]

theorem flatten_insert_perm (A : Nat → List T) (c : Nat) (x : T) (l : List Nat)
    (hnd : l.Nodup) :
    ((l.map (fun t => A t ++ if c = t then [x] else [])).flatten).Perm
      ((l.map A).flatten ++ if c ∈ l then [x] else []) := by
  induction l with
  | nil => simp
  | cons t l ih =>
    obtain ⟨hnot, hnd1⟩ := List.nodup_cons.mp hnd
    have ih1 := ih hnd1
    simp only [List.map_cons, List.flatten_cons]
    by_cases hc : c = t
    · subst hc
      simp only [if_pos rfl, List.mem_cons, true_or, if_true, if_neg hnot,
        List.append_nil] at ih1 ⊢
      calc (A c ++ [x] ++ (l.map (fun t => A t ++ if c = t then [x] else [])).flatten).Perm
            (A c ++ [x] ++ (l.map A).flatten) := List.Perm.append_left _ ih1
        _ = A c ++ ([x] ++ (l.map A).flatten) := List.append_assoc _ _ _
        _ |>.Perm (A c ++ ((l.map A).flatten ++ [x])) :=
            List.Perm.append_left _ List.perm_append_comm
        _ = A c ++ (l.map A).flatten ++ [x] := (List.append_assoc _ _ _).symm
    · have hmem : (c ∈ t :: l) ↔ c ∈ l := by simp [hc]
      simp only [if_neg hc, List.append_nil, hmem]
      rw [List.append_assoc]
      exact List.Perm.append_left _ ih1

/-- The shares of the workers `0, …, g-1` together are a permutation of the input. -/
theorem assigned_flatten_perm (g : Nat) (hg : 1 ≤ g) (a : List T) :
    (((List.range g).map (fun t => assigned g t a)).flatten).Perm a := by
  induction a using List.reverseRecOn with
  | nil =>
    have : ((List.range g).map (fun t => assigned g t ([] : List T))).flatten = [] := by
      rw [List.flatten_eq_nil_iff]
      intro l hl
      obtain ⟨t, _, rfl⟩ := List.mem_map.mp hl
      rfl
    rw [this]
  | append_singleton a x ih =>
    have h1 : (List.range g).map (fun t => assigned g t (a ++ [x])) =
        (List.range g).map (fun t => assigned g t a ++ if a.length % g = t then [x] else []) := by
      apply List.map_congr_left
      intro t _
      exact assigned_append g t a x
    rw [h1]
    have h2 := flatten_insert_perm (fun t => assigned g t a) (a.length % g) x (List.range g)
      (List.nodup_range g)
    have hmem : a.length % g ∈ List.range g := List.mem_range.mpr (Nat.mod_lt _ (by omega))
    rw [if_pos hmem] at h2
    exact h2.trans (List.Perm.append_right _ ih)

theorem assigned_eq_nil (g t : Nat) (a : List T) (h : a.length ≤ t) : assigned g t a = [] := by
  unfold assigned
  have : (List.range a.length).filter (fun i => i % g = t) = [] := by
    rw [List.filter_eq_nil_iff]
    intro i hi
    have h1 := List.mem_range.mp hi
    have h2 := Nat.mod_le i g
    simp only [decide_eq_true_eq]
    omega
  rw [this]
  rfl

theorem assigned_length_pos (g t : Nat) (a : List T) (ht : t < g) (h : t < a.length) :
    1 ≤ (assigned g t a).length := by
  have hmem : a[t] ∈ assigned g t a := by
    unfold assigned
    rw [List.mem_filterMap]
    refine ⟨t, ?_, List.getElem?_eq_getElem h⟩
    rw [List.mem_filter]
    exact ⟨List.mem_range.mpr h, by simp [Nat.mod_eq_of_lt ht]⟩
  exact List.length_pos_of_mem hmem

/-- Flag, count and running value of worker `t < g` after its tile loop. -/
theorem worker_sum_spec (g gr t : Nat) (u : Uninit T) (a : List T) (op : T → T → T)
    (ht : t < g) (hgr : 1 ≤ gr) :
    ∃ r, accumulate_ideal g gr u a op t = some r ∧
      r.this_sum_defined = decide (0 < a.length) ∧
      r.consumed = (assigned g t a).length ∧
      (t < a.length → fold1 op (assigned g t a) = some r.this_sum) ∧
      (a.length ≤ t → r.this_sum = u.this_sum t ∧ r.consumed = 0) := by
  obtain ⟨r, h1, hv, hj, hc, hd⟩ := accumulate_spec g gr t u a op ht hgr
  refine ⟨r, h1, hd, hc, ?_, ?_⟩
  · intro hlt
    have := assigned_length_pos g t a ht hlt
    rw [← hv]
    unfold Regs.view
    rw [if_neg (by omega)]
  · intro hle
    have h0 : r.consumed = 0 := by rw [hc, assigned_eq_nil g t a hle]; rfl
    exact ⟨hj h0, h0⟩

/-- Contents of the scratch buffer at the barrier of line 132. -/
theorem slot_spec (g gr : Nat) (u : Uninit T) (a : List T) (op : T → T → T) (hgr : 1 ≤ gr) :
    ∃ G, write_sums_ideal g gr u a op = some G ∧
      (∀ t, t < min g a.length → fold1 op (assigned g t a) = some (G.buffer t)) ∧
      (∀ t, g ≤ t → G.buffer t = u.buffer t) ∧
      (a = [] → G = ⟨u.buffer, fun _ => 0, []⟩) := by
  obtain ⟨G, hG, hs⟩ := write_sums_spec g gr u a op hgr
  refine ⟨G, hG, ?_, fun t ht => ((hs t).2 ht).1, ?_⟩
  · intro t ht
    have htg : t < g := by omega
    have htn : t < a.length := by omega
    obtain ⟨r, hr, hb, _, _⟩ := (hs t).1 htg
    obtain ⟨r1, hr1, hd, _, hf, _⟩ := worker_sum_spec g gr t u a op htg hgr
    rw [hr] at hr1
    cases Option.some.inj hr1
    rw [hb, hd, hf htn]
    simp [show 0 < a.length by omega]
  · intro ha
    subst ha
    have : ∀ n, (List.range n).foldlM
        (fun G tid => (tile_loop_ideal g gr tid u ([] : List T) op (([] : List T).length + 1) 0
          ⟨u.this_sum tid, false, 0, 0⟩).map fun r => store_sum tid r G)
        (⟨u.buffer, fun _ => 0, []⟩ : Group T) = some ⟨u.buffer, fun _ => 0, []⟩ := by
      intro n
      induction n with
      | zero => rfl
      | succ n ih =>
        rw [List.range_succ, List.foldlM_append, ih]
        simp [tile_loop_ideal, store_sum]
    have h2 := this g
    unfold write_sums_ideal accumulate_ideal at hG
    rw [h2] at hG
    exact (Option.some.inj hG).symm

theorem absorb_foldl_eq (op : T → T → T) (l : List T) (x : T) :
    l.foldl (absorb op) (some x) = some (l.foldl op x) := by
  induction l generalizing x with
  | nil => rfl
  | cons z zs ih => exact ih (op x z)

theorem flatten_assigned_prefix (g : Nat) (a : List T) :
    ((List.range (min g a.length)).map (fun t => assigned g t a)).flatten =
      ((List.range g).map (fun t => assigned g t a)).flatten := by
  have hsplit : List.range g =
      List.range (min g a.length) ++ List.range' (min g a.length) (g - min g a.length) := by
    rw [List.range_eq_range', List.range_eq_range']
    have := List.range'_append_1 0 (min g a.length) (g - min g a.length)
    rw [Nat.zero_add] at this
    rw [this]
    congr 1
    omega
  have hnil : ((List.range' (min g a.length) (g - min g a.length)).map
      (fun t => assigned g t a)).flatten = [] := by
    rw [List.flatten_eq_nil_iff]
    intro l hl
    obtain ⟨t, ht, rfl⟩ := List.mem_map.mp hl
    have h1 := List.mem_range'_1.mp ht
    exact assigned_eq_nil g t a (by omega)
  conv_rhs => rw [hsplit]
  rw [List.map_append, List.flatten_append, hnil, List.append_nil]

/-- The call returns: it is the tree loop run on the stored sums, followed by the
final `op init slot[0]` (or `init` when the live count is 0). -/
theorem reduce_unfold (g gr : Nat) (u : Uninit T) (a : List T) (init : T) (op : T → T → T)
    (t : Nat) (hgr : 1 ≤ gr) :
    ∃ G m1 k1 G1, write_sums_ideal g gr u a op = some G ∧
      tree_loop g op (min g a.length + 1) (min g a.length) 0 G = some (m1, k1, G1) ∧
      (min g a.length ≤ 1 → G1 = G ∧ k1 = 0) ∧
      reduce_ideal g gr u a init op t = some
        (if min g a.length > 0 then
          (op init (G1.buffer 0),
            ⟨G1.buffer, fun w => if w < g then G1.calls w + 1 else G1.calls w, G1.stores⟩)
        else (init, G1)) := by
  obtain ⟨G, hG, _⟩ := write_sums_spec g gr u a op hgr
  obtain ⟨m1, k1, G1, he, _, _, hsmall, _⟩ := tree_loop_inv g op (fun _ _ _ => True)
    (fun _ _ _ _ _ => trivial) (min g a.length + 1) (min g a.length) 0 G (by omega) (by omega)
    trivial
  refine ⟨G, m1, k1, G1, hG, he, fun h => ⟨(hsmall h).2.2, (hsmall h).2.1⟩, ?_⟩
  unfold reduce_ideal destructive_reduce_n_ideal
  rw [hG]
  simp only [Option.some_bind, he, Option.map_some']

/-- For an associative, commutative operator and a non-empty input, slot 0 holds
the combination of all input elements when the loop ends. -/
theorem slot0_fold (g gr : Nat) (u : Uninit T) (a : List T) (op : T → T → T)
    (hg : 1 ≤ g) (hgr : 1 ≤ gr)
    (hassoc : ∀ x y z, op (op x y) z = op x (op y z)) (hcomm : ∀ x y, op x y = op y x)
    (hn : 0 < min g a.length) :
    ∃ G k1 G1, write_sums_ideal g gr u a op = some G ∧
      tree_loop g op (min g a.length + 1) (min g a.length) 0 G = some (1, k1, G1) ∧
      ∀ s, absorb op s (G1.buffer 0) = a.foldl (absorb op) s := by
  obtain ⟨G, hG, hslot, _, _⟩ := slot_spec g gr u a op hgr
  obtain ⟨k1, G1, he, hfold⟩ := tree_loop_fold g op hassoc hcomm (min g a.length + 1)
    (min g a.length) 0 G (by omega) (by omega) (Nat.min_le_left _ _) hn
  refine ⟨G, k1, G1, hG, he, fun s => ?_⟩
  have key := hfold s
  unfold live at key
  rw [absorb_flatten op hassoc G.buffer (fun t => assigned g t a) _
      (fun t ht => hslot t (List.mem_range.mp ht)),
    flatten_assigned_prefix,
    absorb_perm op hassoc hcomm (assigned_flatten_perm g hg a)] at key
  exact key

/-- For an associative, commutative operator the call returns the sequential fold. -/
theorem reduce_comm_fold (g gr : Nat) (u : Uninit T) (a : List T) (init : T)
    (op : T → T → T) (t : Nat) (hg : 1 ≤ g) (hgr : 1 ≤ gr)
    (hassoc : ∀ x y z, op (op x y) z = op x (op y z)) (hcomm : ∀ x y, op x y = op y x) :
    reduce_value_ideal g gr u a init op t = some (a.foldl op init) := by
  obtain ⟨G', m1, k1, G1, hG', he, _, hred⟩ := reduce_unfold g gr u a init op t hgr
  unfold reduce_value_ideal
  rw [hred]
  by_cases hn : min g a.length > 0
  · obtain ⟨G, k2, G2, hG, he2, hfold⟩ := slot0_fold g gr u a op hg hgr hassoc hcomm hn
    rw [hG] at hG'
    cases Option.some.inj hG'
    rw [he] at he2
    cases Option.some.inj he2
    rw [if_pos hn]
    simp only [Option.map_some']
    have key := hfold (some init)
    rw [absorb_foldl_eq] at key
    exact key
  · have ha : a = [] := by
      have : a.length = 0 := by omega
      exact List.length_eq_zero.mp this
    rw [if_neg hn, ha]
    rfl

/-! ## The tree loop round by round -/

theorem foldl_add_eq_sum (a : List Int) (init : Int) :
    a.foldl (· + ·) init = init + a.sum := by
  induction a generalizing init with
  | nil => simp
  | cons x xs ih =>
    simp only [List.foldl_cons, List.sum_cons]
    rw [ih]
    ring

theorem this_sum_of_view (r1 r2 : Regs T) (hv : r1.view = r2.view)
    (h1 : r1.consumed = 0 → r1.this_sum = r2.this_sum) : r1.this_sum = r2.this_sum := by
  by_cases h0 : r1.consumed = 0
  · exact h1 h0
  · unfold Regs.view at hv
    rw [if_neg h0] at hv
    by_cases h2 : r2.consumed = 0
    · rw [if_pos h2] at hv
      exact Option.noConfusion hv
    · rw [if_neg h2] at hv
      exact Option.some.inj hv

/-- The exit state of the loop is the state after as many rounds as there is fuel. -/
theorem tree_loop_eq_after (g : Nat) (op : T → T → T) :
    ∀ (fuel m k : Nat) (G : Group T), 0 < fuel → m ≤ fuel →
      ∃ k1, tree_loop g op fuel m k G =
        some ((tree_after g op fuel m G).1, k1, (tree_after g op fuel m G).2) := by
  intro fuel
  induction fuel with
  | zero =>
    intro m k G h0
    omega
  | succ fuel ih =>
    intro m k G _ hm
    unfold tree_loop tree_after
    by_cases h1 : m > 1
    · simp only [if_pos h1]
      have hlt : m - m >>> 1 ≤ fuel := by
        rw [Nat.shiftRight_eq_div_pow, pow_one]
        omega
      exact ih (m - m >>> 1) (k + 1) (tree_round g op m G) (by omega) hlt
    · simp only [if_neg h1]
      exact ⟨k, rfl⟩

/-- For an associative, commutative operator the fold of the live slots is the same
after any number of rounds. -/
theorem tree_after_fold (g : Nat) (op : T → T → T)
    (hassoc : ∀ x y z, op (op x y) z = op x (op y z)) (hcomm : ∀ x y, op x y = op y x) :
    ∀ (j m : Nat) (G : Group T), m ≤ g →
      (tree_after g op j m G).1 ≤ g ∧
      ∀ s, (live (tree_after g op j m G).2.buffer (tree_after g op j m G).1).foldl (absorb op) s =
        (live G.buffer m).foldl (absorb op) s := by
  intro j
  induction j with
  | zero =>
    intro m G hm
    exact ⟨hm, fun _ => rfl⟩
  | succ j ih =>
    intro m G hm
    unfold tree_after
    by_cases h1 : m > 1
    · simp only [if_pos h1]
      have hle : m - m >>> 1 ≤ g := by omega
      obtain ⟨h2, h3⟩ := ih (m - m >>> 1) (tree_round g op m G) hle
      refine ⟨h2, fun s => ?_⟩
      rw [h3 s]
      have := tree_round_live g op hassoc hcomm m G hm s
      rw [Nat.shiftRight_eq_div_pow, pow_one]
      exact this
    · rw [if_neg h1]
      exact ⟨hm, fun _ => rfl⟩

theorem tree_worker_stores (op : T → T → T) (m tid : Nat) (G : Group T) :
    (tree_worker op m tid G).stores = tree_writes m tid ++ G.stores := by
  unfold tree_worker tree_writes
  by_cases h : tid < m >>> 1
  · simp only [if_pos h]
    rfl
  · simp only [if_neg h]
    rfl

theorem tree_worker_frame (op : T → T → T) (m tid s : Nat) (G : Group T)
    (h : s ∉ tree_writes m tid) : (tree_worker op m tid G).buffer s = G.buffer s := by
  rw [tree_worker_buffer]
  unfold tree_writes at h
  simp only [Nat.shiftRight_eq_div_pow, pow_one] at h
  by_cases hlt : tid < m / 2
  · rw [if_pos hlt] at h ⊢
    have hne : s ≠ tid := fun e => h (by simp [e])
    exact Function.update_noteq hne _ _
  · rw [if_neg hlt]

theorem tree_worker_depends_on_reads (op : T → T → T) (m tid : Nat) (G G' : Group T)
    (h : ∀ s ∈ tree_reads m tid, G.buffer s = G'.buffer s) :
    ∀ s ∈ tree_writes m tid,
      (tree_worker op m tid G).buffer s = (tree_worker op m tid G').buffer s := by
  intro s hs
  unfold tree_writes at hs
  unfold tree_reads at h
  simp only [Nat.shiftRight_eq_div_pow, pow_one] at h hs
  rw [tree_worker_buffer, tree_worker_buffer]
  by_cases hlt : tid < m / 2
  · rw [if_pos hlt] at h hs
    rw [if_pos hlt, if_pos hlt]
    have hst : s = tid := by simpa using hs
    subst hst
    rw [Function.update_same, Function.update_same, h s (by simp), h (m - s - 1) (by simp)]
  · rw [if_neg hlt] at hs
    exact absurd hs (List.not_mem_nil s)

/-- The workers of a round may take their turn in any order: after the workers of a
duplicate-free list `l`, slot `i` holds `op slot[i] slot[m - i - 1]` when `i ∈ l` and
`i < m / 2`, and its old value otherwise. -/
theorem tree_workers_any_order (op : T → T → T) (m : Nat) (G : Group T) (l : List Nat)
    (hnd : l.Nodup) :
    (l.foldl (fun G tid => tree_worker op m tid G) G).buffer =
      fun i => if i ∈ l ∧ i < m / 2 then op (G.buffer i) (G.buffer (m - i - 1))
        else G.buffer i := by
  induction l using List.reverseRecOn with
  | nil => simp
  | append_singleton l t ih =>
    have hnd1 : l.Nodup := (List.nodup_append.mp hnd).1
    have htl : t ∉ l := by
      intro hmem
      exact (List.nodup_append.mp hnd).2.2 hmem (List.mem_singleton_self t)
    rw [List.foldl_append, List.foldl_cons, List.foldl_nil, tree_worker_buffer, ih hnd1]
    funext i
    have h1 : ¬ (t ∈ l ∧ t < m / 2) := fun h => htl h.1
    by_cases hn : t < m / 2
    · have h2 : ¬ (m - t - 1 ∈ l ∧ m - t - 1 < m / 2) := fun h => by omega
      simp only [if_pos hn, if_neg h1, if_neg h2]
      by_cases hi : i = t
      · subst hi
        simp [hn]
      · rw [Function.update_noteq hi]
        have : (i ∈ l ++ [t] ∧ i < m / 2) ↔ (i ∈ l ∧ i < m / 2) := by
          simp [hi]
        simp only [this]
    · simp only [if_neg hn]
      have : (i ∈ l ++ [t] ∧ i < m / 2) ↔ (i ∈ l ∧ i < m / 2) := by
        constructor
        · rintro ⟨hmem, hlt⟩
          rcases List.mem_append.mp hmem with h | h
          · exact ⟨h, hlt⟩
          · have : i = t := by simpa using h
            omega
        · rintro ⟨hmem, hlt⟩
          exact ⟨List.mem_append_left _ hmem, hlt⟩
      simp only [this]

/-- A round changes only the slots below `m / 2`: every slot from `m / 2` on keeps
its value, whatever the number of workers. -/
theorem tree_round_frame (g : Nat) (op : T → T → T) (m i : Nat) (G : Group T)
    (hi : m / 2 ≤ i) : (tree_round g op m G).buffer i = G.buffer i := by
  unfold tree_round
  rw [tree_round_loop]
  have : ¬ (i < g ∧ i < m / 2) := fun h => by omega
  simp only [if_neg this]

theorem clog_step (m : Nat) (h : 1 < m) :
    Nat.clog 2 m = Nat.clog 2 (m - m >>> 1) + 1 := by
  rw [Nat.clog_of_two_le Nat.one_lt_two h]
  have : (m + 2 - 1) / 2 = m - m >>> 1 := by
    rw [Nat.shiftRight_eq_div_pow, pow_one]
    omega
  rw [this]

theorem clog_le_self (m : Nat) : Nat.clog 2 m ≤ m :=
  (Nat.le_pow_iff_clog_le Nat.one_lt_two).mp (Nat.le_of_lt (Nat.lt_two_pow m))

/-- With more fuel than `⌈log₂ m⌉` the loop returns after exactly `⌈log₂ m⌉` rounds,
in the state `tree_after` gives for that many rounds. -/
theorem tree_loop_rounds (g : Nat) (op : T → T → T) :
    ∀ (fuel m k : Nat) (G : Group T), Nat.clog 2 m < fuel →
      tree_loop g op fuel m k G =
        some ((tree_after g op (Nat.clog 2 m) m G).1, k + Nat.clog 2 m,
          (tree_after g op (Nat.clog 2 m) m G).2) ∧
      (tree_after g op (Nat.clog 2 m) m G).1 ≤ 1 ∧
      (1 ≤ m → (tree_after g op (Nat.clog 2 m) m G).1 = 1) := by
  intro fuel
  induction fuel with
  | zero =>
    intro m k G h0
    omega
  | succ fuel ih =>
    intro m k G hf
    unfold tree_loop
    by_cases h1 : m > 1
    · have hc := clog_step m h1
      obtain ⟨he, hle, hone⟩ := ih (m - m >>> 1) (k + 1) (tree_round g op m G) (by omega)
      have hlive : 1 ≤ m - m >>> 1 := by
        rw [Nat.shiftRight_eq_div_pow, pow_one]
        omega
      have hafter : tree_after g op (Nat.clog 2 m) m G =
          tree_after g op (Nat.clog 2 (m - m >>> 1)) (m - m >>> 1) (tree_round g op m G) := by
        rw [hc]
        show (if m > 1 then _ else _) = _
        rw [if_pos h1]
      rw [if_pos h1, hafter]
      refine ⟨?_, hle, fun _ => hone hlive⟩
      rw [he, hc]
      have : k + 1 + Nat.clog 2 (m - m >>> 1) = k + (Nat.clog 2 (m - m >>> 1) + 1) := by omega
      rw [this]
    · have hc : Nat.clog 2 m = 0 := Nat.clog_of_right_le_one (by omega) 2
      rw [if_neg h1, hc]
      refine ⟨rfl, ?_, ?_⟩
      · show m ≤ 1
        omega
      · intro hm
        show m = 1
        omega

theorem tree_round_agree (g : Nat) (op : T → T → T) (m : Nat) (G G' : Group T) (hm : m ≤ g)
    (h : ∀ i, i < m → G.buffer i = G'.buffer i) :
    ∀ i, i < m → (tree_round g op m G).buffer i = (tree_round g op m G').buffer i := by
  intro i hi
  rw [tree_round_buffer g op m G hm, tree_round_buffer g op m G' hm]
  by_cases hlt : i < m / 2
  · simp only [if_pos hlt]
    rw [h i hi, h (m - i - 1) (by omega)]
  · simp only [if_neg hlt]
    exact h i hi

theorem tree_after_agree (g : Nat) (op : T → T → T) :
    ∀ (j m : Nat) (G G' : Group T), m ≤ g → (∀ i, i < m → G.buffer i = G'.buffer i) →
      (tree_after g op j m G).1 = (tree_after g op j m G').1 ∧
      ∀ i, i < (tree_after g op j m G).1 →
        (tree_after g op j m G).2.buffer i = (tree_after g op j m G').2.buffer i := by
  intro j
  induction j with
  | zero =>
    intro m G G' _ h
    exact ⟨rfl, h⟩
  | succ j ih =>
    intro m G G' hm h
    unfold tree_after
    by_cases h1 : m > 1
    · simp only [if_pos h1]
      have hle : m - m >>> 1 ≤ m := Nat.sub_le _ _
      exact ih (m - m >>> 1) (tree_round g op m G) (tree_round g op m G') (by omega)
        (fun i hi => tree_round_agree g op m G G' hm h i (by omega))
    · simp only [if_neg h1]
      exact ⟨trivial, h⟩

/-- The value returned by `destructive_reduce_n_ideal` is the same for two buffers that
agree on the slots below the live count `n`. -/
theorem destructive_reduce_n_agree (g : Nat) (op : T → T → T) (n : Nat) (init : T)
    (t1 t2 : Nat) (G G' : Group T) (hn : n ≤ g)
    (h : ∀ i, i < n → G.buffer i = G'.buffer i) :
    ∃ v, (destructive_reduce_n_ideal g G n init op t1).map Prod.fst = some v ∧
      (destructive_reduce_n_ideal g G' n init op t2).map Prod.fst = some v := by
  have h1 := tree_loop_rounds g op (n + 1) n 0 G (Nat.lt_succ_of_le (clog_le_self n))
  have h2 := tree_loop_rounds g op (n + 1) n 0 G' (Nat.lt_succ_of_le (clog_le_self n))
  obtain ⟨hm, hb⟩ := tree_after_agree g op (Nat.clog 2 n) n G G' hn h
  unfold destructive_reduce_n_ideal
  rw [h1.1, h2.1]
  by_cases hpos : n > 0
  · have hone := h1.2.2 hpos
    refine ⟨op init ((tree_after g op (Nat.clog 2 n) n G).2.buffer 0), ?_, ?_⟩
    · simp [hpos]
    · simp only [Option.map_some', if_pos hpos]
      rw [hb 0 (by omega)]
  · exact ⟨init, by simp [hpos], by simp [hpos]⟩

/-- The value returned by the call is the same for any two contents of the
uninitialised storage, any two grain sizes and any two workers. -/
theorem reduce_value_determined (g gr1 gr2 : Nat) (u1 u2 : Uninit T) (a : List T) (init : T)
    (op : T → T → T) (t1 t2 : Nat) (h1 : 1 ≤ gr1) (h2 : 1 ≤ gr2) :
    ∃ v, reduce_value_ideal g gr1 u1 a init op t1 = some v ∧
      reduce_value_ideal g gr2 u2 a init op t2 = some v := by
  obtain ⟨G1, hG1, hs1, _, _⟩ := slot_spec g gr1 u1 a op h1
  obtain ⟨G2, hG2, hs2, _, _⟩ := slot_spec g gr2 u2 a op h2
  have hagree : ∀ i, i < min g a.length → G1.buffer i = G2.buffer i := by
    intro i hi
    have e1 := hs1 i hi
    have e2 := hs2 i hi
    rw [e1] at e2
    exact Option.some.inj e2
  obtain ⟨v, hv1, hv2⟩ := destructive_reduce_n_agree g op (min g a.length) init t1 t2 G1 G2
    (Nat.min_le_left _ _) hagree
  refine ⟨v, ?_, ?_⟩
  · unfold reduce_value_ideal reduce_ideal
    rw [hG1]
    exact hv1
  · unfold reduce_value_ideal reduce_ideal
    rw [hG2]
    exact hv2

theorem to_int32_of_range (x : Int) (h0 : 0 ≤ x) (h1 : x < 2 ^ 31) : to_int32 x = x := by
  unfold to_int32
  omega

theorem to_size_t_of_range (x : Int) (h0 : 0 ≤ x) (h1 : x < 2 ^ 31) : to_size_t x = x := by
  unfold to_size_t
  omega

/-! ## The code in the 32-bit range -/

theorem to_int32_le_self (x : Int) (h0 : 0 ≤ x) : to_int32 x ≤ x := by
  unfold to_int32
  omega

theorem index_lt_product (g gr i t : Nat) (hi : i < gr) (ht : t < g) : g * i + t < g * gr := by
  calc g * i + t < g * i + g := by omega
    _ = g * (i + 1) := by ring
    _ ≤ g * gr := Nat.mul_le_mul_left g hi

theorem elements_per_group32_eq (g gr : Nat) (hprod : g * gr < 2 ^ 31) :
    elements_per_group32 g gr = ((g * gr : Nat) : Int) := by
  have hprodI : ((g * gr : Nat) : Int) < 2 ^ 31 := by exact_mod_cast hprod
  unfold elements_per_group32
  rw [← Nat.cast_mul, to_size_t_of_range _ (Int.natCast_nonneg _) hprodI,
    to_int32_of_range _ (Int.natCast_nonneg _) hprodI]

theorem index32_eq (g i t : Nat) (h : g * i + t < 2 ^ 31) :
    index32 g i t = ((g * i + t : Nat) : Int) := by
  have h1 : ((g * i : Nat) : Int) < 2 ^ 31 := by
    have : g * i < 2 ^ 31 := by omega
    exact_mod_cast this
  have h2 : ((g * i + t : Nat) : Int) < 2 ^ 31 := by exact_mod_cast h
  unfold index32
  rw [← Nat.cast_mul, to_size_t_of_range _ (Int.natCast_nonneg _) h1, ← Nat.cast_add,
    to_size_t_of_range _ (Int.natCast_nonneg _) h2,
    to_int32_of_range _ (Int.natCast_nonneg _) h2]

theorem index64_eq (g i t : Nat) (h : g * i + t < 2 ^ 31) :
    index64 g i t = ((g * i + t : Nat) : Int) := by
  have h1 : ((g * i : Nat) : Int) < 2 ^ 31 := by
    have : g * i < 2 ^ 31 := by omega
    exact_mod_cast this
  have h2 : ((g * i + t : Nat) : Int) < 2 ^ 31 := by exact_mod_cast h
  unfold index64
  rw [← Nat.cast_mul, to_size_t_of_range _ (Int.natCast_nonneg _) h1, ← Nat.cast_add,
    to_size_t_of_range _ (Int.natCast_nonneg _) h2]

theorem partition_size32_eq (g gr n off : Nat) (hprod : g * gr < 2 ^ 31) (hn : n < 2 ^ 31)
    (hoff : off ≤ n) :
    partition_size32 g gr n off = ((min (g * gr) (n - off) : Nat) : Int) := by
  unfold partition_size32
  have hsub : (n : Int) - (off : Int) = ((n - off : Nat) : Int) := (Nat.cast_sub hoff).symm
  have hlt : ((n - off : Nat) : Int) < 2 ^ 31 := by
    have : n - off < 2 ^ 31 := Nat.lt_of_le_of_lt (Nat.sub_le n off) hn
    exact_mod_cast this
  rw [elements_per_group32_eq g gr hprod, hsub,
    to_int32_of_range _ (Int.natCast_nonneg _) hlt, Nat.cast_min]

theorem partition_size32_le (g gr n off : Nat) (hoff : off ≤ n) :
    (partition_size32 g gr n off).toNat ≤ n - off := by
  unfold partition_size32
  have h := to_int32_le_self ((n : Int) - (off : Int)) (by omega)
  omega

theorem live_count32_eq (g n : Nat) (hg : g < 2 ^ 31) (hn : n < 2 ^ 31) :
    live_count32 g n = ((min g n : Nat) : Int) := by
  have hgI : (g : Int) < 2 ^ 31 := by exact_mod_cast hg
  have hnI : (n : Int) < 2 ^ 31 := by exact_mod_cast hn
  unfold live_count32
  rw [to_int32_of_range _ (Int.natCast_nonneg _) hgI,
    to_int32_of_range _ (Int.natCast_nonneg _) hnI, Nat.cast_min]

theorem live_count32_le (g n : Nat) : (live_count32 g n).toNat ≤ g := by
  unfold live_count32 to_int32
  omega

theorem read_at_cast (a : List T) (off k : Nat) :
    read_at a ((off : Int) + ((k : Nat) : Int)) = a[off + k]? := by
  unfold read_at
  rw [if_pos (by omega)]
  have h : ((off : Int) + ((k : Nat) : Int)).toNat = off + k := by omega
  rw [h]

theorem foldl_congr_mem {α β : Type} {f g : β → α → β} (l : List α)
    (h : ∀ x ∈ l, ∀ b, f b x = g b x) (b : β) : l.foldl f b = l.foldl g b := by
  induction l generalizing b with
  | nil => rfl
  | cons x xs ih =>
    simp only [List.foldl_cons]
    rw [h x (List.mem_cons_self x xs) b]
    exact ih (fun y hy => h y (List.mem_cons_of_mem x hy)) _

/-- In the range `groupsize * grainsize < 2^31` the strided load is the load over
unbounded integers, whatever `partition_size` is. -/
theorem load_inputs_eq_ideal (g gr t : Nat) (a : List T) (off : Nat) (p : Int) (inp : Nat → T)
    (ht : t < g) (hgr : 1 ≤ gr) (hprod : g * gr < 2 ^ 31) :
    load_inputs g gr t a off p inp = load_inputs_ideal g gr t a off p.toNat inp := by
  have hpos : 0 < g * gr := Nat.mul_pos (by omega) hgr
  unfold load_inputs load_inputs_ideal
  simp only [elements_per_group32_eq g gr hprod]
  by_cases hfull : p ≥ ((g * gr : Nat) : Int)
  · have h2 : p.toNat ≥ g * gr := by omega
    rw [if_pos hfull, if_pos h2]
    apply foldlM_option_congr
    intro i hi b
    have hlt := index_lt_product g gr i t (List.mem_range.mp hi) ht
    rw [index64_eq g i t (by omega), read_at_cast]
  · have h2 : ¬ p.toNat ≥ g * gr := by omega
    rw [if_neg hfull, if_neg h2]
    apply foldlM_option_congr
    intro i hi b
    have hlt := index_lt_product g gr i t (List.mem_range.mp hi) ht
    simp only [index32_eq g i t (by omega), read_at_cast]
    by_cases hc : ((g * i + t : Nat) : Int) < p
    · rw [if_pos hc, if_pos (by omega)]
    · rw [if_neg hc, if_neg (by omega)]

/-- In the range `groupsize * grainsize < 2^31` the sequential sum is the sum over
unbounded integers, whatever `partition_size` is. -/
theorem sum_inputs_eq_ideal (g gr t : Nat) (p : Int) (op : T → T → T) (inp : Nat → T)
    (r : Regs T) (ht : t < g) (hprod : g * gr < 2 ^ 31) :
    sum_inputs g gr t p op inp r = sum_inputs_ideal g gr t p.toNat op inp r := by
  unfold sum_inputs sum_inputs_ideal
  apply foldl_congr_mem
  intro i hi b
  have hlt := index_lt_product g gr i t (List.mem_range.mp hi) ht
  simp only [index32_eq g i t (by omega)]
  by_cases hc : ((g * i + t : Nat) : Int) < p
  · have h2 : g * i + t < p.toNat := by omega
    rw [if_pos hc, if_pos h2]
  · have h2 : ¬ g * i + t < p.toNat := by omega
    rw [if_neg hc, if_neg h2]

/-- In the range `N < 2^31`, `groupsize * grainsize < 2^31` the tile loop is the tile
loop over unbounded integers. -/
theorem tile_loop_eq_ideal (g gr t : Nat) (u : Uninit T) (a : List T) (op : T → T → T)
    (ht : t < g) (hgr : 1 ≤ gr) (hprod : g * gr < 2 ^ 31) (hN : a.length < 2 ^ 31) :
    ∀ (fuel off : Nat) (r : Regs T),
      tile_loop g gr t u a op fuel off r = tile_loop_ideal g gr t u a op fuel off r := by
  intro fuel
  induction fuel with
  | zero =>
    intro off r
    rfl
  | succ fuel ih =>
    intro off r
    unfold tile_loop tile_loop_ideal
    by_cases h : off < a.length
    · simp only [if_pos h, partition_size32_eq g gr a.length off hprod hN (Nat.le_of_lt h),
        elements_per_group32_eq g gr hprod, load_inputs_eq_ideal g gr t a off _ _ ht hgr hprod,
        sum_inputs_eq_ideal g gr t _ op _ _ ht hprod, Int.toNat_ofNat]
      have hnn : (0 : Int) ≤ (off : Int) + ((g * gr : Nat) : Int) := by omega
      have hto : ((off : Int) + ((g * gr : Nat) : Int)).toNat = off + g * gr := by omega
      simp only [if_pos hnn, hto, ih]
    · simp only [if_neg h]

theorem accumulate_eq_ideal (g gr t : Nat) (u : Uninit T) (a : List T) (op : T → T → T)
    (ht : t < g) (hgr : 1 ≤ gr) (hprod : g * gr < 2 ^ 31) (hN : a.length < 2 ^ 31) :
    accumulate g gr u a op t = accumulate_ideal g gr u a op t := by
  unfold accumulate accumulate_ideal
  exact tile_loop_eq_ideal g gr t u a op ht hgr hprod hN _ _ _

theorem write_sums_eq_ideal (g gr : Nat) (u : Uninit T) (a : List T) (op : T → T → T)
    (hgr : 1 ≤ gr) (hprod : g * gr < 2 ^ 31) (hN : a.length < 2 ^ 31) :
    write_sums g gr u a op = write_sums_ideal g gr u a op := by
  unfold write_sums write_sums_ideal
  apply foldlM_option_congr
  intro t ht G
  rw [accumulate_eq_ideal g gr t u a op (List.mem_range.mp ht) hgr hprod hN]

theorem destructive_reduce_n_cast (g : Nat) (G : Group T) (n : Nat) (init : T)
    (op : T → T → T) (t : Nat) :
    (destructive_reduce_n g G (n : Int) init op t).map Prod.fst =
      (destructive_reduce_n_ideal g G n init op t).map Prod.fst := by
  unfold destructive_reduce_n destructive_reduce_n_ideal
  rw [Int.toNat_ofNat]
  cases tree_loop g op (n + 1) n 0 G with
  | none => rfl
  | some s =>
    simp only [Option.map_some']
    by_cases hn : n > 0
    · have hI : (n : Int) > 0 := by omega
      simp only [if_pos hn, if_pos hI]
    · have hI : ¬ (n : Int) > 0 := by omega
      simp only [if_neg hn, if_neg hI]

/-- In the range `N < 2^31`, `groupsize * grainsize < 2^31` the call returns what
the code over unbounded integers returns. -/
theorem reduce_value_eq_ideal (g gr : Nat) (u : Uninit T) (a : List T) (init : T)
    (op : T → T → T) (t : Nat) (hgr : 1 ≤ gr) (hprod : g * gr < 2 ^ 31)
    (hN : a.length < 2 ^ 31) :
    reduce_value g gr u a init op t = reduce_value_ideal g gr u a init op t := by
  have hg : g < 2 ^ 31 := Nat.lt_of_le_of_lt (Nat.le_mul_of_pos_right g hgr) hprod
  unfold reduce_value reduce_value_ideal reduce reduce_ideal
  rw [write_sums_eq_ideal g gr u a op hgr hprod hN, live_count32_eq g a.length hg hN]
  cases write_sums_ideal g gr u a op with
  | none => rfl
  | some G =>
    simp only [Option.some_bind]
    exact destructive_reduce_n_cast g G (min g a.length) init op t

/-! ## The call returns for every input length -/

theorem load_inputs_ideal_total (g gr t off p : Nat) (a : List T) (inp : Nat → T)
    (ht : t < g) (hp : off + p ≤ a.length) :
    ∃ inp', load_inputs_ideal g gr t a off p inp = some inp' := by
  have hin : ∀ i < gr, g * i + t < p → off + (g * i + t) < a.length := by
    intro i _ hc
    omega
  obtain ⟨inp', h1, _, _⟩ := load_loop g t off p a gr inp hin
  refine ⟨inp', ?_⟩
  unfold load_inputs_ideal
  split
  · next hfull =>
    rw [← h1]
    apply foldlM_option_congr
    intro i hi x
    have hlt := index_lt_product g gr i t (List.mem_range.mp hi) ht
    have : g * i + t < p := by omega
    simp [this]
  · exact h1

/-- With `groupsize * grainsize < 2^31` the tile loop of a worker `t < groupsize`
returns for an input of any length, and its flag is set as soon as one tile was
entered. -/
theorem tile_loop_total (g gr t : Nat) (u : Uninit T) (a : List T) (op : T → T → T)
    (ht : t < g) (hgr : 1 ≤ gr) (hprod : g * gr < 2 ^ 31) :
    ∀ (fuel off : Nat) (r : Regs T), 0 < fuel → a.length < off + fuel →
      ∃ r1, tile_loop g gr t u a op fuel off r = some r1 ∧
        r1.this_sum_defined = (r.this_sum_defined || decide (off < a.length)) := by
  have hpos : 0 < g * gr := Nat.mul_pos (by omega) hgr
  intro fuel
  induction fuel with
  | zero =>
    intro off r h0
    omega
  | succ fuel ih =>
    intro off r _ hlen
    unfold tile_loop
    by_cases h : off < a.length
    · have hple := partition_size32_le g gr a.length off (Nat.le_of_lt h)
      obtain ⟨inp', hload⟩ := load_inputs_ideal_total g gr t off
        (partition_size32 g gr a.length off).toNat a (u.inputs t off) ht (by omega)
      have hnn : (0 : Int) ≤ (off : Int) + ((g * gr : Nat) : Int) := by omega
      have hto : ((off : Int) + ((g * gr : Nat) : Int)).toNat = off + g * gr := by omega
      simp only [if_pos h, elements_per_group32_eq g gr hprod,
        load_inputs_eq_ideal g gr t a off _ _ ht hgr hprod, hload, Option.some_bind, if_pos hnn,
        hto]
      obtain ⟨r1, hr1, hflag⟩ := ih (off + g * gr)
        ⟨(sum_inputs g gr t (partition_size32 g gr a.length off) op inp' r).this_sum, true,
          (sum_inputs g gr t (partition_size32 g gr a.length off) op inp' r).consumed,
          (sum_inputs g gr t (partition_size32 g gr a.length off) op inp' r).applied⟩
        (by omega) (by omega)
      refine ⟨r1, hr1, ?_⟩
      rw [hflag]
      simp [h]
    · simp only [if_neg h]
      exact ⟨r, rfl, by simp [h]⟩

theorem accumulate_total (g gr t : Nat) (u : Uninit T) (a : List T) (op : T → T → T)
    (ht : t < g) (hgr : 1 ≤ gr) (hprod : g * gr < 2 ^ 31) :
    ∃ r, accumulate g gr u a op t = some r ∧
      r.this_sum_defined = decide (0 < a.length) := by
  obtain ⟨r, h, hf⟩ := tile_loop_total g gr t u a op ht hgr hprod (a.length + 1) 0
    ⟨u.this_sum t, false, 0, 0⟩ (by omega) (by omega)
  exact ⟨r, h, by simpa using hf⟩

theorem store_loop (acc : Nat → Option (Regs T)) (buf : Nat → T) (n : Nat)
    (hacc : ∀ s, s < n → ∃ r, acc s = some r) :
    ∃ G, (List.range n).foldlM (fun G tid => (acc tid).map fun r => store_sum tid r G)
        (⟨buf, fun _ => 0, []⟩ : Group T) = some G ∧
      ∀ s, (s < n → ∃ r, acc s = some r ∧
              G.buffer s = (if r.this_sum_defined then r.this_sum else buf s) ∧
              G.calls s = r.applied ∧ (s ∈ G.stores ↔ r.this_sum_defined = true)) ∧
           (n ≤ s → G.buffer s = buf s ∧ G.calls s = 0 ∧ s ∉ G.stores) := by
  induction n with
  | zero =>
    refine ⟨⟨buf, fun _ => 0, []⟩, rfl, ?_⟩
    intro s
    exact ⟨fun h => absurd h (Nat.not_lt_zero s), fun _ => ⟨rfl, rfl, List.not_mem_nil s⟩⟩
  | succ n ih =>
    obtain ⟨G, hG, hs⟩ := ih (fun s h => hacc s (Nat.lt_succ_of_lt h))
    obtain ⟨r, hr⟩ := hacc n (Nat.lt_succ_self n)
    refine ⟨store_sum n r G, ?_, ?_⟩
    · rw [List.range_succ, List.foldlM_append, hG]
      simp [hr]
    · intro s
      constructor
      · intro hlt
        rcases Nat.lt_succ_iff_lt_or_eq.mp hlt with hlt1 | heq
        · obtain ⟨r1, hr1, hb, hc, hm⟩ := (hs s).1 hlt1
          refine ⟨r1, hr1, ?_, ?_, ?_⟩
          · rw [← hb]
            unfold store_sum
            split <;> simp [Function.update_noteq (Nat.ne_of_lt hlt1)]
          · rw [← hc]
            unfold store_sum
            split <;> simp [Function.update_noteq (Nat.ne_of_lt hlt1)]
          · rw [← hm]
            unfold store_sum
            split <;> simp [Nat.ne_of_lt hlt1]
        · subst heq
          obtain ⟨hb, _, hm⟩ := (hs s).2 (Nat.le_refl s)
          refine ⟨r, hr, ?_, ?_, ?_⟩
          · unfold store_sum
            split <;> simp_all
          · unfold store_sum
            split <;> simp
          · unfold store_sum
            split <;> simp_all
      · intro hle
        obtain ⟨hb, hc, hm⟩ := (hs s).2 (by omega)
        have hne : s ≠ n := by omega
        unfold store_sum
        split <;> simp [Function.update_noteq hne, hb, hc, hm, hne]

/-- With `groupsize * grainsize < 2^31` every worker reaches the barrier of line 132,
for an input of any length; slot `s` then holds the running value of worker `s`
when its flag is set. -/
theorem write_sums_total (g gr : Nat) (u : Uninit T) (a : List T) (op : T → T → T)
    (hgr : 1 ≤ gr) (hprod : g * gr < 2 ^ 31) :
    ∃ G, write_sums g gr u a op = some G ∧
      ∀ s, (s < g → ∃ r, accumulate g gr u a op s = some r ∧
              G.buffer s = (if r.this_sum_defined then r.this_sum else u.buffer s) ∧
              G.calls s = r.applied ∧ (s ∈ G.stores ↔ r.this_sum_defined = true)) ∧
           (g ≤ s → G.buffer s = u.buffer s ∧ G.calls s = 0 ∧ s ∉ G.stores) := by
  unfold write_sums
  exact store_loop (accumulate g gr u a op) u.buffer g
    (fun s hs => (accumulate_total g gr s u a op hs hgr hprod).imp fun r h => h.1)

/-- The value `destructive_reduce_n` returns, for every `n`: the loop runs
`⌈log₂ n⌉` rounds and line 46 reads slot 0 of the state they leave. -/
theorem destructive_reduce_n_value (g : Nat) (G : Group T) (n : Int) (init : T)
    (op : T → T → T) (t : Nat) :
    (destructive_reduce_n g G n init op t).map Prod.fst =
      some (if n > 0 then
          op init ((tree_after g op (Nat.clog 2 n.toNat) n.toNat G).2.buffer 0)
        else init) := by
  obtain ⟨h, _, _⟩ := tree_loop_rounds g op (n.toNat + 1) n.toNat 0 G
    (by have := clog_le_self n.toNat; omega)
  unfold destructive_reduce_n
  rw [h]
  simp only [Option.map_some']
  by_cases hn : n > 0
  · simp only [if_pos hn]
  · simp only [if_neg hn]

theorem destructive_reduce_n_nonpos (g : Nat) (G : Group T) (n : Int) (init : T)
    (op : T → T → T) (t : Nat) (hn : n ≤ 0) :
    destructive_reduce_n g G n init op t = some (init, G) := by
  have h0 : n.toNat = 0 := by omega
  have hn1 : ¬ n > 0 := by omega
  unfold destructive_reduce_n
  rw [h0]
  simp [tree_loop, hn1]

/-- When the live count of line 135 is not positive the call returns `init`. -/
theorem reduce_value_nonpos (g gr : Nat) (u : Uninit T) (a : List T) (init : T)
    (op : T → T → T) (t : Nat) (hgr : 1 ≤ gr) (hprod : g * gr < 2 ^ 31)
    (hlive : live_count32 g a.length ≤ 0) :
    reduce_value g gr u a init op t = some init := by
  obtain ⟨G, hG, _⟩ := write_sums_total g gr u a op hgr hprod
  unfold reduce_value bulk.reduce
  rw [hG, Option.some_bind, destructive_reduce_n_nonpos g G _ init op t hlive]
  rfl

/-! ## Sizes that wrap -/

theorem foldlM_none_of_mem {α β : Type} (f : β → α → Option β) (l : List α) (x : α)
    (hx : x ∈ l) (hf : ∀ b, f b x = none) (b : β) : l.foldlM f b = none := by
  induction l generalizing b with
  | nil => cases hx
  | cons y ys ih =>
    simp only [List.foldlM_cons]
    cases hfy : f b y with
    | none => rfl
    | some b1 =>
      rcases List.mem_cons.mp hx with heq | hmem
      · subst heq
        rw [hf b] at hfy
        cases hfy
      · simpa using ih hmem b1

/-- A full tile whose register `i` lies outside the input: the load has no defined
result. -/
theorem load_inputs_overrun (g gr t : Nat) (a : List T) (off : Nat) (p : Int)
    (inp : Nat → T) (i : Nat) (hi : i < gr) (hfull : p ≥ elements_per_group32 g gr)
    (hout : read_at a ((off : Int) + index64 g i t) = none) :
    load_inputs g gr t a off p inp = none := by
  unfold load_inputs
  simp only [if_pos hfull]
  exact foldlM_none_of_mem _ _ i (List.mem_range.mpr hi) (fun b => by simp [hout]) _

theorem accumulate_overrun (g gr t : Nat) (u : Uninit T) (a : List T) (op : T → T → T)
    (i : Nat) (hi : i < gr) (hpos : 0 < a.length)
    (hfull : partition_size32 g gr a.length 0 ≥ elements_per_group32 g gr)
    (hout : read_at a (((0 : Nat) : Int) + index64 g i t) = none) :
    accumulate g gr u a op t = none := by
  unfold accumulate tile_loop
  simp only [if_pos hpos, load_inputs_overrun g gr t a 0 _ _ i hi hfull hout, Option.none_bind]

theorem write_sums_overrun (g gr : Nat) (u : Uninit T) (a : List T) (op : T → T → T)
    (hg : 0 < g) (h0 : accumulate g gr u a op 0 = none) :
    write_sums g gr u a op = none := by
  unfold write_sums
  exact foldlM_none_of_mem _ _ 0 (List.mem_range.mpr hg) (fun b => by simp [h0]) _

theorem reduce_value_overrun (g gr : Nat) (u : Uninit T) (a : List T) (init : T)
    (op : T → T → T) (t : Nat) (h : write_sums g gr u a op = none) :
    reduce_value g gr u a init op t = none := by
  unfold reduce_value bulk.reduce
  rw [h]
  rfl

/-- With `65536 * 65536` elements per group, which line 68 turns into `0`, worker 0
reads `first[65536]` outside an input of at most `65536` elements and the tile loop
never advances: the call has no result. -/
theorem reduce_value_sizes_wrap (u : Uninit T) (a : List T) (init : T) (op : T → T → T)
    (t : Nat) (hpos : 0 < a.length) (hlen : a.length ≤ 65536) :
    accumulate 65536 65536 u a op 0 = none ∧ write_sums 65536 65536 u a op = none ∧
      reduce_value 65536 65536 u a init op t = none := by
  have hepg : elements_per_group32 65536 65536 = 0 := by decide
  have hidx : index64 65536 1 0 = 65536 := by decide
  have hfull : partition_size32 65536 65536 a.length 0 ≥ elements_per_group32 65536 65536 := by
    unfold partition_size32
    rw [hepg]
    have h1 : to_int32 ((a.length : Int) - ((0 : Nat) : Int)) = (a.length : Int) := by
      unfold to_int32
      omega
    rw [h1]
    omega
  have hout : read_at a (((0 : Nat) : Int) + index64 65536 1 0) = none := by
    rw [hidx]
    unfold read_at
    rw [if_pos (by omega)]
    have h1 : (((0 : Nat) : Int) + 65536).toNat = 65536 := by omega
    rw [h1]
    exact List.getElem?_eq_none (by omega)
  have hacc := accumulate_overrun 65536 65536 0 u a op 1 (by decide) hpos hfull hout
  have hw := write_sums_overrun 65536 65536 u a op (by decide) hacc
  exact ⟨hacc, hw, reduce_value_overrun 65536 65536 u a init op t hw⟩

/-! ## An input of `2^31` elements or more -/

theorem foldl_invariant {α β : Type} (P : β → Prop) (f : β → α → β) (l : List α) (b : β)
    (h0 : P b) (hstep : ∀ b x, P b → P (f b x)) : P (l.foldl f b) := by
  induction l generalizing b with
  | nil => exact h0
  | cons x xs ih =>
    simp only [List.foldl_cons]
    exact ih (f b x) (hstep b x h0)

theorem sum_inputs_ideal_zero (g gr t : Nat) (op : T → T → T) (inp : Nat → T) (r : Regs T) :
    sum_inputs_ideal g gr t 0 op inp r = r := by
  unfold sum_inputs_ideal
  apply foldl_invariant (fun b => b = r)
  · rfl
  · intro b x hb
    simp [hb]

/-- With the operator that keeps its left argument, a sum that starts with the flag
set keeps the running value. -/
theorem sum_inputs_keeps_left (g gr t : Nat) (p : Int) (inp : Nat → T) (r : Regs T)
    (hr : r.this_sum_defined = true) :
    (sum_inputs g gr t p (fun x _ => x) inp r).this_sum = r.this_sum := by
  have h : (sum_inputs g gr t p (fun x _ => x) inp r).this_sum = r.this_sum ∧
      (sum_inputs g gr t p (fun x _ => x) inp r).this_sum_defined = true := by
    unfold sum_inputs
    refine foldl_invariant
      (fun b : Regs T => b.this_sum = r.this_sum ∧ b.this_sum_defined = true)
      _ _ _ ⟨rfl, hr⟩ ?_
    intro b x hb
    obtain ⟨h1, h2⟩ := hb
    by_cases hc : index32 g x t < p
    · simp only [if_pos hc, h2, Bool.or_true, if_true]
      exact ⟨h1, trivial⟩
    · simp only [if_neg hc]
      exact ⟨h1, h2⟩
  exact h.1

theorem tile_loop_keeps_left (g gr t : Nat) (u : Uninit T) (a : List T) :
    ∀ (fuel off : Nat) (r r1 : Regs T), r.this_sum_defined = true →
      tile_loop g gr t u a (fun x _ => x) fuel off r = some r1 → r1.this_sum = r.this_sum := by
  intro fuel
  induction fuel with
  | zero =>
    intro off r r1 _ h
    rw [tile_loop] at h
    cases h
  | succ fuel ih =>
    intro off r r1 hr h
    rw [tile_loop] at h
    by_cases hlt : off < a.length
    · rw [if_pos hlt] at h
      dsimp only at h
      cases hload : load_inputs g gr t a off (partition_size32 g gr a.length off)
          (u.inputs t off) with
      | none =>
        rw [hload, Option.none_bind] at h
        cases h
      | some inp =>
        rw [hload, Option.some_bind] at h
        by_cases hnn : 0 ≤ (off : Int) + elements_per_group32 g gr
        · rw [if_pos hnn] at h
          have h1 := ih _ _ _ rfl h
          rw [h1]
          exact sum_inputs_keeps_left g gr t _ inp r hr
        · rw [if_neg hnn] at h
          cases h
    · rw [if_neg hlt] at h
      cases h
      rfl

/-- When the length of the input is not positive as an `int`, the first tile has a
`partition_size` that is not positive: it loads and folds nothing and sets the
flag. -/
theorem first_tile_skipped (g gr t : Nat) (u : Uninit T) (a : List T) (op : T → T → T)
    (fuel : Nat) (r : Regs T) (ht : t < g) (hgr : 1 ≤ gr) (hprod : g * gr < 2 ^ 31)
    (hpos : 0 < a.length) (hneg : to_int32 (a.length : Int) ≤ 0) :
    tile_loop g gr t u a op (fuel + 1) 0 r =
      tile_loop g gr t u a op fuel (g * gr) ⟨r.this_sum, true, r.consumed, r.applied⟩ := by
  have hp : (partition_size32 g gr a.length 0).toNat = 0 := by
    unfold partition_size32
    have h1 : (a.length : Int) - ((0 : Nat) : Int) = (a.length : Int) := by omega
    rw [h1]
    omega
  obtain ⟨inp', hload⟩ := load_inputs_ideal_total g gr t 0 0 a (u.inputs t 0) ht (by omega)
  have hnn : (0 : Int) ≤ ((0 : Nat) : Int) + ((g * gr : Nat) : Int) := by omega
  have hto : (((0 : Nat) : Int) + ((g * gr : Nat) : Int)).toNat = g * gr := by omega
  rw [tile_loop]
  simp only [if_pos hpos, elements_per_group32_eq g gr hprod,
    load_inputs_eq_ideal g gr t a 0 _ _ ht hgr hprod, hp, hload, Option.some_bind,
    sum_inputs_eq_ideal g gr t _ op _ _ ht hprod, sum_inputs_ideal_zero, if_pos hnn, hto]

/-- When the length of the input is not positive as an `int` and the operator keeps
its left argument, worker `t` stores what its uninitialised `this_sum` held. -/
theorem stored_uninitialised (g gr t : Nat) (u : Uninit T) (a : List T)
    (ht : t < g) (hgr : 1 ≤ gr) (hprod : g * gr < 2 ^ 31)
    (hpos : 0 < a.length) (hneg : to_int32 (a.length : Int) ≤ 0) :
    ∃ G, write_sums g gr u a (fun x _ => x) = some G ∧ G.buffer t = u.this_sum t ∧
      t ∈ G.stores := by
  obtain ⟨G, hG, hs⟩ := write_sums_total g gr u a (fun x _ => x) hgr hprod
  obtain ⟨r, hr, hb, _, hm⟩ := (hs t).1 ht
  obtain ⟨r1, hr1, hflag⟩ := accumulate_total g gr t u a (fun x _ => x) ht hgr hprod
  rw [hr] at hr1
  cases Option.some.inj hr1
  have hdef : r.this_sum_defined = true := by
    rw [hflag]
    simp [hpos]
  have hkeep : r.this_sum = u.this_sum t := by
    unfold accumulate at hr
    rw [first_tile_skipped g gr t u a _ a.length _ ht hgr hprod hpos hneg] at hr
    exact tile_loop_keeps_left g gr t u a _ _ _ r rfl hr
  refine ⟨G, hG, ?_, hm.mpr hdef⟩
  rw [hb, hdef, if_pos rfl, hkeep]

theorem foldl_left (l : List T) (x : T) : l.foldl (fun x _ => x) x = x := by
  induction l with
  | nil => rfl
  | cons y ys ih =>
    simp only [List.foldl_cons]
    exact ih

theorem mem_of_mem_assigned (g t : Nat) (a : List T) (y : T) (h : y ∈ assigned g t a) :
    y ∈ a := by
  unfold assigned at h
  obtain ⟨i, _, hi⟩ := List.mem_filterMap.mp h
  exact List.getElem?_mem hi

/-- Under the operator that keeps its left argument, the fold of a worker's share of
a constant input is that constant. -/
theorem fold1_left_assigned_replicate (g t n : Nat) (c : T) (ht : t < g) (hn : t < n) :
    fold1 (fun x _ => x) (assigned g t (List.replicate n c)) = some c := by
  have hlen := assigned_length_pos g t (List.replicate n c) ht (by simpa using hn)
  have hall : ∀ y ∈ assigned g t (List.replicate n c), y = c :=
    fun y hy => List.eq_of_mem_replicate (mem_of_mem_assigned g t _ y hy)
  cases hA : assigned g t (List.replicate n c) with
  | nil =>
    rw [hA] at hlen
    simp at hlen
  | cons x xs =>
    have hx : x = c := hall x (by rw [hA]; exact List.mem_cons_self x xs)
    unfold fold1
    simp only [List.foldl_cons, absorb]
    rw [absorb_foldl_eq, foldl_left, hx]

theorem foldl_add_replicate_one (n k : Nat) :
    (List.replicate n 1).foldl (· + ·) k = k + n := by
  induction n generalizing k with
  | zero => rfl
  | succ n ih =>
    simp only [List.replicate_succ, List.foldl_cons]
    rw [ih]
    omega

/-! ## The empty input -/

theorem foldlM_fixed {α β : Type} (f : β → α → Option β) (l : List α) (b : β)
    (h : ∀ x, f b x = some b) : l.foldlM f b = some b := by
  induction l with
  | nil => rfl
  | cons x xs ih =>
    simp only [List.foldlM_cons]
    rw [h x]
    simpa using ih

/-- On the empty input no worker enters the tile loop, whatever the sizes: the group
state at the barrier of line 132 is the scratch buffer as acquired. -/
theorem write_sums_nil (g gr : Nat) (u : Uninit T) (op : T → T → T) :
    write_sums g gr u [] op = some ⟨u.buffer, fun _ => 0, []⟩ := by
  unfold write_sums
  apply foldlM_fixed
  intro t
  have hacc : accumulate g gr u [] op t = some ⟨u.this_sum t, false, 0, 0⟩ := by
    unfold accumulate tile_loop
    simp
  rw [hacc]
  simp [store_sum]

/-! ## Scratch accesses and barriers -/

/-- With more fuel than `⌈log₂ m⌉` the rounds of worker `tid` are listed; they hold
`⌈log₂ m⌉` barriers and touch only slots below `m`. -/
theorem tree_events_spec (tid : Nat) :
    ∀ (fuel m : Nat), Nat.clog 2 m < fuel →
      ∃ ev, tree_events tid fuel m = some ev ∧ ev.count Access.wait = Nat.clog 2 m ∧
        (∀ s, Access.load s ∈ ev → s < m) ∧ (∀ s, Access.store s ∈ ev → s < m) := by
  intro fuel
  induction fuel with
  | zero =>
    intro m h0
    omega
  | succ fuel ih =>
    intro m hf
    unfold tree_events
    by_cases h1 : m > 1
    · have hc := clog_step m h1
      obtain ⟨rest, he, hcount, hload, hstore⟩ := ih (m - m >>> 1) (by omega)
      have hhalf : m >>> 1 = m / 2 := by rw [Nat.shiftRight_eq_div_pow, pow_one]
      rw [if_pos h1]
      simp only [he, Option.map_some']
      refine ⟨_, rfl, ?_, ?_, ?_⟩
      · rw [hc, ← hcount]
        unfold tree_branch tree_reads tree_writes
        by_cases ht : tid < m >>> 1
        · simp [ht, List.count_cons]
        · simp [ht, List.count_cons]
      · intro s hs
        unfold tree_branch tree_reads tree_writes at hs
        by_cases ht : tid < m >>> 1
        · simp only [if_pos ht, List.map_cons, List.map_nil, List.mem_append, List.mem_cons,
            List.mem_singleton, Access.load.injEq, List.not_mem_nil, or_false, reduceCtorEq]
            at hs
          rcases hs with ((hs | hs) | hs) | hs
          · omega
          · omega
          · have := hload s hs
            omega
        · simp only [if_neg ht, List.map_nil, List.nil_append, List.mem_append,
            List.mem_singleton, reduceCtorEq, false_or] at hs
          have := hload s hs
          omega
      · intro s hs
        unfold tree_branch tree_reads tree_writes at hs
        by_cases ht : tid < m >>> 1
        · simp only [if_pos ht, List.map_cons, List.map_nil, List.mem_append, List.mem_cons,
            List.mem_singleton, Access.store.injEq, List.not_mem_nil, or_false, reduceCtorEq,
            false_or] at hs
          rcases hs with hs | hs
          · omega
          · have := hstore s hs
            omega
        · simp only [if_neg ht, List.map_nil, List.nil_append, List.mem_append,
            List.mem_singleton, reduceCtorEq, false_or] at hs
          have := hstore s hs
          omega
    · have hc : Nat.clog 2 m = 0 := Nat.clog_of_right_le_one (by omega) 2
      rw [if_neg h1, hc]
      exact ⟨[], rfl, rfl, fun s hs => absurd hs (List.not_mem_nil _),
        fun s hs => absurd hs (List.not_mem_nil _)⟩

/-- The accesses of `destructive_reduce_n` on worker `tid`: `⌈log₂ n⌉ + 2` barriers
(2 when `n ≤ 0`), and every slot read lies below the live count `n`. -/
theorem destructive_reduce_n_events_spec (tid : Nat) (n : Int) :
    ∃ ev, destructive_reduce_n_events tid n = some ev ∧
      ev.count Access.wait = Nat.clog 2 n.toNat + 2 ∧
      (∀ s, Access.load s ∈ ev → (s : Int) < n) := by
  obtain ⟨rounds, he, hcount, hload, _⟩ :=
    tree_events_spec tid (n.toNat + 1) n.toNat (Nat.lt_succ_of_le (clog_le_self n.toNat))
  unfold destructive_reduce_n_events
  rw [he]
  refine ⟨_, rfl, ?_, ?_⟩
  · by_cases hn : n > 0
    · simp [hn, List.count_cons, hcount]
    · simp [hn, List.count_cons, hcount]
  · intro s hs
    by_cases hn : n > 0
    · simp only [if_pos hn, List.mem_append, List.mem_singleton, reduceCtorEq, or_false,
        Access.load.injEq] at hs
      rcases hs with hs | hs
      · have := hload s hs
        omega
      · omega
    · simp only [if_neg hn, List.append_nil, List.mem_append, List.mem_singleton,
        reduceCtorEq, or_false] at hs
      have := hload s hs
      omega

/-- The accesses of a whole call on worker `tid < g`, for an input of any length:
three barriers and one per tree round. -/
theorem reduce_events_spec (g gr : Nat) (u : Uninit T) (a : List T) (op : T → T → T)
    (tid : Nat) (hgr : 1 ≤ gr) (htid : tid < g) (hprod : g * gr < 2 ^ 31) :
    ∃ ev, reduce_events g gr u a op tid = some ev ∧
      ev.count Access.wait = 3 + Nat.clog 2 (live_count32 g a.length).toNat := by
  obtain ⟨r, hr, _⟩ := accumulate_total g gr tid u a op htid hgr hprod
  obtain ⟨ev, he, hcount, _⟩ := destructive_reduce_n_events_spec tid (live_count32 g a.length)
  unfold reduce_events
  rw [hr, Option.some_bind, he]
  refine ⟨_, rfl, ?_⟩
  unfold store_branch
  by_cases hd : r.this_sum_defined = true
  · simp only [if_pos hd, List.count_append, hcount]
    simp [List.count_cons]
    omega
  · simp only [if_neg hd, List.count_append, hcount]
    simp [List.count_cons]
    omega

/-- Every worker leaves the loop of `destructive_reduce_n` after the same rounds, so
the value it computes on line 46 is the value of the call. -/
theorem returned_to_eq (g : Nat) (G : Group T) (n : Int) (init : T) (op : T → T → T)
    (t : Nat) :
    returned_to g G n init op t = (destructive_reduce_n g G n init op t).map Prod.fst := by
  obtain ⟨ev, he, hcount, _, _⟩ :=
    tree_events_spec t (n.toNat + 1) n.toNat (Nat.lt_succ_of_le (clog_le_self n.toNat))
  rw [destructive_reduce_n_value]
  unfold returned_to
  rw [he]
  simp only [Option.map_some', hcount]

/-! ## The call in the 32-bit range -/

/-- On a one-element input, with `groupsize * grainsize < 2^31`, the call returns
`op init a0`. -/
theorem reduce_value_singleton (g gr : Nat) (u : Uninit T) (a0 init : T) (op : T → T → T)
    (t : Nat) (hg : 1 ≤ g) (hgr : 1 ≤ gr) (hprod : g * gr < 2 ^ 31) :
    reduce_value g gr u [a0] init op t = some (op init a0) := by
  rw [reduce_value_eq_ideal g gr u [a0] init op t hgr hprod (by simp)]
  obtain ⟨G, hG, hslot, _, _⟩ := slot_spec g gr u [a0] op hgr
  obtain ⟨G', m1, k1, G1, hG', _, hsmall, hred⟩ := reduce_unfold g gr u [a0] init op t hgr
  rw [hG] at hG'
  cases Option.some.inj hG'
  have hmin : min g [a0].length = 1 := by
    simp only [List.length_singleton]
    omega
  have h1 : G1 = G := (hsmall (by omega)).1
  have h0 := hslot 0 (by omega)
  have hA : assigned g 0 [a0] = [a0] := by
    simp [assigned, List.range_succ]
  rw [hA] at h0
  have hb : G.buffer 0 = a0 := (Option.some.inj h0).symm
  unfold reduce_value_ideal
  rw [hred, if_pos (by omega), h1, hb]
  rfl

/-! ## Three tiles of an input of `2^32 + 1` elements -/

theorem load_inputs_ideal_values (g gr t off p : Nat) (a : List T) (inp : Nat → T)
    (ht : t < g) (hp : off + p ≤ a.length) :
    ∃ inp', load_inputs_ideal g gr t a off p inp = some inp' ∧
      ∀ i, i < gr → g * i + t < p → a[off + (g * i + t)]? = some (inp' i) := by
  have hin : ∀ i < gr, g * i + t < p → off + (g * i + t) < a.length := by
    intro i _ hc
    omega
  obtain ⟨inp', h1, h2, _⟩ := load_loop g t off p a gr inp hin
  refine ⟨inp', ?_, h2⟩
  unfold load_inputs_ideal
  split
  · next hfull =>
    rw [← h1]
    apply foldlM_option_congr
    intro i hi x
    have hlt := index_lt_product g gr i t (List.mem_range.mp hi) ht
    have : g * i + t < p := by omega
    simp [this]
  · exact h1

/-- One pass through the body of the tile loop, for `groupsize * grainsize < 2^31`
and an input of any length: the worker folds the registers below the computed
`partition_size`, sets its flag and moves on by `groupsize * grainsize`. -/
theorem tile_loop_step (g gr t : Nat) (u : Uninit T) (a : List T) (op : T → T → T)
    (fuel off : Nat) (r : Regs T) (ht : t < g) (hgr : 1 ≤ gr) (hprod : g * gr < 2 ^ 31)
    (hoff : off < a.length) (hr : r.this_sum_defined = true ↔ r.consumed ≠ 0) :
    ∃ inp r1,
      (∀ i, i < gr → g * i + t < (partition_size32 g gr a.length off).toNat →
        a[off + (g * i + t)]? = some (inp i)) ∧
      r1.view = (taken g t (partition_size32 g gr a.length off).toNat inp gr).foldl
        (absorb op) r.view ∧
      r1.consumed =
        r.consumed + (taken g t (partition_size32 g gr a.length off).toNat inp gr).length ∧
      r1.this_sum_defined = true ∧
      tile_loop g gr t u a op (fuel + 1) off r =
        tile_loop g gr t u a op fuel (off + g * gr) r1 := by
  have hple := partition_size32_le g gr a.length off (Nat.le_of_lt hoff)
  obtain ⟨inp, hload, hval⟩ := load_inputs_ideal_values g gr t off
    (partition_size32 g gr a.length off).toNat a (u.inputs t off) ht (by omega)
  obtain ⟨hview, _, hcons⟩ := sum_inputs_spec g gr t (partition_size32 g gr a.length off).toNat
    op inp r hr
  have hnn : (0 : Int) ≤ (off : Int) + ((g * gr : Nat) : Int) := by omega
  have hto : ((off : Int) + ((g * gr : Nat) : Int)).toNat = off + g * gr := by omega
  refine ⟨inp,
    ⟨(sum_inputs_ideal g gr t (partition_size32 g gr a.length off).toNat op inp r).this_sum,
      true,
      (sum_inputs_ideal g gr t (partition_size32 g gr a.length off).toNat op inp r).consumed,
      (sum_inputs_ideal g gr t (partition_size32 g gr a.length off).toNat op inp r).applied⟩,
    hval, hview, hcons, rfl, ?_⟩
  rw [tile_loop]
  simp only [if_pos hoff, elements_per_group32_eq g gr hprod,
    load_inputs_eq_ideal g gr t a off _ _ ht hgr hprod, hload, Option.some_bind,
    sum_inputs_eq_ideal g gr t _ op _ _ ht hprod, if_pos hnn, hto]

theorem tile_loop_done (g gr t : Nat) (u : Uninit T) (a : List T) (op : T → T → T)
    (fuel off : Nat) (r : Regs T) (hoff : a.length ≤ off) :
    tile_loop g gr t u a op (fuel + 1) off r = some r := by
  rw [tile_loop, if_neg (by omega)]

theorem foldl_same {α β : Type} (l : List α) (b : β) : l.foldl (fun b _ => b) b = b := by
  induction l with
  | nil => rfl
  | cons x xs ih =>
    simp only [List.foldl_cons]
    exact ih

theorem taken_first (p gr : Nat) (inp : Nat → T) (hp : p ≤ gr) :
    taken 1 0 p inp gr = (List.range p).map inp := by
  unfold taken
  have hsplit : List.range gr = List.range p ++ List.range' p (gr - p) := by
    have h := List.range'_append_1 0 p (gr - p)
    rw [Nat.zero_add] at h
    rw [List.range_eq_range', List.range_eq_range', h]
    congr 1
    omega
  rw [hsplit, List.filterMap_append]
  have h1 : (List.range p).filterMap
      (fun i => if 1 * i + 0 < p then some (inp i) else none) = (List.range p).map inp := by
    rw [← List.filterMap_eq_map]
    apply List.filterMap_congr
    intro i hi
    have := List.mem_range.mp hi
    simp [this]
  have h2 : (List.range' p (gr - p)).filterMap
      (fun i => if 1 * i + 0 < p then some (inp i) else none) = [] := by
    apply List.filterMap_eq_nil_iff.mpr
    intro i hi
    have := (List.mem_range'_1.mp hi).1
    simp
    omega
  rw [h1, h2, List.append_nil]

theorem map_range_const (p : Nat) (inp : Nat → T) (c : T) (h : ∀ i, i < p → inp i = c) :
    (List.range p).map inp = List.replicate p c := by
  induction p with
  | zero => rfl
  | succ p ih =>
    rw [List.range_succ, List.map_append, ih (fun i hi => h i (Nat.lt_succ_of_lt hi)),
      List.replicate_succ', List.map_singleton, h p (Nat.lt_succ_self p)]

/-- One worker, grain `gr` and `2 * gr + d = 2^32 + 1` ones with `d ≤ gr`: the
first tile has `partition_size = 1` and folds `a[0]`, the second has a negative
`partition_size` and folds nothing, the third folds the last `d` elements; the call
returns `init + (1 + d)`. -/
theorem reduce_three_tiles (gr d : Nat) (u : Uninit Nat) (init tid : Nat)
    (hsum : 2 * gr + d = 2 ^ 32 + 1) (hgr : gr < 2 ^ 31) (hdg : d ≤ gr) :
    reduce_value 1 gr u (List.replicate (2 ^ 32 + 1) 1) init (· + ·) tid =
      some (init + (1 + d)) := by
  have hlen : (List.replicate (2 ^ 32 + 1) 1).length = 2 ^ 32 + 1 := List.length_replicate _ _
  have hall : ∀ (k x : Nat), (List.replicate (2 ^ 32 + 1) 1)[k]? = some x → x = 1 := by
    intro k x h
    exact List.eq_of_mem_replicate (List.getElem?_mem h)
  generalize List.replicate (2 ^ 32 + 1) 1 = a at hlen hall ⊢
  have hgr1 : 1 ≤ gr := by omega
  have hprod : 1 * gr < 2 ^ 31 := by omega
  have hones : ∀ (off p : Nat) (inp : Nat → Nat), p ≤ gr →
      (∀ i, i < gr → 1 * i + 0 < p → a[off + (1 * i + 0)]? = some (inp i)) →
      taken 1 0 p inp gr = List.replicate p 1 := by
    intro off p inp hp hv
    rw [taken_first p gr inp hp]
    apply map_range_const
    intro i hi
    exact hall _ _ (hv i (by omega) (by omega))
  have hp1 : (partition_size32 1 gr a.length 0).toNat = 1 := by
    unfold partition_size32
    rw [elements_per_group32_eq 1 gr hprod, hlen]
    unfold to_int32
    omega
  have hp2 : (partition_size32 1 gr a.length (0 + 1 * gr)).toNat = 0 := by
    unfold partition_size32
    rw [elements_per_group32_eq 1 gr hprod, hlen]
    unfold to_int32
    omega
  have hp3 : (partition_size32 1 gr a.length (0 + 1 * gr + 1 * gr)).toNat = d := by
    unfold partition_size32
    rw [elements_per_group32_eq 1 gr hprod, hlen]
    unfold to_int32
    omega
  obtain ⟨inp1, r1, hv1, hview1, hc1, hf1, hs1⟩ := tile_loop_step 1 gr 0 u a (· + ·)
    (a.length - 3 + 1 + 1 + 1) 0 ⟨u.this_sum 0, false, 0, 0⟩ Nat.one_pos hgr1 hprod
    (by omega) (by simp)
  rw [hp1] at hv1 hview1 hc1
  rw [hones 0 1 inp1 hgr1 hv1] at hview1 hc1
  have hview1' : r1.view = some 1 := hview1
  have hc1' : r1.consumed = 1 := hc1
  obtain ⟨inp2, r2, hv2, hview2, hc2, hf2, hs2⟩ := tile_loop_step 1 gr 0 u a (· + ·)
    (a.length - 3 + 1 + 1) (0 + 1 * gr) r1 Nat.one_pos hgr1 hprod
    (by omega) (by rw [hf1, hc1']; simp)
  rw [hp2] at hv2 hview2 hc2
  rw [hones (0 + 1 * gr) 0 inp2 (Nat.zero_le gr) hv2, hview1'] at hview2
  rw [hones (0 + 1 * gr) 0 inp2 (Nat.zero_le gr) hv2, hc1'] at hc2
  have hview2' : r2.view = some 1 := hview2
  have hc2' : r2.consumed = 1 := hc2
  obtain ⟨inp3, r3, hv3, hview3, hc3, hf3, hs3⟩ := tile_loop_step 1 gr 0 u a (· + ·)
    (a.length - 3 + 1) (0 + 1 * gr + 1 * gr) r2 Nat.one_pos hgr1 hprod
    (by omega) (by rw [hf2, hc2']; simp)
  rw [hp3] at hv3 hview3 hc3
  rw [hones (0 + 1 * gr + 1 * gr) d inp3 hdg hv3, hview2', absorb_foldl_eq,
    foldl_add_replicate_one] at hview3
  rw [hones (0 + 1 * gr + 1 * gr) d inp3 hdg hv3, hc2', List.length_replicate] at hc3
  have hdone := tile_loop_done 1 gr 0 u a (· + ·) (a.length - 3)
    (0 + 1 * gr + 1 * gr + 1 * gr) r3 (by omega)
  have hacc : accumulate 1 gr u a (· + ·) 0 = some r3 := by
    have hfuel : a.length + 1 = a.length - 3 + 1 + 1 + 1 + 1 := by omega
    unfold accumulate
    rw [hfuel, hs1, hs2, hs3, hdone]
  have hsum3 : r3.this_sum = 1 + d := by
    unfold Regs.view at hview3
    rw [if_neg (by omega)] at hview3
    exact Option.some.inj hview3
  obtain ⟨G, hG, hs⟩ := write_sums_total 1 gr u a (· + ·) hgr1 hprod
  obtain ⟨r, hr, hb, _, _⟩ := (hs 0).1 Nat.one_pos
  rw [hacc] at hr
  cases Option.some.inj hr
  rw [hf3, if_pos rfl, hsum3] at hb
  have hl : live_count32 1 a.length = 1 := by
    rw [hlen]
    decide
  have hval := destructive_reduce_n_value 1 G (live_count32 1 a.length) init (· + ·) tid
  rw [hl, if_pos (by decide), Int.toNat_one, Nat.clog_one_right] at hval
  unfold reduce_value bulk.reduce
  rw [hG, Option.some_bind, hl, hval]
  show some (init + G.buffer 0) = some (init + (1 + d))
  rw [hb]

/-! ## The claims -/

/-- C1, as stated, fails outside the 32-bit range of `size_type`.  With four workers,
grain 2 and an input of `2^31` ones, line 87 makes the first `partition_size`
`-2^31` and line 135 hands the live count `-2^31` to `destructive_reduce_n`, which
returns `init = 0` and not the sum `2^31`; with `65536 * 65536` elements per group,
which line 68 turns into `0`, the call on `[5]` has no result. -/
theorem reduce_wraps_out_of_range :
    reduce_value 4 2 garbage (List.replicate (2 ^ 31) 1) 0 (· + ·) 0 = some 0 ∧
    (List.replicate (2 ^ 31) 1).foldl (· + ·) 0 = 2 ^ 31 ∧
    reduce_value 65536 65536 garbage [5] 0 (· + ·) 0 = none := by
  refine ⟨?_, ?_, ?_⟩
  · apply reduce_value_nonpos 4 2 garbage _ 0 _ 0 (by decide) (by decide)
    rw [List.length_replicate]
    decide
  · rw [foldl_add_replicate_one, Nat.zero_add]
  · exact (reduce_value_sizes_wrap garbage [5] 0 _ 0 (by decide) (by decide)).2.2

/-- C1, amended: for `groupsize ≥ 1`, `grainsize ≥ 1` with
`groupsize * grainsize < 2^31`, any input `a` of length `N < 2^31`, any `init`, and
an associative and commutative `binary_op`, `bulk::reduce` returns to every worker
the sequential left-to-right fold `op (… (op (op init a0) a1) …) a[N-1]`, whatever
the uninitialised storage holds. -/
theorem reduce_eq_sequential_fold (groupsize grainsize : Nat) (u : Uninit T) (a : List T)
    (init : T) (binary_op : T → T → T) (tid : Nat)
    (hg : 1 ≤ groupsize) (hgr : 1 ≤ grainsize) (_htid : tid < groupsize)
    (hN : a.length < 2 ^ 31) (hprod : groupsize * grainsize < 2 ^ 31)
    (hassoc : ∀ x y z, binary_op (binary_op x y) z = binary_op x (binary_op y z))
    (hcomm : ∀ x y, binary_op x y = binary_op y x) :
    reduce_value groupsize grainsize u a init binary_op tid = some (a.foldl binary_op init) := by
  rw [reduce_value_eq_ideal groupsize grainsize u a init binary_op tid hgr hprod hN]
  exact reduce_comm_fold groupsize grainsize u a init binary_op tid hg hgr hassoc hcomm

/-- C1, the scenario of the specification: `groupsize = 4`, `grainsize = 2`, `+`,
`init = 0` and input `1, …, 9` give `45` (here on worker 3). -/
theorem reduce_eq_sequential_fold_witness :
    reduce_value 4 2 garbage [1, 2, 3, 4, 5, 6, 7, 8, 9] 0 (· + ·) 3 = some 45 :=
  reduce_eq_sequential_fold 4 2 garbage [1, 2, 3, 4, 5, 6, 7, 8, 9] 0 (· + ·) 3
    (by decide) (by decide) (by decide) (by decide) (by decide) Nat.add_assoc Nat.add_comm

/-- C2: on an empty input, for `groupsize ≥ 1`, `grainsize ≥ 1`, any `init` and any
`binary_op`, `bulk::reduce` returns `init` to every worker, no worker has called
`binary_op`, and no scratch slot has been written (the buffer is as acquired). -/
theorem reduce_empty (groupsize grainsize : Nat) (u : Uninit T) (init : T)
    (binary_op : T → T → T) (tid : Nat)
    (_hg : 1 ≤ groupsize) (_hgr : 1 ≤ grainsize) (_htid : tid < groupsize) :
    ∃ G, reduce groupsize grainsize u [] init binary_op tid = some (init, G) ∧
      (∀ w, G.calls w = 0) ∧ G.stores = [] ∧ G.buffer = u.buffer := by
  have hlive : live_count32 groupsize ([] : List T).length ≤ 0 := by
    unfold live_count32 to_int32
    simp only [List.length_nil]
    omega
  refine ⟨⟨u.buffer, fun _ => 0, []⟩, ?_, fun _ => rfl, rfl, rfl⟩
  unfold bulk.reduce
  rw [write_sums_nil, Option.some_bind]
  exact destructive_reduce_n_nonpos groupsize _ _ init binary_op tid hlive

/-- C2, the scenario of the specification: `groupsize = 3`, `grainsize = 1`, `+`,
`init = 100` and the empty input give `100` (here on worker 2), with no call of
`+` and no store. -/
theorem reduce_empty_witness :
    ∃ G, reduce 3 1 garbage [] 100 (· + ·) 2 = some (100, G) ∧
      (∀ w, G.calls w = 0) ∧ G.stores = [] ∧ G.buffer = garbage.buffer :=
  reduce_empty 3 1 garbage 100 (· + ·) 2 (by decide) (by decide) (by decide)

/-- C3, as stated, fails for sizes outside the 32-bit range: with
`groupsize = grainsize = 65536` line 68 computes `elements_per_group = 0`, the first
tile of the input `[5]` counts as full, worker 0 reads `first[65536]` outside the
input and `first` never advances; the call returns no value. -/
theorem reduce_singleton_sizes_wrap :
    reduce_value 65536 65536 garbage [5] 100 (· - ·) 1 = none ∧
    elements_per_group32 65536 65536 = 0 :=
  ⟨(reduce_value_sizes_wrap garbage [5] 100 _ 1 (by decide) (by decide)).2.2, by decide⟩

/-- C3, amended: on a one-element input `[a0]`, for `groupsize ≥ 1`, `grainsize ≥ 1`
with `groupsize * grainsize < 2^31`, any `init` and any `binary_op` (no algebraic
law assumed), `bulk::reduce` returns exactly `binary_op init a0` to every worker,
whatever the uninitialised storage of the workers and of the scratch buffer holds. -/
theorem reduce_singleton (groupsize grainsize : Nat) (u : Uninit T) (a0 init : T)
    (binary_op : T → T → T) (tid : Nat)
    (hg : 1 ≤ groupsize) (hgr : 1 ≤ grainsize) (_htid : tid < groupsize)
    (hprod : groupsize * grainsize < 2 ^ 31) :
    reduce_value groupsize grainsize u [a0] init binary_op tid =
      some (binary_op init a0) :=
  reduce_value_singleton groupsize grainsize u a0 init binary_op tid hg hgr hprod

/-- C3 on a concrete call: three workers, grain 2, input `[5]`, `init = 100`,
truncated subtraction (neither associative nor commutative). -/
theorem reduce_singleton_witness :
    reduce_value 3 2 garbage [5] 100 (· - ·) 1 = some 95 :=
  reduce_singleton 3 2 garbage 5 100 (· - ·) 1 (by decide) (by decide) (by decide) (by decide)

/-- C4, as stated, fails outside the 32-bit range.  With four workers, grain 2 and an
input of `2^31` ones, the first tile has `partition_size = -2^31`: worker 0 loads and
folds nothing, line 124 sets its flag, and the later tiles fold into the
uninitialised `this_sum`; under the operator that keeps its left argument slot 0
receives that uninitialised content (`700` here), while the fold of the worker's
share is `1`.  With `65536 * 65536` elements per group the tile loop of worker 0
has no result. -/
theorem stored_sum_out_of_range :
    (write_sums 4 2 garbage (List.replicate (2 ^ 31) 1) (fun x _ => x)).map
        (fun G => G.buffer 0) = some 700 ∧
    fold1 (fun x _ => x) (assigned 4 0 (List.replicate (2 ^ 31) 1)) = some 1 ∧
    accumulate 65536 65536 garbage [5] (fun x _ => x) 0 = none := by
  refine ⟨?_, ?_, ?_⟩
  · obtain ⟨G, hG, hb, _⟩ := stored_uninitialised 4 2 0 garbage (List.replicate (2 ^ 31) 1)
      (by decide) (by decide) (by decide)
      (by rw [List.length_replicate]; decide) (by rw [List.length_replicate]; decide)
    rw [hG]
    exact congrArg some hb
  · exact fold1_left_assigned_replicate 4 0 (2 ^ 31) 1 (by decide) (by decide)
  · exact (reduce_value_sizes_wrap garbage [5] 0 _ 0 (by decide) (by decide)).1

/-- C4, amended: for `groupsize ≥ 1`, `grainsize ≥ 1` with
`groupsize * grainsize < 2^31`, any input `a` of length `N < 2^31`, any `binary_op`
and any worker `tid < min groupsize N`, the worker ends the tile loop with its flag
set and stores in scratch slot `tid` the left-to-right fold of `a[tid],
a[tid + groupsize], a[tid + 2 * groupsize], …` (the indices below `N` congruent to
`tid` modulo `groupsize`, in increasing order); the first of them starts the running
value and `init` takes no part. -/
theorem stored_sum_is_strided_fold (groupsize grainsize : Nat) (u : Uninit T) (a : List T)
    (binary_op : T → T → T) (tid : Nat)
    (_hg : 1 ≤ groupsize) (hgr : 1 ≤ grainsize) (htid : tid < min groupsize a.length)
    (hN : a.length < 2 ^ 31) (hprod : groupsize * grainsize < 2 ^ 31) :
    ∃ r G, accumulate groupsize grainsize u a binary_op tid = some r ∧
      write_sums groupsize grainsize u a binary_op = some G ∧
      r.this_sum_defined = true ∧ tid ∈ G.stores ∧ G.buffer tid = r.this_sum ∧
      fold1 binary_op (assigned groupsize tid a) = some (G.buffer tid) ∧
      assigned groupsize tid a =
        (List.range a.length).filterMap (fun j => a[tid + groupsize * j]?) := by
  have htg : tid < groupsize := by omega
  have htn : tid < a.length := by omega
  rw [accumulate_eq_ideal groupsize grainsize tid u a binary_op htg hgr hprod hN,
    write_sums_eq_ideal groupsize grainsize u a binary_op hgr hprod hN]
  obtain ⟨G, hG, hs⟩ := write_sums_spec groupsize grainsize u a binary_op hgr
  obtain ⟨r, hr, hb, _, hm⟩ := (hs tid).1 htg
  obtain ⟨r1, hr1, hd, _, hf, _⟩ :=
    worker_sum_spec groupsize grainsize tid u a binary_op htg hgr
  rw [hr] at hr1
  cases Option.some.inj hr1
  have hdef : r.this_sum_defined = true := by
    rw [hd]
    simp [show 0 < a.length by omega]
  rw [hdef] at hb
  refine ⟨r, G, hr, hG, hdef, hm.mpr hdef, hb, ?_, ?_⟩
  · rw [hf htn]
    exact congrArg some hb.symm
  · rw [← stream_eq_assigned groupsize tid a htg]
    unfold stream
    rw [List.range_eq_range']

/-- C4 on a concrete call: four workers, grain 2, input `1, …, 9`, truncated
subtraction; worker 0 stores `(1 - 5) - 9 = 0` and its share is `[1, 5, 9]`. -/
theorem stored_sum_is_strided_fold_witness :
    ∃ r G, accumulate 4 2 garbage [1, 2, 3, 4, 5, 6, 7, 8, 9] (· - ·) 0 = some r ∧
      write_sums 4 2 garbage [1, 2, 3, 4, 5, 6, 7, 8, 9] (· - ·) = some G ∧
      r.this_sum_defined = true ∧ 0 ∈ G.stores ∧ G.buffer 0 = r.this_sum ∧
      fold1 (· - ·) (assigned 4 0 [1, 2, 3, 4, 5, 6, 7, 8, 9]) = some (G.buffer 0) ∧
      assigned 4 0 [1, 2, 3, 4, 5, 6, 7, 8, 9] =
        (List.range [1, 2, 3, 4, 5, 6, 7, 8, 9].length).filterMap
          (fun j => [1, 2, 3, 4, 5, 6, 7, 8, 9][0 + 4 * j]?) :=
  stored_sum_is_strided_fold 4 2 garbage [1, 2, 3, 4, 5, 6, 7, 8, 9] (· - ·) 0
    (by decide) (by decide) (by decide) (by decide) (by decide)

/-- C5, as stated, fails for sizes outside the 32-bit range: three integers summed
by a group of `65536` workers with grain `65536` (so `N < groupsize`) give no
result, because line 68 computes `elements_per_group = 0`. -/
theorem small_input_sizes_wrap :
    ([5, -3, 10] : List Int).length < 65536 ∧
    reduce_value 65536 65536 garbage_ints [5, -3, 10] 100 (· + ·) 4 = none :=
  ⟨by decide, (reduce_value_sizes_wrap garbage_ints [5, -3, 10] 100 _ 4 (by decide)
    (by decide)).2.2⟩

/-- C5, amended: for a live count `1 ≤ m ≤ groupsize` (odd or not, a power of two or
not) and an associative, commutative `binary_op`, the loop of `destructive_reduce_n`
ends with live count 1 and leaves in slot 0 the combination of the `m` original
slots `0, …, m-1`, each taken exactly once; hence with integer addition,
`N < groupsize` and `groupsize * grainsize < 2^31`, `bulk::reduce` returns `init`
plus the sum of the inputs. -/
theorem tree_accounts_for_every_slot :
    (∀ (S : Type) (groupsize m : Nat) (binary_op : S → S → S) (G : Group S),
      1 ≤ m → m ≤ groupsize →
      (∀ x y z, binary_op (binary_op x y) z = binary_op x (binary_op y z)) →
      (∀ x y, binary_op x y = binary_op y x) →
      ∃ rounds G1, tree_loop groupsize binary_op (m + 1) m 0 G = some (1, rounds, G1) ∧
        some (G1.buffer 0) = fold1 binary_op (live G.buffer m)) ∧
    (∀ (groupsize grainsize : Nat) (u : Uninit Int) (a : List Int) (init : Int) (tid : Nat),
      1 ≤ groupsize → 1 ≤ grainsize → tid < groupsize → a.length < groupsize →
      groupsize * grainsize < 2 ^ 31 →
      reduce_value groupsize grainsize u a init (· + ·) tid = some (init + a.sum)) := by
  constructor
  · intro S groupsize m binary_op G hm1 hmg hassoc hcomm
    obtain ⟨k1, G1, he, hfold⟩ := tree_loop_fold groupsize binary_op hassoc hcomm (m + 1) m 0 G
      (by omega) (by omega) hmg hm1
    exact ⟨k1, G1, he, hfold none⟩
  · intro groupsize grainsize u a init tid hg hgr _ hlt hprod
    have hle : groupsize ≤ groupsize * grainsize := Nat.le_mul_of_pos_right groupsize hgr
    rw [reduce_value_eq_ideal groupsize grainsize u a init (· + ·) tid hgr hprod (by omega),
      reduce_comm_fold groupsize grainsize u a init (· + ·) tid hg hgr
        Int.add_assoc Int.add_comm, foldl_add_eq_sum]

/-- C5 on concrete data: live count 5 among 7 workers, slots `10, 20, 30, 40, 50`
under `+`; and three integers summed by a group of 7 with grain 2. -/
theorem tree_accounts_for_every_slot_witness :
    (∃ rounds G1, tree_loop 7 (· + ·) (5 + 1) 5 0
        (⟨fun i => 10 * (i + 1), fun _ => 0, []⟩ : Group Nat) = some (1, rounds, G1) ∧
      some (G1.buffer 0) = fold1 (· + ·)
        (live (⟨fun i => 10 * (i + 1), fun _ => 0, []⟩ : Group Nat).buffer 5)) ∧
    reduce_value 7 2 garbage_ints [5, -3, 10] 100 (· + ·) 4 =
      some (100 + [5, -3, 10].sum) :=
  ⟨tree_accounts_for_every_slot.1 Nat 7 5 (· + ·) ⟨fun i => 10 * (i + 1), fun _ => 0, []⟩
      (by decide) (by decide) Nat.add_assoc Nat.add_comm,
    tree_accounts_for_every_slot.2 7 2 garbage_ints [5, -3, 10] 100 4
      (by decide) (by decide) (by decide) (by decide) (by decide)⟩

/-- C6, as stated, fails for sizes outside the 32-bit range: with
`groupsize = grainsize = 65536` the call on `[9, 4, 7]` returns no value to worker 0
nor to worker 2, because line 68 computes `elements_per_group = 0`. -/
theorem no_value_when_sizes_wrap :
    reduce_value 65536 65536 garbage [9, 4, 7] 50 (· - ·) 0 = none ∧
    reduce_value 65536 65536 garbage [9, 4, 7] 50 (· - ·) 2 = none ∧
    ¬ ∃ v, reduce_value 65536 65536 garbage [9, 4, 7] 50 (· - ·) 0 = some v ∧
      reduce_value 65536 65536 garbage [9, 4, 7] 50 (· - ·) 2 = some v := by
  have h0 := (reduce_value_sizes_wrap garbage [9, 4, 7] 50 (· - ·) 0 (by decide)
    (by decide)).2.2
  have h2 := (reduce_value_sizes_wrap garbage [9, 4, 7] 50 (· - ·) 2 (by decide)
    (by decide)).2.2
  refine ⟨h0, h2, ?_⟩
  rintro ⟨v, hv, _⟩
  rw [h0] at hv
  cases hv

/-- C6, amended: for `groupsize ≥ 1`, `grainsize ≥ 1` with
`groupsize * grainsize < 2^31`, any input (of any length), `init` and `binary_op`,
the call returns, and any two workers `t1, t2 < groupsize` are returned the same
value: each of them leaves the loop of `destructive_reduce_n` after the same number
of barriers and reads on line 46 slot 0 of the same state of the scratch buffer. -/
theorem reduce_same_value_on_every_worker (groupsize grainsize : Nat) (u : Uninit T)
    (a : List T) (init : T) (binary_op : T → T → T) (t1 t2 : Nat)
    (_hg : 1 ≤ groupsize) (hgr : 1 ≤ grainsize) (_h1 : t1 < groupsize) (_h2 : t2 < groupsize)
    (hprod : groupsize * grainsize < 2 ^ 31) :
    ∃ v, reduce_value groupsize grainsize u a init binary_op t1 = some v ∧
      reduce_value groupsize grainsize u a init binary_op t2 = some v ∧
      ∃ G, write_sums groupsize grainsize u a binary_op = some G ∧
        returned_to groupsize G (live_count32 groupsize a.length) init binary_op t1 = some v ∧
        returned_to groupsize G (live_count32 groupsize a.length) init binary_op t2 = some v ∧
        (∃ ev1 ev2, tree_events t1 ((live_count32 groupsize a.length).toNat + 1)
              (live_count32 groupsize a.length).toNat = some ev1 ∧
            tree_events t2 ((live_count32 groupsize a.length).toNat + 1)
              (live_count32 groupsize a.length).toNat = some ev2 ∧
            ev1.count Access.wait = ev2.count Access.wait) := by
  obtain ⟨G, hG, _⟩ := write_sums_total groupsize grainsize u a binary_op hgr hprod
  have hv := destructive_reduce_n_value groupsize G (live_count32 groupsize a.length) init
    binary_op
  have hr : ∀ t, reduce_value groupsize grainsize u a init binary_op t =
      (destructive_reduce_n groupsize G (live_count32 groupsize a.length) init
        binary_op t).map Prod.fst := by
    intro t
    unfold reduce_value bulk.reduce
    rw [hG, Option.some_bind]
  obtain ⟨ev1, he1, hc1, _, _⟩ := tree_events_spec t1
    ((live_count32 groupsize a.length).toNat + 1) (live_count32 groupsize a.length).toNat
    (Nat.lt_succ_of_le (clog_le_self _))
  obtain ⟨ev2, he2, hc2, _, _⟩ := tree_events_spec t2
    ((live_count32 groupsize a.length).toNat + 1) (live_count32 groupsize a.length).toNat
    (Nat.lt_succ_of_le (clog_le_self _))
  exact ⟨_, (hr t1).trans (hv t1), (hr t2).trans (hv t2), G, hG,
    (returned_to_eq groupsize G _ init binary_op t1).trans (hv t1),
    (returned_to_eq groupsize G _ init binary_op t2).trans (hv t2),
    ev1, ev2, he1, he2, hc1.trans hc2.symm⟩

/-- C6 on a concrete call: workers 0 and 2 of a group of 3, truncated subtraction. -/
theorem reduce_same_value_on_every_worker_witness :
    ∃ v, reduce_value 3 2 garbage [9, 4, 7, 1, 8] 50 (· - ·) 0 = some v ∧
      reduce_value 3 2 garbage [9, 4, 7, 1, 8] 50 (· - ·) 2 = some v ∧
      ∃ G, write_sums 3 2 garbage [9, 4, 7, 1, 8] (· - ·) = some G ∧
        returned_to 3 G (live_count32 3 [9, 4, 7, 1, 8].length) 50 (· - ·) 0 = some v ∧
        returned_to 3 G (live_count32 3 [9, 4, 7, 1, 8].length) 50 (· - ·) 2 = some v ∧
        (∃ ev1 ev2, tree_events 0 ((live_count32 3 [9, 4, 7, 1, 8].length).toNat + 1)
              (live_count32 3 [9, 4, 7, 1, 8].length).toNat = some ev1 ∧
            tree_events 2 ((live_count32 3 [9, 4, 7, 1, 8].length).toNat + 1)
              (live_count32 3 [9, 4, 7, 1, 8].length).toNat = some ev2 ∧
            ev1.count Access.wait = ev2.count Access.wait) :=
  reduce_same_value_on_every_worker 3 2 garbage [9, 4, 7, 1, 8] 50 (· - ·) 0 2
    (by decide) (by decide) (by decide) (by decide) (by decide)

/-- C7, as stated, fails in three ways.  For `k = 0` (two workers, grain 1, input
`[7]`) worker 1 folds nothing, yet its flag goes from unset on the first `N - 1 = 0`
elements to set, and it now writes its uninitialised `this_sum` (`701`) into slot 1,
which held `901`.  Outside the 32-bit range (`N = 2^31 + 1`, two workers, grain 1,
`k = 2^30`) the call returns `init = 0` on the first `N - 1` elements and on all `N`,
not `0 + 1`.  With `65536 * 65536` elements per group the tile loop of worker 0 has
no result. -/
theorem boundary_tile_fails :
    ((accumulate 2 1 garbage [] (· + ·) 1).map (fun r => r.this_sum_defined) = some false ∧
      (accumulate 2 1 garbage ([] ++ [7]) (· + ·) 1).map
        (fun r => (r.this_sum_defined, r.consumed)) = some (true, 0) ∧
      (write_sums 2 1 garbage [] (· + ·)).map (fun G => (G.stores, G.buffer 1)) =
        some ([], 901) ∧
      (write_sums 2 1 garbage ([] ++ [7]) (· + ·)).map (fun G => (G.stores, G.buffer 1)) =
        some ([1, 0], 701)) ∧
    ((List.replicate (2 ^ 31) 1).length = 2 ^ 30 * 2 * 1 ∧
      reduce_value 2 1 garbage (List.replicate (2 ^ 31) 1) 0 (· + ·) 0 = some 0 ∧
      reduce_value 2 1 garbage (List.replicate (2 ^ 31) 1 ++ [1]) 0 (· + ·) 0 = some 0) ∧
    accumulate 65536 65536 garbage ([] ++ [7]) (· + ·) 0 = none := by
  refine ⟨⟨by decide, by decide, by decide, by decide⟩, ⟨?_, ?_, ?_⟩, ?_⟩
  · rw [List.length_replicate]
    decide
  · apply reduce_value_nonpos 2 1 garbage _ 0 _ 0 (by decide) (by decide)
    rw [List.length_replicate]
    decide
  · apply reduce_value_nonpos 2 1 garbage _ 0 _ 0 (by decide) (by decide)
    rw [List.length_append, List.length_replicate, List.length_singleton]
    decide
  · exact (reduce_value_sizes_wrap garbage ([] ++ [7]) 0 (· + ·) 0 (by decide)
      (by decide)).1

/-- C7, amended: when `N = k * groupsize * grainsize + 1 < 2^31` and
`groupsize * grainsize < 2^31` (input `b ++ [x]` with `b` made of `k` full tiles),
the extra element `x` is folded exactly once: last into worker 0's running value
(`x` itself when `k = 0`, `binary_op P0 x` otherwise, `P0` being its value on `b`);
every other worker ends with the same running value and the same number of folded
elements as on `b`, and for `k ≥ 1` also with the same flag, the same content of its
scratch slot and the same store or absence of store; for an associative,
commutative `binary_op` the result is `binary_op (result on b) x`. -/
theorem boundary_tile (groupsize grainsize k : Nat) (u : Uninit T) (b : List T) (x init : T)
    (binary_op : T → T → T) (tid : Nat)
    (hg : 1 ≤ groupsize) (hgr : 1 ≤ grainsize) (_htid : tid < groupsize)
    (hlen : b.length = k * groupsize * grainsize)
    (hN : b.length + 1 < 2 ^ 31) (hprod : groupsize * grainsize < 2 ^ 31) :
    (∃ r0 r1, accumulate groupsize grainsize u b binary_op 0 = some r0 ∧
      accumulate groupsize grainsize u (b ++ [x]) binary_op 0 = some r1 ∧
      r1.view = absorb binary_op r0.view x ∧ r1.consumed = r0.consumed + 1 ∧
      (k = 0 → r1.this_sum = x) ∧ (1 ≤ k → r1.this_sum = binary_op r0.this_sum x)) ∧
    (∀ t, 1 ≤ t → t < groupsize →
      ∃ r r1, accumulate groupsize grainsize u b binary_op t = some r ∧
        accumulate groupsize grainsize u (b ++ [x]) binary_op t = some r1 ∧
        r1.view = r.view ∧ r1.this_sum = r.this_sum ∧ r1.consumed = r.consumed ∧
        (1 ≤ k → r1.this_sum_defined = r.this_sum_defined)) ∧
    (1 ≤ k → ∃ G G1, write_sums groupsize grainsize u b binary_op = some G ∧
      write_sums groupsize grainsize u (b ++ [x]) binary_op = some G1 ∧
      ∀ t, 1 ≤ t → G1.buffer t = G.buffer t ∧ (t ∈ G1.stores ↔ t ∈ G.stores)) ∧
    ((∀ p q s, binary_op (binary_op p q) s = binary_op p (binary_op q s)) →
      (∀ p q, binary_op p q = binary_op q p) →
      ∃ v, reduce_value groupsize grainsize u b init binary_op tid = some v ∧
        reduce_value groupsize grainsize u (b ++ [x]) init binary_op tid =
          some (binary_op v x)) := by
  have hNb : b.length < 2 ^ 31 := by omega
  have hNx : (b ++ [x]).length < 2 ^ 31 := by
    rw [List.length_append, List.length_singleton]
    exact hN
  have e0 : ∀ t, t < groupsize → accumulate groupsize grainsize u b binary_op t =
      accumulate_ideal groupsize grainsize u b binary_op t :=
    fun t ht => accumulate_eq_ideal groupsize grainsize t u b binary_op ht hgr hprod hNb
  have e1 : ∀ t, t < groupsize → accumulate groupsize grainsize u (b ++ [x]) binary_op t =
      accumulate_ideal groupsize grainsize u (b ++ [x]) binary_op t :=
    fun t ht => accumulate_eq_ideal groupsize grainsize t u (b ++ [x]) binary_op ht hgr hprod hNx
  have hmod : b.length % groupsize = 0 := by
    rw [hlen, Nat.mul_comm k groupsize, Nat.mul_assoc]
    exact Nat.mul_mod_right groupsize (k * grainsize)
  have hposb : 1 ≤ k → 0 < b.length := by
    intro hk
    rw [hlen]
    exact Nat.mul_pos (Nat.mul_pos hk hg) hgr
  have hother : ∀ t, 1 ≤ t → t < groupsize →
      ∃ r r1, accumulate_ideal groupsize grainsize u b binary_op t = some r ∧
        accumulate_ideal groupsize grainsize u (b ++ [x]) binary_op t = some r1 ∧
        r1.view = r.view ∧ r1.this_sum = r.this_sum ∧ r1.consumed = r.consumed ∧
        (1 ≤ k → r1.this_sum_defined = r.this_sum_defined) := by
    intro t ht1 htg
    obtain ⟨r, h0, hv0, hj0, hc0, hd0⟩ :=
      accumulate_spec groupsize grainsize t u b binary_op htg hgr
    obtain ⟨r1, h1, hv1, hj1, hc1, hd1⟩ :=
      accumulate_spec groupsize grainsize t u (b ++ [x]) binary_op htg hgr
    have hA : assigned groupsize t (b ++ [x]) = assigned groupsize t b := by
      rw [assigned_append, if_neg (by omega), List.append_nil]
    have hview : r1.view = r.view := by rw [hv1, hv0, hA]
    have hcons : r1.consumed = r.consumed := by rw [hc1, hc0, hA]
    refine ⟨r, r1, h0, h1, hview, ?_, hcons, ?_⟩
    · apply this_sum_of_view r1 r hview
      intro hz
      rw [hj1 hz, hj0 (by omega)]
    · intro hk
      have hp := hposb hk
      rw [hd1, hd0, List.length_append, List.length_singleton]
      simp [hp]
  refine ⟨?_, ?_, ?_, ?_⟩
  · rw [e0 0 (by omega), e1 0 (by omega)]
    obtain ⟨r0, h0, hv0, _, hc0, _⟩ :=
      accumulate_spec groupsize grainsize 0 u b binary_op (by omega) hgr
    obtain ⟨r1, h1, hv1, _, hc1, _⟩ :=
      accumulate_spec groupsize grainsize 0 u (b ++ [x]) binary_op (by omega) hgr
    have hA : assigned groupsize 0 (b ++ [x]) = assigned groupsize 0 b ++ [x] := by
      rw [assigned_append, if_pos hmod]
    have hview : r1.view = absorb binary_op r0.view x := by
      rw [hv1, hv0, hA]
      unfold fold1
      rw [List.foldl_append]
      rfl
    have hcons : r1.consumed = r0.consumed + 1 := by
      rw [hc1, hc0, hA, List.length_append]
      rfl
    have hsome : r1.view = some r1.this_sum := by
      unfold Regs.view
      rw [if_neg (by omega)]
    refine ⟨r0, r1, h0, h1, hview, hcons, ?_, ?_⟩
    · intro hk
      have hb : b = [] := by
        apply List.length_eq_zero.mp
        rw [hlen, hk]
        simp
      have hr0 : r0.view = none := by
        rw [hv0, hb]
        rfl
      rw [hsome, hr0] at hview
      exact Option.some.inj hview
    · intro hk
      have hpos := hposb hk
      have hlenA := assigned_length_pos groupsize 0 b (by omega) hpos
      have hr0 : r0.view = some r0.this_sum := by
        unfold Regs.view
        rw [if_neg (by omega)]
      rw [hsome, hr0] at hview
      exact Option.some.inj hview
  · intro t ht1 htg
    rw [e0 t htg, e1 t htg]
    exact hother t ht1 htg
  · intro hk
    rw [write_sums_eq_ideal groupsize grainsize u b binary_op hgr hprod hNb,
      write_sums_eq_ideal groupsize grainsize u (b ++ [x]) binary_op hgr hprod hNx]
    obtain ⟨G, hG, hs⟩ := write_sums_spec groupsize grainsize u b binary_op hgr
    obtain ⟨G1, hG1, hs1⟩ := write_sums_spec groupsize grainsize u (b ++ [x]) binary_op hgr
    refine ⟨G, G1, hG, hG1, ?_⟩
    intro t ht1
    by_cases htg : t < groupsize
    · obtain ⟨r, hr, hb, _, hm⟩ := (hs t).1 htg
      obtain ⟨r1, hr1, hb1, _, hm1⟩ := (hs1 t).1 htg
      obtain ⟨r', r1', hr', hr1', _, hsum, _, hflag⟩ := hother t ht1 htg
      rw [hr] at hr'
      cases Option.some.inj hr'
      rw [hr1] at hr1'
      cases Option.some.inj hr1'
      constructor
      · rw [hb1, hb, hflag hk, hsum]
      · rw [hm1, hm, hflag hk]
    · obtain ⟨hb, _, hm⟩ := (hs t).2 (by omega)
      obtain ⟨hb1, _, hm1⟩ := (hs1 t).2 (by omega)
      constructor
      · rw [hb1, hb]
      · exact ⟨fun h => absurd h hm1, fun h => absurd h hm⟩
  · intro hassoc hcomm
    rw [reduce_value_eq_ideal groupsize grainsize u b init binary_op tid hgr hprod hNb,
      reduce_value_eq_ideal groupsize grainsize u (b ++ [x]) init binary_op tid hgr hprod hNx]
    refine ⟨b.foldl binary_op init,
      reduce_comm_fold groupsize grainsize u b init binary_op tid hg hgr hassoc hcomm, ?_⟩
    rw [reduce_comm_fold groupsize grainsize u (b ++ [x]) init binary_op tid hg hgr hassoc hcomm,
      List.foldl_append]
    rfl

/-- C7 on a concrete call: two workers, grain 2, one full tile `[1, 2, 3, 4]` and the
extra element `5`, under `+`; the other worker is worker 1. -/
theorem boundary_tile_witness :
    (∃ r0 r1, accumulate 2 2 garbage [1, 2, 3, 4] (· + ·) 0 = some r0 ∧
      accumulate 2 2 garbage ([1, 2, 3, 4] ++ [5]) (· + ·) 0 = some r1 ∧
      r1.view = absorb (· + ·) r0.view 5 ∧ r1.consumed = r0.consumed + 1 ∧
      r1.this_sum = r0.this_sum + 5) ∧
    (∃ r r1, accumulate 2 2 garbage [1, 2, 3, 4] (· + ·) 1 = some r ∧
      accumulate 2 2 garbage ([1, 2, 3, 4] ++ [5]) (· + ·) 1 = some r1 ∧
      r1.view = r.view ∧ r1.this_sum = r.this_sum ∧ r1.consumed = r.consumed ∧
      r1.this_sum_defined = r.this_sum_defined) ∧
    (∃ G G1, write_sums 2 2 garbage [1, 2, 3, 4] (· + ·) = some G ∧
      write_sums 2 2 garbage ([1, 2, 3, 4] ++ [5]) (· + ·) = some G1 ∧
      G1.buffer 1 = G.buffer 1 ∧ (1 ∈ G1.stores ↔ 1 ∈ G.stores)) ∧
    (∃ v, reduce_value 2 2 garbage [1, 2, 3, 4] 0 (· + ·) 1 = some v ∧
      reduce_value 2 2 garbage ([1, 2, 3, 4] ++ [5]) 0 (· + ·) 1 = some (v + 5)) := by
  have h := boundary_tile 2 2 1 garbage [1, 2, 3, 4] 5 0 (· + ·) 1
    (by decide) (by decide) (by decide) (by decide) (by decide) (by decide)
  obtain ⟨⟨r0, r1, h0, h1, hv, hc, _, hk⟩, hothers, hstores, hres⟩ := h
  obtain ⟨r, r', hr, hr', hview, hsum, hcons, hflag⟩ := hothers 1 (by decide) (by decide)
  obtain ⟨G, G1, hG, hG1, hslot⟩ := hstores (by decide)
  exact ⟨⟨r0, r1, h0, h1, hv, hc, hk (by decide)⟩,
    ⟨r, r', hr, hr', hview, hsum, hcons, hflag (by decide)⟩,
    ⟨G, G1, hG, hG1, (hslot 1 (by decide)).1, (hslot 1 (by decide)).2⟩,
    hres Nat.add_assoc Nat.add_comm⟩

/-- C8, as stated, fails outside the 32-bit range.  With four workers, grain 2,
integer addition, `init = e = 0` and an input of `2^31` ones, line 135 hands the live
count `-2^31` to `destructive_reduce_n`, whose line 46 returns `e = 0` for this
non-empty input, not the fold `2^31` of the inputs; with `65536 * 65536` elements
per group the call has no result. -/
theorem identity_out_of_range :
    reduce_value 4 2 garbage_ints (List.replicate (2 ^ 31) 1) 0 (· + ·) 2 = some 0 ∧
    (List.replicate (2 ^ 31) (1 : Int)).foldl (· + ·) 0 = 2 ^ 31 ∧
    reduce_value 65536 65536 garbage_ints [3, 9] 0 (· + ·) 2 = none := by
  refine ⟨?_, ?_, ?_⟩
  · apply reduce_value_nonpos 4 2 garbage_ints _ 0 _ 2 (by decide) (by decide)
    rw [List.length_replicate]
    decide
  · rw [foldl_add_eq_sum, List.sum_replicate]
    norm_num
  · exact (reduce_value_sizes_wrap garbage_ints [3, 9] 0 _ 2 (by decide) (by decide)).2.2

/-- C8, amended: if `e` is a left identity of `binary_op` and `init = e`, then for
`groupsize ≥ 1`, `grainsize ≥ 1` with `groupsize * grainsize < 2^31` and any input
of length `N < 2^31`, `bulk::reduce` returns, for a non-empty input, the value that
the tree reduction of the workers' stored sums leaves in scratch slot 0 (`init` is
combined once, as the left operand of the last call, and changes nothing), and `e`
for the empty input; when `binary_op` is also associative and commutative that slot
holds the fold of the inputs alone. -/
theorem reduce_with_identity (groupsize grainsize : Nat) (u : Uninit T) (a : List T) (e : T)
    (binary_op : T → T → T) (tid : Nat)
    (hg : 1 ≤ groupsize) (hgr : 1 ≤ grainsize) (_htid : tid < groupsize)
    (hN : a.length < 2 ^ 31) (hprod : groupsize * grainsize < 2 ^ 31)
    (hid : ∀ x, binary_op e x = x) :
    ∃ G m1 rounds G1, write_sums groupsize grainsize u a binary_op = some G ∧
      tree_loop groupsize binary_op (min groupsize a.length + 1) (min groupsize a.length) 0 G =
        some (m1, rounds, G1) ∧
      (a ≠ [] → reduce_value groupsize grainsize u a e binary_op tid = some (G1.buffer 0)) ∧
      (a = [] → reduce_value groupsize grainsize u a e binary_op tid = some e) ∧
      ((∀ p q s, binary_op (binary_op p q) s = binary_op p (binary_op q s)) →
        (∀ p q, binary_op p q = binary_op q p) → a ≠ [] →
        fold1 binary_op a = some (G1.buffer 0)) := by
  rw [write_sums_eq_ideal groupsize grainsize u a binary_op hgr hprod hN,
    reduce_value_eq_ideal groupsize grainsize u a e binary_op tid hgr hprod hN]
  obtain ⟨G, m1, k1, G1, hG, he, _, hred⟩ :=
    reduce_unfold groupsize grainsize u a e binary_op tid hgr
  have hpos : a ≠ [] → 0 < min groupsize a.length := by
    intro ha
    have := List.length_pos.mpr ha
    omega
  refine ⟨G, m1, k1, G1, hG, he, ?_, ?_, ?_⟩
  · intro ha
    unfold reduce_value_ideal
    rw [hred, if_pos (hpos ha)]
    simp only [Option.map_some']
    rw [hid]
  · intro ha
    unfold reduce_value_ideal
    rw [hred, ha]
    simp
  · intro hassoc hcomm ha
    obtain ⟨G', k2, G2, hG', he2, hfold⟩ :=
      slot0_fold groupsize grainsize u a binary_op hg hgr hassoc hcomm (hpos ha)
    rw [hG] at hG'
    cases Option.some.inj hG'
    rw [he] at he2
    cases Option.some.inj he2
    exact (hfold none).symm

/-- C8 on a concrete call: `max` on the naturals with identity `0`, four workers,
grain 1, input `3, 9, 4, 1, 5`. -/
theorem reduce_with_identity_witness :
    ∃ G m1 rounds G1, write_sums 4 1 garbage [3, 9, 4, 1, 5] max = some G ∧
      tree_loop 4 max (min 4 [3, 9, 4, 1, 5].length + 1) (min 4 [3, 9, 4, 1, 5].length) 0 G =
        some (m1, rounds, G1) ∧
      reduce_value 4 1 garbage [3, 9, 4, 1, 5] 0 max 2 = some (G1.buffer 0) ∧
      fold1 max [3, 9, 4, 1, 5] = some (G1.buffer 0) := by
  obtain ⟨G, m1, rounds, G1, hG, he, hne, _, hfold⟩ :=
    reduce_with_identity 4 1 garbage [3, 9, 4, 1, 5] 0 max 2
      (by decide) (by decide) (by decide) (by decide) (by decide) (fun x => Nat.zero_max x)
  exact ⟨G, m1, rounds, G1, hG, he, hne (by decide),
    hfold (fun p q s => Nat.max_assoc p q s) (fun p q => Nat.max_comm p q) (by decide)⟩

/-- C9: the tree combines in divide-and-conquer order: with four workers and grain 1
the input `[a, b, c, d]` gives `op init (op (op a d) (op b c))` for every `op`; and
for list concatenation, which is associative and not commutative, the result on
`[[1], [2], [3], [4]]` differs from the sequential left-to-right fold. -/
theorem reduce_is_divide_and_conquer :
    (∀ (S : Type) (op : S → S → S) (init a b c d : S) (u : Uninit S) (tid : Nat),
      tid < 4 →
      reduce_value 4 1 u [a, b, c, d] init op tid =
        some (op init (op (op a d) (op b c)))) ∧
    ((∀ x y z : List Nat, (x ++ y) ++ z = x ++ (y ++ z)) ∧
      (¬ ∀ x y : List Nat, x ++ y = y ++ x) ∧
      reduce_value 4 1 garbage_lists [[1], [2], [3], [4]] [] (· ++ ·) 0 = some [1, 4, 2, 3] ∧
      reduce_value 4 1 garbage_lists [[1], [2], [3], [4]] [] (· ++ ·) 0 ≠
        some ([[1], [2], [3], [4]].foldl (· ++ ·) [])) := by
  refine ⟨?_, List.append_assoc, ?_, ?_, ?_⟩
  · intro S op init a b c d u tid _
    have hN : [a, b, c, d].length < 2 ^ 31 := by
      show 4 < 2 ^ 31
      decide
    rw [reduce_value_eq_ideal 4 1 u [a, b, c, d] init op tid (by decide) (by decide) hN]
    have hlive : min 4 [a, b, c, d].length = 4 := rfl
    unfold reduce_value_ideal reduce_ideal
    rw [hlive]
    rfl
  · intro h
    exact absurd (h [1] [2]) (by decide)
  · decide
  · decide

/-- C9 at a concrete operator: truncated subtraction on worker 3. -/
theorem reduce_is_divide_and_conquer_witness :
    reduce_value 4 1 garbage [50, 8, 3, 20] 100 (· - ·) 3 =
      some (100 - ((50 - 20) - (8 - 3))) :=
  reduce_is_divide_and_conquer.1 Nat (· - ·) 100 50 8 3 20 garbage 3 (by decide)

/-- C10, what the code does.  At `groupsize = 2`, `grainsize = 1`, input `[7]`,
worker 1 folds no element (`consumed = 0`, `this_sum` still holds its uninitialised
content), yet leaves the tile loop with `this_sum_defined = true` and stores that
content into scratch slot 1.  In general, in the 32-bit range, the flag of a worker
`tid < groupsize` is set, and its slot written, exactly when the input is non-empty,
while the worker folded an element exactly when `tid < N`. -/
theorem flag_set_without_element :
    ((accumulate 2 1 garbage [7] (· + ·) 1).map
        (fun r => (r.this_sum_defined, r.consumed, r.this_sum)) =
      some (true, 0, garbage.this_sum 1) ∧
    (write_sums 2 1 garbage [7] (· + ·)).map (fun G => (G.stores, G.buffer 1)) =
      some ([1, 0], garbage.this_sum 1)) ∧
    (∀ (S : Type) (groupsize grainsize : Nat) (u : Uninit S) (a : List S)
      (binary_op : S → S → S) (tid : Nat), tid < groupsize → 1 ≤ grainsize →
      groupsize * grainsize < 2 ^ 31 → a.length < 2 ^ 31 →
      ∃ r G, accumulate groupsize grainsize u a binary_op tid = some r ∧
        write_sums groupsize grainsize u a binary_op = some G ∧
        (r.this_sum_defined = true ↔ 0 < a.length) ∧
        (1 ≤ r.consumed ↔ tid < a.length) ∧
        (tid ∈ G.stores ↔ 0 < a.length) ∧
        (a.length ≤ tid → r.this_sum = u.this_sum tid)) := by
  refine ⟨⟨by decide, by decide⟩, ?_⟩
  intro S groupsize grainsize u a binary_op tid htid hgr hprod hN
  rw [accumulate_eq_ideal groupsize grainsize tid u a binary_op htid hgr hprod hN,
    write_sums_eq_ideal groupsize grainsize u a binary_op hgr hprod hN]
  obtain ⟨G, hG, hs⟩ := write_sums_spec groupsize grainsize u a binary_op hgr
  obtain ⟨r, hr, _, _, hm⟩ := (hs tid).1 htid
  obtain ⟨r1, hr1, hd, hc, _, hj⟩ :=
    worker_sum_spec groupsize grainsize tid u a binary_op htid hgr
  rw [hr] at hr1
  cases Option.some.inj hr1
  have hflag : r.this_sum_defined = true ↔ 0 < a.length := by
    rw [hd]
    simp
  refine ⟨r, G, hr, hG, hflag, ?_, hm.trans hflag, fun h => (hj h).1⟩
  constructor
  · intro h1
    by_contra hge
    have := (hj (by omega)).2
    omega
  · intro hlt
    rw [hc]
    exact assigned_length_pos groupsize tid a htid hlt

/-! ## The tree loop: invariant, pairing, termination -/

/-- C11, as stated, fails: list concatenation is associative; with live count 3 and
slots `[1], [2], [3]` one round leaves the live slots `[1, 3], [2]`, whose
left-to-right fold `[1, 3, 2]` is not the fold `[1, 2, 3]` of the original slots. -/
theorem round_changes_fold_of_concatenation :
    (∀ x y z : List Nat, (x ++ y) ++ z = x ++ (y ++ z)) ∧
    fold1 (· ++ ·) (live (⟨fun i => [i + 1], fun _ => 0, []⟩ : Group (List Nat)).buffer 3) =
      some [1, 2, 3] ∧
    fold1 (· ++ ·) (live (tree_round 3 (· ++ ·) 3
      (⟨fun i => [i + 1], fun _ => 0, []⟩ : Group (List Nat))).buffer (3 - 3 >>> 1)) =
      some [1, 3, 2] ∧
    fold1 (· ++ ·) (live (tree_round 3 (· ++ ·) 3
      (⟨fun i => [i + 1], fun _ => 0, []⟩ : Group (List Nat))).buffer (3 - 3 >>> 1)) ≠
    fold1 (· ++ ·) (live (⟨fun i => [i + 1], fun _ => 0, []⟩ : Group (List Nat)).buffer 3) := by
  refine ⟨List.append_assoc, ?_, ?_, ?_⟩ <;> decide

/-- C11, amended: for an associative and commutative `binary_op`, a live count
`m ≤ groupsize` and any contents of the scratch slots, one round of the tree
(`half = m >> 1`; `slot[i] = op slot[i] slot[m-i-1]` for `i < half`; `m -= half`)
preserves the left-to-right fold of the live slots; so after any number of rounds
that fold is the fold of the original slots, and the loop exits in such a state. -/
theorem round_preserves_fold (groupsize m : Nat) (binary_op : T → T → T) (G : Group T)
    (hm : m ≤ groupsize)
    (hassoc : ∀ x y z, binary_op (binary_op x y) z = binary_op x (binary_op y z))
    (hcomm : ∀ x y, binary_op x y = binary_op y x) :
    fold1 binary_op (live (tree_round groupsize binary_op m G).buffer (m - m >>> 1)) =
      fold1 binary_op (live G.buffer m) ∧
    (∀ j, fold1 binary_op (live (tree_after groupsize binary_op j m G).2.buffer
        (tree_after groupsize binary_op j m G).1) = fold1 binary_op (live G.buffer m)) ∧
    (∃ rounds, tree_loop groupsize binary_op (m + 1) m 0 G =
      some ((tree_after groupsize binary_op (m + 1) m G).1, rounds,
        (tree_after groupsize binary_op (m + 1) m G).2)) := by
  refine ⟨?_, ?_, ?_⟩
  · have := tree_round_live groupsize binary_op hassoc hcomm m G hm none
    rw [Nat.shiftRight_eq_div_pow, pow_one]
    exact this
  · intro j
    exact (tree_after_fold groupsize binary_op hassoc hcomm j m G hm).2 none
  · exact tree_loop_eq_after groupsize binary_op (m + 1) m 0 G (by omega) (by omega)

/-- C11, amended, on concrete data: live count 5 among 6 workers, slots
`10, 20, 30, 40, 50` under `+`. -/
theorem round_preserves_fold_witness :
    fold1 (· + ·) (live (tree_round 6 (· + ·) 5
      (⟨fun i => 10 * (i + 1), fun _ => 0, []⟩ : Group Nat)).buffer (5 - 5 >>> 1)) =
      fold1 (· + ·) (live (⟨fun i => 10 * (i + 1), fun _ => 0, []⟩ : Group Nat).buffer 5) ∧
    (∀ j, fold1 (· + ·) (live (tree_after 6 (· + ·) j 5
        (⟨fun i => 10 * (i + 1), fun _ => 0, []⟩ : Group Nat)).2.buffer
        (tree_after 6 (· + ·) j 5 (⟨fun i => 10 * (i + 1), fun _ => 0, []⟩ : Group Nat)).1) =
      fold1 (· + ·) (live (⟨fun i => 10 * (i + 1), fun _ => 0, []⟩ : Group Nat).buffer 5)) ∧
    (∃ rounds, tree_loop 6 (· + ·) (5 + 1) 5 0
        (⟨fun i => 10 * (i + 1), fun _ => 0, []⟩ : Group Nat) =
      some ((tree_after 6 (· + ·) (5 + 1) 5
          (⟨fun i => 10 * (i + 1), fun _ => 0, []⟩ : Group Nat)).1, rounds,
        (tree_after 6 (· + ·) (5 + 1) 5
          (⟨fun i => 10 * (i + 1), fun _ => 0, []⟩ : Group Nat)).2)) :=
  round_preserves_fold 6 5 (· + ·) ⟨fun i => 10 * (i + 1), fun _ => 0, []⟩ (by decide)
    Nat.add_assoc Nat.add_comm

/-- C12: in a tree round with live count `m > 1` and `half = m >> 1`, the mirror
index of every writing worker `i < half` lies in `[half, m)`, the map
`i ↦ m - i - 1` is injective on the writers, slot `j < half` is written by worker
`j` only, no two workers write the same slot, and no worker reads a slot that
another worker writes; the stores of the code are exactly these writes, a worker's
written value depends only on the slots it reads, and the round leaves the same
buffer whatever the order in which the workers take their turn. -/
theorem pairing_is_conflict_free (m : Nat) (_hm : 1 < m) :
    (∀ i, i < m >>> 1 → m >>> 1 ≤ m - i - 1 ∧ m - i - 1 < m) ∧
    (∀ i1 i2, i1 < m >>> 1 → i2 < m >>> 1 → m - i1 - 1 = m - i2 - 1 → i1 = i2) ∧
    (∀ j tid, j < m >>> 1 → (j ∈ tree_writes m tid ↔ tid = j)) ∧
    (∀ t1 t2 s, t1 ≠ t2 → s ∈ tree_writes m t1 → s ∉ tree_writes m t2) ∧
    (∀ t1 t2 s, t1 ≠ t2 → s ∈ tree_reads m t1 → s ∉ tree_writes m t2) ∧
    (∀ (S : Type) (op : S → S → S) (tid : Nat) (G : Group S),
      (tree_worker op m tid G).stores = tree_writes m tid ++ G.stores ∧
      (∀ s, s ∉ tree_writes m tid → (tree_worker op m tid G).buffer s = G.buffer s) ∧
      (∀ G' : Group S, (∀ s ∈ tree_reads m tid, G.buffer s = G'.buffer s) →
        ∀ s ∈ tree_writes m tid,
          (tree_worker op m tid G).buffer s = (tree_worker op m tid G').buffer s)) ∧
    (∀ (S : Type) (op : S → S → S) (groupsize : Nat) (G : Group S) (l : List Nat),
      l.Perm (List.range groupsize) →
      (l.foldl (fun G tid => tree_worker op m tid G) G).buffer =
        (tree_round groupsize op m G).buffer) := by
  have hhalf : m >>> 1 = m / 2 := by rw [Nat.shiftRight_eq_div_pow, pow_one]
  refine ⟨?_, ?_, ?_, ?_, ?_, ?_, ?_⟩
  · intro i hi
    omega
  · intro i1 i2 h1 h2 he
    omega
  · intro j tid hj
    unfold tree_writes
    by_cases ht : tid < m >>> 1
    · simp only [if_pos ht, List.mem_singleton]
      exact eq_comm
    · simp only [if_neg ht, List.not_mem_nil, false_iff]
      intro he
      omega
  · intro t1 t2 s hne h1 h2
    unfold tree_writes at h1 h2
    by_cases ha : t1 < m >>> 1 <;> by_cases hb : t2 < m >>> 1 <;>
      simp_all
  · intro t1 t2 s hne h1 h2
    unfold tree_reads at h1
    unfold tree_writes at h2
    by_cases ha : t1 < m >>> 1
    · by_cases hb : t2 < m >>> 1
      · simp only [if_pos ha, if_pos hb, List.mem_cons, List.mem_singleton,
          List.not_mem_nil, or_false] at h1 h2
        omega
      · simp [if_neg hb] at h2
    · simp [if_neg ha] at h1
  · intro S op tid G
    exact ⟨tree_worker_stores op m tid G, fun s hs => tree_worker_frame op m tid s G hs,
      fun G' h => tree_worker_depends_on_reads op m tid G G' h⟩
  · intro S op groupsize G l hperm
    have hnd : l.Nodup := hperm.nodup_iff.mpr (List.nodup_range groupsize)
    unfold tree_round
    rw [tree_workers_any_order op m G l hnd,
      tree_workers_any_order op m G (List.range groupsize) (List.nodup_range groupsize)]
    funext i
    have : i ∈ l ↔ i ∈ List.range groupsize := hperm.mem_iff
    simp only [this]

/-- C12 on a concrete round: live count 5, so `half = 2`; the writers 0 and 1 have
the mirrors 4 and 3; the schedule `2, 0, 3, 1` of four workers leaves the same
buffer as the schedule `0, 1, 2, 3`. -/
theorem pairing_is_conflict_free_witness :
    (5 >>> 1 ≤ 5 - 1 - 1 ∧ 5 - 1 - 1 < 5) ∧
    (1 ∈ tree_writes 5 1 ↔ 1 = 1) ∧
    (4 ∈ tree_reads 5 0 → 4 ∉ tree_writes 5 1) ∧
    (([2, 0, 3, 1].foldl (fun G tid => tree_worker (· - ·) 5 tid G)
        (⟨fun i => 10 * (i + 1), fun _ => 0, []⟩ : Group Nat)).buffer =
      (tree_round 4 (· - ·) 5 (⟨fun i => 10 * (i + 1), fun _ => 0, []⟩ : Group Nat)).buffer) := by
  have h := pairing_is_conflict_free 5 (by decide)
  obtain ⟨h1, _, h3, _, h5, _, h7⟩ := h
  exact ⟨h1 1 (by decide), h3 1 1 (by decide), h5 0 1 4 (by decide),
    h7 Nat (· - ·) 4 ⟨fun i => 10 * (i + 1), fun _ => 0, []⟩ [2, 0, 3, 1] (by decide)⟩

/-- C13: in a tree round with odd live count `m ≥ 3` and `half = m >> 1`, no worker
writes `slot[half]`, no worker reads it (as a mirror or otherwise), its value is
unchanged by the round, and it is still live afterwards (`half < m - half`); in any
round, whatever `m`, every slot with index `≥ half` is unchanged and only slots
below `half` can change. -/
theorem odd_middle_is_carried (groupsize m : Nat) (binary_op : T → T → T) (G : Group T)
    (hodd : m % 2 = 1) (h3 : 3 ≤ m) :
    (∀ tid, m >>> 1 ∉ tree_writes m tid) ∧
    (∀ tid, tid < m >>> 1 → m - tid - 1 ≠ m >>> 1) ∧
    (∀ tid, m >>> 1 ∉ tree_reads m tid) ∧
    (tree_round groupsize binary_op m G).buffer (m >>> 1) = G.buffer (m >>> 1) ∧
    m >>> 1 < m - m >>> 1 ∧
    (∀ (m1 i : Nat) (G1 : Group T), m1 >>> 1 ≤ i →
      (tree_round groupsize binary_op m1 G1).buffer i = G1.buffer i) ∧
    (∀ (m1 i : Nat) (G1 : Group T),
      (tree_round groupsize binary_op m1 G1).buffer i ≠ G1.buffer i → i < m1 >>> 1) := by
  have hframe : ∀ (m1 i : Nat) (G1 : Group T), m1 >>> 1 ≤ i →
      (tree_round groupsize binary_op m1 G1).buffer i = G1.buffer i := by
    intro m1 i G1 hi
    rw [Nat.shiftRight_eq_div_pow, pow_one] at hi
    exact tree_round_frame groupsize binary_op m1 i G1 hi
  refine ⟨?_, ?_, ?_, ?_, ?_, hframe, ?_⟩
  · intro tid hmem
    unfold tree_writes at hmem
    by_cases ht : tid < m >>> 1
    · simp only [if_pos ht, List.mem_singleton] at hmem
      omega
    · simp [if_neg ht] at hmem
  · intro tid ht
    omega
  · intro tid hmem
    unfold tree_reads at hmem
    by_cases ht : tid < m >>> 1
    · simp only [if_pos ht, List.mem_cons, List.mem_singleton, List.not_mem_nil,
        or_false] at hmem
      omega
    · simp [if_neg ht] at hmem
  · exact hframe m (m >>> 1) G (Nat.le_refl _)
  · omega
  · intro m1 i G1 hne
    by_contra hge
    exact hne (hframe m1 i G1 (by omega))

/-- C13 on a concrete round: live count 5 among 5 workers, slots `10, …, 50` under
truncated subtraction; the middle slot 2 keeps `30` and `2 < 5 - 2`. -/
theorem odd_middle_is_carried_witness :
    (tree_round 5 (· - ·) 5 (⟨fun i => 10 * (i + 1), fun _ => 0, []⟩ : Group Nat)).buffer
        (5 >>> 1) = 30 ∧
    5 >>> 1 < 5 - 5 >>> 1 ∧ (∀ tid, 5 >>> 1 ∉ tree_writes 5 tid) ∧
    (∀ tid, 5 >>> 1 ∉ tree_reads 5 tid) := by
  obtain ⟨h1, _, h3, h4, h5, _, _⟩ := odd_middle_is_carried 5 5 (· - ·)
    (⟨fun i => 10 * (i + 1), fun _ => 0, []⟩ : Group Nat) (by decide) (by decide)
  exact ⟨h4, h5, h1, h3⟩

/-- C14: for every initial live count `m ≥ 0` the loop `while(m > 1)` of
`destructive_reduce_n` returns (with any fuel above `⌈log₂ m⌉`, in particular with
the `m + 1` the embedding gives it) after exactly `⌈log₂ m⌉` rounds; its final live
count is 1 when `m ≥ 1`, and for `m = 0` it runs no round and leaves the state as it
is; a round replaces a live count `m > 1` by `m - ⌊m/2⌋ = ⌈m/2⌉`, strictly smaller
and at least 1. -/
theorem tree_loop_terminates :
    (∀ (S : Type) (groupsize : Nat) (binary_op : S → S → S) (m : Nat) (G : Group S),
      ∃ m1 G1,
        (∀ fuel, Nat.clog 2 m < fuel →
          tree_loop groupsize binary_op fuel m 0 G = some (m1, Nat.clog 2 m, G1)) ∧
        tree_loop groupsize binary_op (m + 1) m 0 G = some (m1, Nat.clog 2 m, G1) ∧
        m1 ≤ 1 ∧ (1 ≤ m → m1 = 1) ∧ (m = 0 → m1 = 0 ∧ Nat.clog 2 m = 0 ∧ G1 = G)) ∧
    (∀ m : Nat, 1 < m →
      m - m >>> 1 = (m + 1) / 2 ∧ m - m >>> 1 < m ∧ 1 ≤ m - m >>> 1) := by
  constructor
  · intro S groupsize binary_op m G
    have hall := fun fuel => tree_loop_rounds groupsize binary_op fuel m 0 G
    simp only [Nat.zero_add] at hall
    have hm1 := hall (m + 1) (Nat.lt_succ_of_le (clog_le_self m))
    refine ⟨(tree_after groupsize binary_op (Nat.clog 2 m) m G).1,
      (tree_after groupsize binary_op (Nat.clog 2 m) m G).2,
      fun fuel hf => (hall fuel hf).1, hm1.1, hm1.2.1, hm1.2.2, ?_⟩
    intro h0
    subst h0
    refine ⟨?_, Nat.clog_zero_right 2, ?_⟩
    · rw [Nat.clog_zero_right]
      rfl
    · rw [Nat.clog_zero_right]
      rfl
  · intro m hm
    rw [Nat.shiftRight_eq_div_pow, pow_one]
    omega

/-- C14 on concrete live counts: 5 slots take `⌈log₂ 5⌉ = 3` rounds (live counts
5, 3, 2, 1); 8 slots take 3 rounds, 9 slots take 4. -/
theorem tree_loop_terminates_witness :
    (tree_loop 6 (· + ·) (5 + 1) 5 0
        (⟨fun i => 10 * (i + 1), fun _ => 0, []⟩ : Group Nat)).map
      (fun s => (s.1, s.2.1, s.2.2.buffer 0)) = some (1, 3, 150) ∧
    Nat.clog 2 5 = 3 ∧ Nat.clog 2 8 = 3 ∧ Nat.clog 2 9 = 4 ∧
    (5 - 5 >>> 1 = (5 + 1) / 2 ∧ 5 - 5 >>> 1 < 5 ∧ 1 ≤ 5 - 5 >>> 1) := by
  refine ⟨by decide, ?_, ?_, ?_, tree_loop_terminates.2 5 (by decide)⟩
  · simp [Nat.clog]
  · simp [Nat.clog]
  · simp [Nat.clog]

/-! ## Uninitialised storage, grain size, barriers -/

/-- C15, as stated, fails outside the 32-bit range.  For four workers and an input of
`2^31` elements the live count that line 135 hands to `destructive_reduce_n` is
`-2^31`, not `min groupsize N = 4`; with `65536 * 65536` elements per group and the
input `[9, 4]` the tile loop of worker 0, whose index is below `min groupsize N`, has
no result. -/
theorem live_count_out_of_range :
    live_count32 4 (List.replicate (2 ^ 31) (1 : Nat)).length = -2 ^ 31 ∧
    min 4 (List.replicate (2 ^ 31) (1 : Nat)).length = 4 ∧
    accumulate 65536 65536 garbage [9, 4] (· - ·) 0 = none := by
  refine ⟨?_, ?_, ?_⟩
  · rw [List.length_replicate]
    decide
  · rw [List.length_replicate]
    decide
  · exact (reduce_value_sizes_wrap garbage [9, 4] 0 (· - ·) 0 (by decide) (by decide)).1

/-- C15, amended: for `groupsize ≥ 1`, `grainsize ≥ 1` with
`groupsize * grainsize < 2^31` and any input of length `N < 2^31`, the workers that
folded at least one element are those with index `< min groupsize N`, which is the
live count `bulk::reduce` hands to `destructive_reduce_n`; every scratch slot that
`destructive_reduce_n` reads has an index below it, each of these slots was stored
by its worker with the fold of that worker's share of the input, the value
`destructive_reduce_n` returns is the same for two buffers that agree on these
slots, and so the value returned by `bulk::reduce` is the same for any two contents
of the uninitialised storage (scratch buffer, `this_sum`, `inputs`). -/
theorem no_uninitialised_value_reaches_result (groupsize grainsize : Nat) (a : List T)
    (init : T) (binary_op : T → T → T) (tid : Nat)
    (_hg : 1 ≤ groupsize) (hgr : 1 ≤ grainsize) (_htid : tid < groupsize)
    (hN : a.length < 2 ^ 31) (hprod : groupsize * grainsize < 2 ^ 31) :
    (∀ (u : Uninit T) (t : Nat), t < groupsize →
      ∃ r, accumulate groupsize grainsize u a binary_op t = some r ∧
        (1 ≤ r.consumed ↔ t < min groupsize a.length)) ∧
    (live_count32 groupsize a.length = ((min groupsize a.length : Nat) : Int) ∧
      ∀ u : Uninit T, reduce groupsize grainsize u a init binary_op tid =
        (write_sums groupsize grainsize u a binary_op).bind fun G =>
          destructive_reduce_n groupsize G (live_count32 groupsize a.length) init binary_op
            tid) ∧
    (∀ t : Nat, ∃ ev,
      destructive_reduce_n_events t (live_count32 groupsize a.length) = some ev ∧
      ∀ s, Access.load s ∈ ev → s < min groupsize a.length) ∧
    (∀ u : Uninit T, ∃ G, write_sums groupsize grainsize u a binary_op = some G ∧
      ∀ s, s < min groupsize a.length →
        s ∈ G.stores ∧ fold1 binary_op (assigned groupsize s a) = some (G.buffer s)) ∧
    (∀ G G' : Group T, (∀ s, s < min groupsize a.length → G.buffer s = G'.buffer s) →
      (destructive_reduce_n groupsize G (live_count32 groupsize a.length) init binary_op
          tid).map Prod.fst =
        (destructive_reduce_n groupsize G' (live_count32 groupsize a.length) init binary_op
          tid).map Prod.fst) ∧
    (∀ u u' : Uninit T, ∃ v,
      reduce_value groupsize grainsize u a init binary_op tid = some v ∧
      reduce_value groupsize grainsize u' a init binary_op tid = some v) := by
  have hg31 : groupsize < 2 ^ 31 :=
    Nat.lt_of_le_of_lt (Nat.le_mul_of_pos_right groupsize hgr) hprod
  have hlive := live_count32_eq groupsize a.length hg31 hN
  refine ⟨?_, ⟨hlive, ?_⟩, ?_, ?_, ?_, ?_⟩
  · intro u t ht
    rw [accumulate_eq_ideal groupsize grainsize t u a binary_op ht hgr hprod hN]
    obtain ⟨r, hr, _, hc, _, hj⟩ := worker_sum_spec groupsize grainsize t u a binary_op ht hgr
    refine ⟨r, hr, ?_, ?_⟩
    · intro h1
      by_contra hge
      have := (hj (by omega)).2
      omega
    · intro hlt
      rw [hc]
      exact assigned_length_pos groupsize t a ht (by omega)
  · intro u
    unfold bulk.reduce
    rfl
  · intro t
    obtain ⟨ev, he, _, hload⟩ :=
      destructive_reduce_n_events_spec t (live_count32 groupsize a.length)
    refine ⟨ev, he, ?_⟩
    intro s hs
    have h1 := hload s hs
    rw [hlive] at h1
    exact_mod_cast h1
  · intro u
    rw [write_sums_eq_ideal groupsize grainsize u a binary_op hgr hprod hN]
    obtain ⟨G, hG, hs⟩ := write_sums_spec groupsize grainsize u a binary_op hgr
    obtain ⟨G', hG', hslot, _, _⟩ := slot_spec groupsize grainsize u a binary_op hgr
    rw [hG] at hG'
    cases Option.some.inj hG'
    refine ⟨G, hG, fun s hs1 => ⟨?_, hslot s hs1⟩⟩
    obtain ⟨r, hr, _, _, hm⟩ := (hs s).1 (by omega)
    obtain ⟨r1, hr1, hd, _, _, _⟩ :=
      worker_sum_spec groupsize grainsize s u a binary_op (by omega) hgr
    rw [hr] at hr1
    cases Option.some.inj hr1
    apply hm.mpr
    rw [hd]
    simp
    omega
  · intro G G' h
    rw [hlive, destructive_reduce_n_cast, destructive_reduce_n_cast]
    obtain ⟨v, h1, h2⟩ := destructive_reduce_n_agree groupsize binary_op
      (min groupsize a.length) init tid tid G G' (Nat.min_le_left _ _) h
    rw [h1, h2]
  · intro u u'
    rw [reduce_value_eq_ideal groupsize grainsize u a init binary_op tid hgr hprod hN,
      reduce_value_eq_ideal groupsize grainsize u' a init binary_op tid hgr hprod hN]
    exact reduce_value_determined groupsize grainsize grainsize u u' a init binary_op tid tid
      hgr hgr

/-- C15 on a concrete call: three workers, grain 2, input `[9, 4]`, truncated
subtraction; two different contents of the uninitialised storage give the same
value, worker 2, beyond the input, folded nothing, and the live count is 2. -/
theorem no_uninitialised_value_reaches_result_witness :
    (∃ v, reduce_value 3 2 garbage [9, 4] 50 (· - ·) 1 = some v ∧
      reduce_value 3 2 (⟨fun _ => 0, fun _ _ _ => 1, fun _ => 2⟩ : Uninit Nat) [9, 4] 50
        (· - ·) 1 = some v) ∧
    (∃ r, accumulate 3 2 garbage [9, 4] (· - ·) 2 = some r ∧
      (1 ≤ r.consumed ↔ 2 < min 3 [9, 4].length)) ∧
    live_count32 3 [9, 4].length = ((min 3 [9, 4].length : Nat) : Int) ∧
    (∃ ev, destructive_reduce_n_events 1 (live_count32 3 [9, 4].length) = some ev ∧
      ∀ s, Access.load s ∈ ev → s < min 3 [9, 4].length) := by
  obtain ⟨h1, h2, h3, _, _, h6⟩ := no_uninitialised_value_reaches_result 3 2 [9, 4] 50
    (· - ·) 1 (by decide) (by decide) (by decide) (by decide) (by decide)
  exact ⟨h6 garbage ⟨fun _ => 0, fun _ _ _ => 1, fun _ => 2⟩, h1 garbage 2 (by decide),
    h2.1, h3 1⟩

/-- C16, as stated, fails outside the 32-bit range.  Sizes: with `65536` workers the
input `[8]` gives `50 - 8 = 42` with grain 1, and no result with grain `65536`, for
which line 68 computes `elements_per_group = 0`.  Length: with one worker and
`2^32 + 1` ones, whose length line 87 reads as `1`, the first tile folds `a[0]`
only, the second tile has a negative `partition_size` and is skipped, and the third
tile folds what is left, 3 elements with grain `2^31 - 1` and 5 with grain
`2^31 - 2`; the results under `+` are 4 and 6. -/
theorem grainsize_changes_result :
    (reduce_value 65536 1 garbage [8] 50 (· - ·) 0 = some 42 ∧
      reduce_value 65536 65536 garbage [8] 50 (· - ·) 0 = none) ∧
    (reduce_value 1 (2 ^ 31 - 1) garbage (List.replicate (2 ^ 32 + 1) 1) 0 (· + ·) 0 =
        some 4 ∧
      reduce_value 1 (2 ^ 31 - 2) garbage (List.replicate (2 ^ 32 + 1) 1) 0 (· + ·) 0 =
        some 6) :=
  ⟨⟨reduce_value_singleton 65536 1 garbage 8 50 (· - ·) 0 (by decide) (by decide) (by decide),
      (reduce_value_sizes_wrap garbage [8] 50 (· - ·) 0 (by decide) (by decide)).2.2⟩,
    reduce_three_tiles (2 ^ 31 - 1) 3 garbage 0 0 (by decide) (by decide) (by decide),
    reduce_three_tiles (2 ^ 31 - 2) 5 garbage 0 0 (by decide) (by decide) (by decide)⟩

/-- C16, amended: for `groupsize ≥ 1`, any two grain sizes `g1, g2 ≥ 1` with
`groupsize * g1 < 2^31` and `groupsize * g2 < 2^31`, any input of length `N < 2^31`,
`init` and `binary_op` (no algebraic law assumed), `bulk::reduce` returns the same
value with `(groupsize, g1)` as with `(groupsize, g2)`: the stored sum of every live
worker is the same strided fold whatever the tile size. -/
theorem reduce_independent_of_grainsize (groupsize g1 g2 : Nat) (u : Uninit T) (a : List T)
    (init : T) (binary_op : T → T → T) (tid : Nat)
    (_hg : 1 ≤ groupsize) (h1 : 1 ≤ g1) (h2 : 1 ≤ g2) (_htid : tid < groupsize)
    (hN : a.length < 2 ^ 31) (hp1 : groupsize * g1 < 2 ^ 31)
    (hp2 : groupsize * g2 < 2 ^ 31) :
    (∃ v, reduce_value groupsize g1 u a init binary_op tid = some v ∧
      reduce_value groupsize g2 u a init binary_op tid = some v) ∧
    (∃ G1 G2, write_sums groupsize g1 u a binary_op = some G1 ∧
      write_sums groupsize g2 u a binary_op = some G2 ∧
      ∀ t, t < min groupsize a.length →
        G1.buffer t = G2.buffer t ∧
        fold1 binary_op (assigned groupsize t a) = some (G1.buffer t)) := by
  rw [reduce_value_eq_ideal groupsize g1 u a init binary_op tid h1 hp1 hN,
    reduce_value_eq_ideal groupsize g2 u a init binary_op tid h2 hp2 hN,
    write_sums_eq_ideal groupsize g1 u a binary_op h1 hp1 hN,
    write_sums_eq_ideal groupsize g2 u a binary_op h2 hp2 hN]
  refine ⟨reduce_value_determined groupsize g1 g2 u u a init binary_op tid tid h1 h2, ?_⟩
  obtain ⟨G1, hG1, hs1, _, _⟩ := slot_spec groupsize g1 u a binary_op h1
  obtain ⟨G2, hG2, hs2, _, _⟩ := slot_spec groupsize g2 u a binary_op h2
  refine ⟨G1, G2, hG1, hG2, fun t ht => ⟨?_, hs1 t ht⟩⟩
  have e1 := hs1 t ht
  have e2 := hs2 t ht
  rw [e1] at e2
  exact Option.some.inj e2

/-- C16 on a concrete call: three workers, input of 7 elements, truncated
subtraction, grain 1 against grain 4. -/
theorem reduce_independent_of_grainsize_witness :
    ∃ v, reduce_value 3 1 garbage [90, 4, 7, 1, 8, 2, 30] 500 (· - ·) 2 = some v ∧
      reduce_value 3 4 garbage [90, 4, 7, 1, 8, 2, 30] 500 (· - ·) 2 = some v :=
  (reduce_independent_of_grainsize 3 1 4 garbage [90, 4, 7, 1, 8, 2, 30] 500 (· - ·) 2
    (by decide) (by decide) (by decide) (by decide) (by decide) (by decide) (by decide)).1

/-- C17, as stated, fails outside the 32-bit range.  With four workers, grain 2 and an
input of `2^31` elements the live count of line 135 is `-2^31`, no tree round runs
and every worker meets 3 barriers, where `3 + ⌈log₂ (min groupsize N)⌉` is 5; with
`65536 * 65536` elements per group worker 0 never reaches the barrier of line 132. -/
theorem barrier_count_out_of_range :
    (∃ ev, reduce_events 4 2 garbage (List.replicate (2 ^ 31) 1) (· + ·) 0 = some ev ∧
      ev.count Access.wait = 3) ∧
    3 + Nat.clog 2 (min 4 (List.replicate (2 ^ 31) 1).length) = 5 ∧
    reduce_events 65536 65536 garbage [5] (· + ·) 0 = none := by
  refine ⟨?_, ?_, ?_⟩
  · obtain ⟨ev, he, hcount⟩ := reduce_events_spec 4 2 garbage (List.replicate (2 ^ 31) 1)
      (· + ·) 0 (by decide) (by decide) (by decide)
    refine ⟨ev, he, ?_⟩
    rw [hcount, List.length_replicate]
    have h0 : (live_count32 4 (2 ^ 31)).toNat = 0 := by decide
    rw [h0, Nat.clog_zero_right]
  · rw [List.length_replicate]
    have h4 : min 4 (2 ^ 31) = 2 ^ 2 := by decide
    rw [h4, Nat.clog_pow 2 2 (by decide)]
  · have hacc := (reduce_value_sizes_wrap garbage [5] 0 (· + ·) 0 (by decide)
      (by decide)).1
    unfold reduce_events
    rw [hacc, Option.none_bind]

/-- C17, amended: for `groupsize ≥ 1`, `grainsize ≥ 1` with
`groupsize * grainsize < 2^31` and any input, every worker `tid < groupsize`
executes the same number of barriers during one call of `bulk::reduce`: one after
the stores, one per tree round, two after the tree loop; the tree loop of the group
runs that same number of rounds; for an input length `N < 2^31` the number is
`3 + ⌈log₂ (min groupsize N)⌉`, which is 3 for the empty input; and neither of the
two statements that test the worker's index or its flag (lines 32–37 and 127–130)
contains a barrier. -/
theorem barriers_are_uniform (groupsize grainsize : Nat) (u : Uninit T) (a : List T)
    (binary_op : T → T → T) (tid : Nat)
    (_hg : 1 ≤ groupsize) (hgr : 1 ≤ grainsize) (htid : tid < groupsize)
    (hprod : groupsize * grainsize < 2 ^ 31) :
    (∃ ev, reduce_events groupsize grainsize u a binary_op tid = some ev ∧
      ev.count Access.wait = 3 + Nat.clog 2 (live_count32 groupsize a.length).toNat ∧
      (∀ t2, t2 < groupsize →
        ∃ ev2, reduce_events groupsize grainsize u a binary_op t2 = some ev2 ∧
          ev2.count Access.wait = ev.count Access.wait) ∧
      (a.length < 2 ^ 31 →
        ev.count Access.wait = 3 + Nat.clog 2 (min groupsize a.length) ∧
        (a.length = 0 → ev.count Access.wait = 3))) ∧
    (∃ G m1 G1, write_sums groupsize grainsize u a binary_op = some G ∧
      tree_loop groupsize binary_op ((live_count32 groupsize a.length).toNat + 1)
          (live_count32 groupsize a.length).toNat 0 G =
        some (m1, Nat.clog 2 (live_count32 groupsize a.length).toNat, G1) ∧
      (a.length < 2 ^ 31 →
        (live_count32 groupsize a.length).toNat = min groupsize a.length)) ∧
    (∀ m t, Access.wait ∉ tree_branch m t) ∧
    (∀ (b : Bool) (t : Nat), Access.wait ∉ store_branch b t) := by
  have hg31 : groupsize < 2 ^ 31 :=
    Nat.lt_of_le_of_lt (Nat.le_mul_of_pos_right groupsize hgr) hprod
  have hlive : a.length < 2 ^ 31 →
      (live_count32 groupsize a.length).toNat = min groupsize a.length := by
    intro hN
    rw [live_count32_eq groupsize a.length hg31 hN, Int.toNat_ofNat]
  refine ⟨?_, ?_, ?_, ?_⟩
  · obtain ⟨ev, he, hcount⟩ :=
      reduce_events_spec groupsize grainsize u a binary_op tid hgr htid hprod
    refine ⟨ev, he, hcount, ?_, ?_⟩
    · intro t2 ht2
      obtain ⟨ev2, he2, hcount2⟩ :=
        reduce_events_spec groupsize grainsize u a binary_op t2 hgr ht2 hprod
      exact ⟨ev2, he2, hcount2.trans hcount.symm⟩
    · intro hN
      rw [hcount, hlive hN]
      refine ⟨rfl, ?_⟩
      intro h0
      rw [h0, Nat.min_zero, Nat.clog_zero_right]
  · obtain ⟨G, hG, _⟩ := write_sums_total groupsize grainsize u a binary_op hgr hprod
    have h := tree_loop_rounds groupsize binary_op
      ((live_count32 groupsize a.length).toNat + 1) (live_count32 groupsize a.length).toNat
      0 G (Nat.lt_succ_of_le (clog_le_self _))
    rw [Nat.zero_add] at h
    exact ⟨G, _, _, hG, h.1, hlive⟩
  · intro m t
    unfold tree_branch tree_reads tree_writes
    by_cases ht : t < m >>> 1
    · simp [ht]
    · simp [ht]
  · intro b t
    unfold store_branch
    cases b
    · simp
    · simp

/-- C17 on a concrete call: eight workers, grain 1, five input elements: every
worker meets `3 + ⌈log₂ 5⌉ = 6` barriers; worker 1 stores, reads its slot and its
mirror in the round with live count 5 only, and worker 6 only stores. -/
theorem barriers_are_uniform_witness :
    reduce_events 8 1 garbage [1, 2, 3, 4, 5] (· + ·) 1 =
      some [Access.store 1, Access.wait, Access.load 1, Access.load 3, Access.store 1,
        Access.wait, Access.wait, Access.wait, Access.wait, Access.load 0, Access.wait] ∧
    reduce_events 8 1 garbage [1, 2, 3, 4, 5] (· + ·) 6 =
      some [Access.store 6, Access.wait, Access.wait, Access.wait, Access.wait, Access.wait,
        Access.load 0, Access.wait] ∧
    (∃ ev, reduce_events 8 1 garbage [1, 2, 3, 4, 5] (· + ·) 1 = some ev ∧
      ev.count Access.wait = 3 + Nat.clog 2 (min 8 [1, 2, 3, 4, 5].length) ∧
      (∀ t2, t2 < 8 → ∃ ev2, reduce_events 8 1 garbage [1, 2, 3, 4, 5] (· + ·) t2 = some ev2 ∧
        ev2.count Access.wait = ev.count Access.wait)) ∧
    Access.wait ∉ tree_branch 5 1 ∧ Access.wait ∉ store_branch true 1 := by
  obtain ⟨⟨ev, he, _, hsame, hrange⟩, _, hb1, hb2⟩ := barriers_are_uniform 8 1 garbage
    [1, 2, 3, 4, 5] (· + ·) 1 (by decide) (by decide) (by decide) (by decide)
  exact ⟨by decide, by decide, ⟨ev, he, (hrange (by decide)).1, hsame⟩, hb1 5 1, hb2 true 1⟩

/-! ## 32-bit index arithmetic in range -/

/-- C18: with `size_type = int` (32-bit two's complement), for an input length
`N < 2^31`, `grainsize ≥ 1` and `groupsize * grainsize < 2^31`, the computed
`elements_per_group` is `groupsize * grainsize`, the computed `partition_size` is
`min (groupsize * grainsize) (N - off)` wherever `first` stands (`off ≤ N`), every
element index `groupsize * i + tid` with `i < grainsize`, `tid < groupsize` has its
mathematical value, and the live count passed to `destructive_reduce_n` is
`min groupsize N`: the conversions to `int` and the `std::size_t` arithmetic neither
wrap nor truncate. -/
theorem index_arithmetic_is_exact (groupsize grainsize n : Nat)
    (hgr : 1 ≤ grainsize) (hn : n < 2 ^ 31) (hprod : groupsize * grainsize < 2 ^ 31) :
    elements_per_group32 groupsize grainsize = ((groupsize * grainsize : Nat) : Int) ∧
    (∀ off, off ≤ n →
      partition_size32 groupsize grainsize n off =
        ((min (groupsize * grainsize) (n - off) : Nat) : Int)) ∧
    (∀ i tid, i < grainsize → tid < groupsize →
      index32 groupsize i tid = ((groupsize * i + tid : Nat) : Int)) ∧
    live_count32 groupsize n = ((min groupsize n : Nat) : Int) := by
  have hprodI : ((groupsize * grainsize : Nat) : Int) < 2 ^ 31 := by exact_mod_cast hprod
  have hnI : (n : Int) < 2 ^ 31 := by exact_mod_cast hn
  have hepg : elements_per_group32 groupsize grainsize = ((groupsize * grainsize : Nat) : Int) := by
    unfold elements_per_group32
    rw [← Nat.cast_mul, to_size_t_of_range _ (Int.natCast_nonneg _) hprodI,
      to_int32_of_range _ (Int.natCast_nonneg _) hprodI]
  have hgle : groupsize ≤ groupsize * grainsize := Nat.le_mul_of_pos_right groupsize hgr
  have hgI : (groupsize : Int) < 2 ^ 31 := by
    have : groupsize < 2 ^ 31 := Nat.lt_of_le_of_lt hgle hprod
    exact_mod_cast this
  refine ⟨hepg, ?_, ?_, ?_⟩
  · intro off hoff
    unfold partition_size32
    have hsub : (n : Int) - (off : Int) = ((n - off : Nat) : Int) := (Nat.cast_sub hoff).symm
    have hlt : ((n - off : Nat) : Int) < 2 ^ 31 := by
      have : n - off < 2 ^ 31 := Nat.lt_of_le_of_lt (Nat.sub_le n off) hn
      exact_mod_cast this
    rw [hepg, hsub, to_int32_of_range _ (Int.natCast_nonneg _) hlt, Nat.cast_min]
  · intro i tid hi htid
    have hidx : groupsize * i + tid < groupsize * grainsize := by
      calc groupsize * i + tid < groupsize * i + groupsize := by omega
        _ = groupsize * (i + 1) := by ring
        _ ≤ groupsize * grainsize := Nat.mul_le_mul_left groupsize hi
    have h1 : ((groupsize * i : Nat) : Int) < 2 ^ 31 := by
      have : groupsize * i < 2 ^ 31 := by omega
      exact_mod_cast this
    have h2 : ((groupsize * i + tid : Nat) : Int) < 2 ^ 31 := by
      have : groupsize * i + tid < 2 ^ 31 := by omega
      exact_mod_cast this
    unfold index32
    rw [← Nat.cast_mul, to_size_t_of_range _ (Int.natCast_nonneg _) h1, ← Nat.cast_add,
      to_size_t_of_range _ (Int.natCast_nonneg _) h2,
      to_int32_of_range _ (Int.natCast_nonneg _) h2]
  · unfold live_count32
    rw [to_int32_of_range _ (Int.natCast_nonneg _) hgI,
      to_int32_of_range _ (Int.natCast_nonneg _) hnI, Nat.cast_min]

/-- C18 on concrete sizes: four workers, grain 2, nine elements, second tile
(`off = 8`), register 1 of worker 3; out of range the conversion does wrap
(`2^31` becomes `-2^31`, and `65536 * 65536` elements per group become `0`). -/
theorem index_arithmetic_is_exact_witness :
    elements_per_group32 4 2 = 8 ∧ partition_size32 4 2 9 8 = 1 ∧ index32 4 1 3 = 7 ∧
    live_count32 4 9 = 4 ∧ to_int32 (2 ^ 31) = -2 ^ 31 ∧
    elements_per_group32 65536 65536 = 0 := by
  obtain ⟨h1, h2, h3, h4⟩ := index_arithmetic_is_exact 4 2 9 (by decide) (by decide) (by decide)
  exact ⟨h1, h2 8 (by decide), h3 1 3 (by decide) (by decide), h4, by decide, by decide⟩

end bulk
